import Mathlib

/-!
# graph-agent: the dependency graph, its walks, its reduction and the reference parser

A shallow embedding of `internal/dag` (dag.go, walk.go, reduce.go) and of the parts of
`internal/gragent` (ref.go, root.go) that build and evaluate the component graph.

Modelling conventions.

* A `dag.Node` is an interface value compared by identity; a node is a handle `Node := Nat`.
* A Go `map[Node]struct{}` is a duplicate-free list of keys (`nodeSet`), a Go
  `map[Node]nodeSet` is an association list (`edgeMap`).  A nil map and an empty map
  read alike in Go and are both the empty list here, so `Graph.init` is the identity.
* Go iterates a map in an unspecified order that may differ between two iterations of the
  same map.  Every `for ... range m` takes its order from a schedule `sched : Sched`:
  the iteration performed at tick `t` over the key list `l` runs through `sched t l`, and
  the tick is advanced by every iteration.  A schedule is `Fair` when every `sched t l`
  is a permutation of `l`; theorems quantify over all fair schedules.
* Loops that are not structurally bounded (`for len(unchecked) > 0`) take fuel; running out
  of fuel is `none`, and the theorems show that enough fuel always yields a result.
-/

namespace Dag

/-- A graph vertex: the identity (handle) of a `dag.Node` interface value. -/
abbrev Node := Nat

/-- The Go struct `Edge{From, To}`: `From` depends on `To`. -/
structure Edge where
  From : Node
  To : Node
deriving DecidableEq, Repr

/-- Go `type nodeSet map[Node]struct{}`: the list of its keys. -/
abbrev nodeSet := List Node

/-- Go `map[Node]nodeSet`: an association list from key to set. -/
abbrev edgeMap := List (Node × nodeSet)

/-- `ns.Add(n)`: `ns[n] = struct{}{}`. -/
def nodeSet.Add (ns : nodeSet) (n : Node) : nodeSet :=
  if n ∈ ns then ns else ns ++ [n]

/-- `ns.Has(n)`. -/
def nodeSet.Has (ns : nodeSet) (n : Node) : Bool :=
  decide (n ∈ ns)

/-- The builtin `delete(ns, n)`. -/
def nodeSet.delete (ns : nodeSet) (n : Node) : nodeSet :=
  ns.filter (fun x => decide (x ≠ n))

/-- The two-valued map read `s, ok := m[k]`. -/
def edgeMap.find : edgeMap → Node → Option nodeSet
  | [], _ => none
  | (k, s) :: m, n => if k = n then some s else edgeMap.find m n

/-- The map write `m[k] = s`. -/
def edgeMap.put : edgeMap → Node → nodeSet → edgeMap
  | [], n, s => [(n, s)]
  | (k, s0) :: m, n, s => if k = n then (k, s) :: m else (k, s0) :: edgeMap.put m n s

/-- The one-valued map read `m[k]`, the nil (empty) set when the key is absent. -/
def edgeMap.at (m : edgeMap) (n : Node) : nodeSet :=
  match edgeMap.find m n with
  | some s => s
  | none => []

/-- The Go struct `Graph`. -/
structure Graph where
  nodes : nodeSet
  outEdges : edgeMap
  inEdges : edgeMap
deriving DecidableEq, Repr

/-- The zero value of `Graph`, "ready for use". -/
def Graph.empty : Graph := ⟨[], [], []⟩

/-- `g.Add(n)`. -/
def Graph.Add (g : Graph) (n : Node) : Graph :=
  { g with nodes := nodeSet.Add g.nodes n }

/-- The message `AddEdge` panics with. -/
def addEdgePanic : String := "adding edge with a node that doesn't exist in graph"

/-- `g.AddEdge(e)`: the graph left behind, and the panic value when it panics. -/
def Graph.AddEdge (g : Graph) (e : Edge) : Graph × Option String :=
  if !nodeSet.Has g.nodes e.From || !nodeSet.Has g.nodes e.To then
    (g, some addEdgePanic)
  else
    let inSet := match edgeMap.find g.inEdges e.To with
      | some s => s
      | none => []
    let inEdges := edgeMap.put g.inEdges e.To (nodeSet.Add inSet e.From)
    let outSet := match edgeMap.find g.outEdges e.From with
      | some s => s
      | none => []
    let outEdges := edgeMap.put g.outEdges e.From (nodeSet.Add outSet e.To)
    (⟨g.nodes, outEdges, inEdges⟩, none)

/-- `g.RemoveEdge(e)`. -/
def Graph.RemoveEdge (g : Graph) (e : Edge) : Graph :=
  let inEdges := match edgeMap.find g.inEdges e.To with
    | some s => edgeMap.put g.inEdges e.To (nodeSet.delete s e.From)
    | none => g.inEdges
  let outEdges := match edgeMap.find g.outEdges e.From with
    | some s => edgeMap.put g.outEdges e.From (nodeSet.delete s e.To)
    | none => g.outEdges
  ⟨g.nodes, outEdges, inEdges⟩

/-- `g.Nodes()`, the map iterated in the order `ord`. -/
def Graph.Nodes (ord : List Node → List Node) (g : Graph) : List Node :=
  ord g.nodes

/-- `g.Dependants(n)`, the map iterated in the order `ord`. -/
def Graph.Dependants (ord : List Node → List Node) (g : Graph) (n : Node) : List Node :=
  ord (edgeMap.at g.inEdges n)

/-- `g.Dependencies(n)`, the map iterated in the order `ord`. -/
def Graph.Dependencies (ord : List Node → List Node) (g : Graph) (n : Node) : List Node :=
  ord (edgeMap.at g.outEdges n)

/-- One call of the graph's mutating API. -/
inductive Op where
  | add (n : Node)
  | addEdge (e : Edge)
  | removeEdge (e : Edge)
deriving DecidableEq, Repr

/-- Runs one call; `none` when the call panics. -/
def Graph.step (g : Graph) : Op → Option Graph
  | .add n => some (g.Add n)
  | .addEdge e =>
    match g.AddEdge e with
    | (g1, none) => some g1
    | (_, some _) => none
  | .removeEdge e => some (g.RemoveEdge e)

/-- Runs a sequence of calls from `g`; `none` as soon as one of them panics. -/
def Graph.run (g : Graph) : List Op → Option Graph
  | [] => some g
  | op :: ops =>
    match g.step op with
    | some g1 => Graph.run g1 ops
    | none => none

/-- The edge relation: `v` is in the outgoing set of `u`. -/
def Graph.edge (g : Graph) (u v : Node) : Prop :=
  v ∈ edgeMap.at g.outEdges u

instance (g : Graph) (u v : Node) : Decidable (g.edge u v) := by
  unfold Graph.edge; infer_instance

/-- Reachability by zero or more outgoing edges. -/
def Graph.Reach (g : Graph) (u v : Node) : Prop :=
  Relation.ReflTransGen g.edge u v

/-- A path of at least one outgoing edge. -/
def Graph.Path (g : Graph) (u v : Node) : Prop :=
  Relation.TransGen g.edge u v

/-- A path of at least two outgoing edges from `u` to `v`. -/
def Graph.LongPath (g : Graph) (u v : Node) : Prop :=
  ∃ x, g.edge u x ∧ Relation.TransGen g.edge x v

/-- No directed cycle. -/
def Graph.Acyclic (g : Graph) : Prop :=
  ∀ x, ¬ Relation.TransGen g.edge x x

/-- The mirror-edge invariant. -/
def Graph.Mirror (g : Graph) : Prop :=
  ∀ u v, v ∈ edgeMap.at g.outEdges u ↔ u ∈ edgeMap.at g.inEdges v

/-- The invariants of a graph held in Go maps and built through the API: the key lists
have no duplicates, every edge endpoint is a member node, and the two edge maps mirror
each other. -/
structure Graph.Valid (g : Graph) : Prop where
  nodes_nodup : g.nodes.Nodup
  out_nodup : ∀ n, (edgeMap.at g.outEdges n).Nodup
  in_nodup : ∀ n, (edgeMap.at g.inEdges n).Nodup
  endpoints : ∀ u v, v ∈ edgeMap.at g.outEdges u → u ∈ g.nodes ∧ v ∈ g.nodes
  mirror : g.Mirror

/-- The order Go picks for each map iteration: iteration number `t` over keys `l`. -/
abbrev Sched := Nat → List Node → List Node

/-- Every iteration runs through each key exactly once. -/
def Sched.Fair (sched : Sched) : Prop :=
  ∀ t l, (sched t l).Perm l

/-- What a visitor closure can read and write besides its own state: the graph behind
the `*Graph` pointer and the count of map iterations performed so far. -/
structure World where
  g : Graph
  tick : Nat
deriving DecidableEq, Repr

/-- Go `type WalkFunc func(n Node) error`, a closure over a state `σ`: the world and state
it leaves, and the error it returns (`none` for nil). -/
abbrev WalkFunc (σ ε : Type) := Node → World → σ → World × σ × Option ε

/-- A visitor that touches only its own state. -/
def WalkFunc.pure {σ ε : Type} (fn : Node → σ → σ × Option ε) : WalkFunc σ ε :=
  fun n w s => (w, fn n s)

/-- What a walk leaves behind: the world, the visitor state, the returned error, and the
nodes the visitor was invoked on, in order. -/
structure WalkResult (σ ε : Type) where
  world : World
  state : σ
  err : Option ε
  calls : List Node

/-- The loop of `Walk`.  `unchecked` is the Go slice read from its end: the head of the
list is the last element of the slice, so a pop takes the head and appending `n` conses. -/
def walkLoop {σ ε : Type} (sched : Sched) (fn : WalkFunc σ ε) :
    Nat → World → σ → nodeSet → List Node → List Node → Option (WalkResult σ ε)
  | _, w, s, _, [], calls => some ⟨w, s, none, calls⟩
  | 0, _, _, _, _ :: _, _ => none
  | fuel + 1, w, s, visited, check :: unchecked, calls =>
    if nodeSet.Has visited check then
      walkLoop sched fn fuel w s visited unchecked calls
    else
      match fn check w s with
      | (w1, s1, some err) => some ⟨w1, s1, some err, calls ++ [check]⟩
      | (w1, s1, none) =>
        let outs := sched w1.tick (edgeMap.at w1.g.outEdges check)
        walkLoop sched fn fuel ⟨w1.g, w1.tick + 1⟩ s1 (nodeSet.Add visited check)
          (outs.reverse ++ unchecked) (calls ++ [check])

/-- `Walk(g, start, fn)`. -/
def Walk {σ ε : Type} (fuel : Nat) (sched : Sched) (w : World) (start : List Node)
    (fn : WalkFunc σ ε) (s : σ) : Option (WalkResult σ ε) :=
  walkLoop sched fn fuel w s [] start.reverse []

/-- The loop of `WalkReverse`: as `walkLoop`, over the incoming edges. -/
def walkReverseLoop {σ ε : Type} (sched : Sched) (fn : WalkFunc σ ε) :
    Nat → World → σ → nodeSet → List Node → List Node → Option (WalkResult σ ε)
  | _, w, s, _, [], calls => some ⟨w, s, none, calls⟩
  | 0, _, _, _, _ :: _, _ => none
  | fuel + 1, w, s, visited, check :: unchecked, calls =>
    if nodeSet.Has visited check then
      walkReverseLoop sched fn fuel w s visited unchecked calls
    else
      match fn check w s with
      | (w1, s1, some err) => some ⟨w1, s1, some err, calls ++ [check]⟩
      | (w1, s1, none) =>
        let ins := sched w1.tick (edgeMap.at w1.g.inEdges check)
        walkReverseLoop sched fn fuel ⟨w1.g, w1.tick + 1⟩ s1 (nodeSet.Add visited check)
          (ins.reverse ++ unchecked) (calls ++ [check])

/-- `WalkReverse(g, start, fn)`. -/
def WalkReverse {σ ε : Type} (fuel : Nat) (sched : Sched) (w : World) (start : List Node)
    (fn : WalkFunc σ ε) (s : σ) : Option (WalkResult σ ε) :=
  walkReverseLoop sched fn fuel w s [] start.reverse []

/-- `Leaves(g)`, the node map iterated in the order `ord`. -/
def Leaves (ord : List Node → List Node) (g : Graph) : List Node :=
  (ord g.nodes).filter (fun n => (edgeMap.at g.outEdges n).length == 0)

/-- The local `remainingDeps := make(map[Node]int)` of `WalkTopological`. -/
abbrev DepCount := Node → Option Int

/-- One round of the inner loop of `WalkTopological`, for the dependant `n`. -/
def topoRelax (g : Graph) (acc : DepCount × List Node) (n : Node) : DepCount × List Node :=
  let rd := acc.1
  let init : Int := match rd n with
    | some c => c
    | none => ((edgeMap.at g.outEdges n).length : Int)
  let c := init - 1
  let rd1 : DepCount := fun m => if m = n then some c else rd m
  if c = 0 then (rd1, n :: acc.2) else (rd1, acc.2)

/-- The loop of `WalkTopological`; `unchecked` is read from its head as in `walkLoop`. -/
def topoLoop {σ ε : Type} (sched : Sched) (fn : WalkFunc σ ε) :
    Nat → World → σ → nodeSet → List Node → DepCount → List Node →
      Option (WalkResult σ ε)
  | _, w, s, _, [], _, calls => some ⟨w, s, none, calls⟩
  | 0, _, _, _, _ :: _, _, _ => none
  | fuel + 1, w, s, visited, check :: unchecked, rd, calls =>
    if nodeSet.Has visited check then
      topoLoop sched fn fuel w s visited unchecked rd calls
    else
      match fn check w s with
      | (w1, s1, some err) => some ⟨w1, s1, some err, calls ++ [check]⟩
      | (w1, s1, none) =>
        let ins := sched w1.tick (edgeMap.at w1.g.inEdges check)
        let acc := ins.foldl (topoRelax w1.g) (rd, unchecked)
        topoLoop sched fn fuel ⟨w1.g, w1.tick + 1⟩ s1 (nodeSet.Add visited check)
          acc.2 acc.1 (calls ++ [check])

/-- `WalkTopological(g, fn)`. -/
def WalkTopological {σ ε : Type} (fuel : Nat) (sched : Sched) (w : World)
    (fn : WalkFunc σ ε) (s : σ) : Option (WalkResult σ ε) :=
  let leaves := Leaves (sched w.tick) w.g
  topoLoop sched fn fuel ⟨w.g, w.tick + 1⟩ s [] leaves.reverse (fun _ => none) []

/-- The closure `Reduce` hands to `Walk` for the vertex `u`: for every `vPrime` in the
outgoing set of `v`, remove the edge `(u, vPrime)`.  The set is iterated as it stands when
the loop starts; when `v = u` Go deletes each key as it is produced, which removes the
same keys. -/
def reduceVisit (sched : Sched) (u : Node) : WalkFunc Unit Unit :=
  fun v w s =>
    let targets := sched w.tick (edgeMap.at w.g.outEdges v)
    (⟨targets.foldl (fun g vPrime => g.RemoveEdge ⟨u, vPrime⟩) w.g, w.tick + 1⟩, s, none)

/-- One round of the loop of `Reduce`, for the vertex `u`; the error of `Walk` is dropped. -/
def reduceStep (fuel : Nat) (sched : Sched) (w : World) (u : Node) : Option World :=
  let start := Graph.Dependencies (sched w.tick) w.g u
  match Walk fuel sched ⟨w.g, w.tick + 1⟩ start (reduceVisit sched u) () with
  | some r => some r.world
  | none => none

/-- The loop of `Reduce` over the vertices `us`. -/
def reduceLoop (fuel : Nat) (sched : Sched) : World → List Node → Option World
  | w, [] => some w
  | w, u :: us =>
    match reduceStep fuel sched w u with
    | some w1 => reduceLoop fuel sched w1 us
    | none => none

/-- `Reduce(g)`. -/
def Reduce (fuel : Nat) (sched : Sched) (w : World) : Option World :=
  reduceLoop fuel sched ⟨w.g, w.tick + 1⟩ (sched w.tick w.g.nodes)

end Dag

namespace Dag

/-- An edge with no alternative path of at least two edges between its endpoints. -/
def Graph.Essential (g : Graph) (u v : Node) : Prop :=
  g.edge u v ∧ ¬ g.LongPath u v

/-- The state of the walk `Reduce` runs for the vertex `u`, on the graph `g0` it started
from: what has been removed so far and what the pending nodes are. -/
structure ReduceInv (g0 : Graph) (u : Node) (w : World) (visited unchecked : List Node) :
    Prop where
  valid : w.g.Valid
  nodes : w.g.nodes = g0.nodes
  out_other : ∀ x, x ≠ u → edgeMap.at w.g.outEdges x = edgeMap.at g0.outEdges x
  out_u : ∀ y, y ∈ edgeMap.at w.g.outEdges u ↔
    (y ∈ edgeMap.at g0.outEdges u ∧ ¬ ∃ x, x ∈ visited ∧ g0.edge x y)
  reach : ∀ x, (x ∈ visited ∨ x ∈ unchecked) → Relation.TransGen g0.edge u x
  closed : ∀ x, x ∈ visited → ∀ y, g0.edge x y → (y ∈ visited ∨ y ∈ unchecked)
  start : ∀ y, g0.edge u y → (y ∈ visited ∨ y ∈ unchecked)

/-- The state of the loop of `Reduce` on the graph `g0` once the vertices `done` have had
their round: their outgoing sets are reduced, the others are as in `g0`. -/
structure ReduceDone (g0 : Graph) (done : List Node) (g : Graph) : Prop where
  valid : g.Valid
  nodes : g.nodes = g0.nodes
  edges : ∀ x y, g.edge x y ↔ ((x ∈ done → g0.Essential x y) ∧ (x ∉ done → g0.edge x y))

/-- The number of edges of `g`, a bound on the length of a walk. -/
def Graph.size (g : Graph) : Nat :=
  ∑ x in g.nodes.toFinset, (edgeMap.at g.outEdges x).length

end Dag

namespace Dag

/-- The schedule that iterates every map in the order of its key list. -/
def Sched.inOrder : Sched := fun _ l => l

/-- The schedule that iterates every map against the order of its key list. -/
def Sched.backwards : Sched := fun _ l => l.reverse

/-- The calls that build the graph of scenario S3, with `root = 0`, `a = 1`, `b = 2`,
`c = 3`. -/
def scenarioS3Ops : List Op :=
  [.add 0, .add 1, .add 2, .add 3,
   .addEdge ⟨0, 1⟩, .addEdge ⟨0, 2⟩, .addEdge ⟨0, 3⟩,
   .addEdge ⟨2, 1⟩, .addEdge ⟨3, 2⟩, .addEdge ⟨3, 1⟩]

/-- The graph of scenario S3. -/
def scenarioS3 : Graph :=
  ⟨[0, 1, 2, 3], [(0, [1, 2, 3]), (2, [1]), (3, [2, 1])],
    [(1, [0, 2, 3]), (2, [0, 3]), (3, [0])]⟩

/-- The rank that orders scenario S3: every edge goes to a lower rank. -/
def scenarioS3Rank : Node → Nat
  | 0 => 3
  | 3 => 2
  | 2 => 1
  | _ => 0

end Dag

namespace Dag

/-- The number of outgoing neighbours of `n` that are in `seen`. -/
def depSeen (g : Graph) (n : Node) (seen : List Node) : Nat :=
  ((edgeMap.at g.outEdges n).filter (fun x => decide (x ∈ seen))).length

/-- The topological law on a visit sequence: every node comes after all its outgoing
neighbours. -/
def TopoLaw (g : Graph) (calls : List Node) : Prop :=
  ∀ pre u post, calls = pre ++ u :: post → ∀ v, g.edge u v → v ∈ pre

/-- The state of the loop of `WalkTopological` on the graph `g`. -/
structure TopoInv (g : Graph) (visited unchecked : List Node) (rd : DepCount)
    (calls : List Node) : Prop where
  calls_iff : ∀ x, x ∈ visited ↔ x ∈ calls
  calls_nodup : calls.Nodup
  law : TopoLaw g calls
  ready : ∀ n, n ∈ unchecked → ∀ v, g.edge n v → v ∈ visited
  count_some : ∀ n c, rd n = some c →
    c = ((edgeMap.at g.outEdges n).length : Int) - (depSeen g n visited : Int)
  count_none : ∀ n, rd n = none → depSeen g n visited = 0
  leaves : ∀ n, n ∈ g.nodes → (edgeMap.at g.outEdges n).length = 0 →
    (n ∈ visited ∨ n ∈ unchecked)
  zero : ∀ n, rd n = some 0 → (n ∈ visited ∨ n ∈ unchecked)

/-- The state of the inner loop of `WalkTopological`, with `todo` the dependants that
still await their round and `seen` the visited set the check node has joined. -/
structure RelaxInv (g : Graph) (seen : List Node) (todo : List Node) (rd : DepCount)
    (unchecked : List Node) : Prop where
  ready : ∀ n, n ∈ unchecked → ∀ v, g.edge n v → v ∈ seen
  count_some : ∀ n c, rd n = some c →
    c = ((edgeMap.at g.outEdges n).length : Int) - (depSeen g n seen : Int) +
      (if n ∈ todo then 1 else 0)
  count_none : ∀ n, rd n = none → depSeen g n seen = (if n ∈ todo then 1 else 0)
  leaves : ∀ n, n ∈ g.nodes → (edgeMap.at g.outEdges n).length = 0 →
    (n ∈ seen ∨ n ∈ unchecked)
  zero : ∀ n, rd n = some 0 → (n ∈ seen ∨ n ∈ unchecked)

/-- The counter of `n` as the loop of `WalkTopological` will next read it. -/
def depEff (g : Graph) (rd : DepCount) (n : Node) : Int :=
  match rd n with
  | some c => c
  | none => ((edgeMap.at g.outEdges n).length : Int)

/-- Whether `n` can still be enqueued by its counter reaching zero. -/
def depPot (g : Graph) (rd : DepCount) (n : Node) : Nat :=
  if 0 < depEff g rd n then 1 else 0

/-- The number of rounds the loop of `WalkTopological` can still make. -/
def topoPotential (g : Graph) (rd : DepCount) (unchecked : List Node) : Nat :=
  unchecked.length + ∑ n in g.nodes.toFinset, depPot g rd n

end Dag

namespace Dag

/-- A visitor that logs the nodes it is invoked on and never returns an error. -/
def logVisit : WalkFunc (List Node) Unit :=
  WalkFunc.pure (fun n log => (log ++ [n], none))

end Dag

namespace Gragent

open Dag

/-- A source range (`hcl.Range`), kept as an opaque tag. -/
abbrev Range := Nat

/-- A step of an `hcl.Traversal` after its root: `hcl.TraverseAttr`, `hcl.TraverseIndex`
(the key kept as text) or `hcl.TraverseSplat`, each with its source range. -/
inductive Traverser where
  | attr (name : String) (srcRange : Range)
  | index (key : String) (srcRange : Range)
  | splat (srcRange : Range)
deriving DecidableEq, Repr

/-- `t.SourceRange()` of a step. -/
def Traverser.SourceRange : Traverser → Range
  | .attr _ r => r
  | .index _ r => r
  | .splat r => r

/-- An absolute `hcl.Traversal` as `SimpleSplit` reads it: the name and range of the
`hcl.TraverseRoot` (`split.RootName()`, `split.Abs.SourceRange()`) and the steps after it
(`split.Rel`). -/
structure Traversal where
  rootName : String
  rootRange : Range
  rel : List Traverser
deriving DecidableEq, Repr

/-- `hcl.DiagnosticSeverity`. -/
inductive Severity where
  | error
  | warning
deriving DecidableEq, Repr

/-- `hcl.Diagnostic`, with the fields the reference parser fills. -/
structure Diagnostic where
  severity : Severity
  summary : String
  detail : String
  subject : Range
deriving DecidableEq, Repr

/-- `hcl.Diagnostics`. -/
abbrev Diagnostics := List Diagnostic

/-- `diags.HasErrors()`. -/
def Diagnostics.HasErrors (diags : Diagnostics) : Bool :=
  diags.any (fun d => decide (d.severity = Severity.error))

/-- Go `type reference []string`. -/
abbrev reference := List String

/-- `r.Equals(other)`. -/
def reference.Equals : reference → reference → Bool
  | [], [] => true
  | a :: r, b :: o => if a ≠ b then false else reference.Equals r o
  | _, _ => false

/-- `r.String()`: `strings.Join(r, ".")`. -/
def reference.String (r : reference) : String :=
  ".".intercalate r

/-- `parseDiscoveryRef(rel, startRange)`; a nil reference is `none`. -/
def parseDiscoveryRef (rel : List Traverser) (startRange : Range) :
    Option reference × Diagnostics :=
  match rel with
  | [] | [_] =>
    (none, [⟨.error, "Invalid reference",
      "\"discovery\" must be followed by two attribute names: the discovery kind and name.",
      startRange⟩])
  | t0 :: t1 :: _ =>
    match t0 with
    | .attr kindAttr _ =>
      match t1 with
      | .attr nameAttr _ => (some ["discovery", kindAttr, nameAttr], [])
      | _ =>
        (none, [⟨.error, "Invalid reference",
          "The \"discovery\" object does not support this operation.", t1.SourceRange⟩])
    | _ =>
      (none, [⟨.error, "Invalid reference",
        "The \"discovery\" object does not support this operation.", t0.SourceRange⟩])

/-- `parseScrapeRef(rel, startRange)`. -/
def parseScrapeRef (rel : List Traverser) (startRange : Range) :
    Option reference × Diagnostics :=
  match rel with
  | [] =>
    (none, [⟨.error, "Invalid reference",
      "\"scrape\" must be followed by the name attribute.", startRange⟩])
  | t0 :: _ =>
    match t0 with
    | .attr nameAttr _ => (some ["scrape", nameAttr], [])
    | _ =>
      (none, [⟨.error, "Invalid reference",
        "The \"scrape\" object does not support this operation.", t0.SourceRange⟩])

/-- `parseRemoteWriteRef(rel, startRange)`. -/
def parseRemoteWriteRef (rel : List Traverser) (startRange : Range) :
    Option reference × Diagnostics :=
  match rel with
  | [] =>
    (none, [⟨.error, "Invalid reference",
      "\"remote_write\" must be followed by the name attribute.", startRange⟩])
  | t0 :: _ =>
    match t0 with
    | .attr nameAttr _ => (some ["remote_write", nameAttr], [])
    | _ =>
      (none, [⟨.error, "Invalid reference",
        "The \"remote_write\" object does not support this operation.", t0.SourceRange⟩])

/-- `parseReference(t)`.  `quote` stands for the `%q` verb of `fmt.Sprintf`
(`strconv.Quote`), which is library code. -/
def parseReference (quote : String → String) (t : Traversal) :
    Option reference × Diagnostics :=
  if t.rootName = "discovery" then parseDiscoveryRef t.rel t.rootRange
  else if t.rootName = "scrape" then parseScrapeRef t.rel t.rootRange
  else if t.rootName = "remote_write" then parseRemoteWriteRef t.rel t.rootRange
  else
    (none, [⟨.error, "Invalid reference", quote t.rootName ++ " is not a valid key name",
      t.rootRange⟩])

end Gragent

namespace Gragent

open Dag

/-- `hclsyntax.Body` as `expressionsFromSyntaxBody` reads it: for each attribute its name
and the traversals `attrib.Expr.Variables()` returns, and the bodies of the nested blocks.
`Attributes` is a Go map that one `Load` iterates once; the list holds its entries in the
order of that iteration, so ranging over all bodies ranges over all iteration orders. -/
inductive SyntaxBody where
  | mk (attributes : List (String × List Traversal)) (blocks : List SyntaxBody)

mutual
/-- `expressionsFromSyntaxBody(body)`. -/
def expressionsFromSyntaxBody : SyntaxBody → List Traversal
  | .mk attributes blocks =>
    (attributes.map (fun attrib => attrib.2)).flatten ++ expressionsFromBlocks blocks
/-- The loop of `expressionsFromSyntaxBody` over `body.Blocks`. -/
def expressionsFromBlocks : List SyntaxBody → List Traversal
  | [] => []
  | block :: rest => expressionsFromSyntaxBody block ++ expressionsFromBlocks rest
end

/-- Go `discoveryBlock`. -/
structure discoveryBlock where
  Kind : String
  Name : String
  Body : SyntaxBody

/-- Go `scrapeBlock`. -/
structure scrapeBlock where
  Name : String
  Body : SyntaxBody

/-- Go `remoteWriteBlock`. -/
structure remoteWriteBlock where
  Name : String
  Body : SyntaxBody

/-- Go `rootBlock`, as `gohcl.DecodeBody` fills it. -/
structure rootBlock where
  Discovery : List discoveryBlock
  Scrape : List scrapeBlock
  RemoteWrite : List remoteWriteBlock

/-- The component objects `Load` constructs: `*discoveryComponent`, `*scrapeComponent`,
`*remoteWriteComponent`. -/
inductive Component where
  | discovery (kind name : String)
  | scrape (id : String)
  | remoteWrite (id : String)
deriving DecidableEq, Repr

/-- `c.Name()`. -/
def Component.Name : Component → String
  | .discovery kind name => "discovery." ++ kind ++ "." ++ name
  | .scrape id => id
  | .remoteWrite id => id

/-- What one block makes `Load` construct: the component, its identity, its body. -/
structure Declaration where
  component : Component
  id : reference
  body : SyntaxBody

/-- The head of the first loop of `Load`, for the block `disc`. -/
def discoveryBlock.declaration (disc : discoveryBlock) : Declaration :=
  ⟨Component.discovery disc.Kind disc.Name, ["discovery", disc.Kind, disc.Name], disc.Body⟩

/-- The head of the second loop of `Load`, for the block `scrape`. -/
def scrapeBlock.declaration (scrape : scrapeBlock) : Declaration :=
  ⟨Component.scrape (reference.String ["scrape", scrape.Name]), ["scrape", scrape.Name],
    scrape.Body⟩

/-- The head of the third loop of `Load`, for the block `rw`. -/
def remoteWriteBlock.declaration (rw : remoteWriteBlock) : Declaration :=
  ⟨Component.remoteWrite (reference.String ["remote_write", rw.Name]),
    ["remote_write", rw.Name], rw.Body⟩

/-- The blocks in the order the three loops of `Load` run through them. -/
def rootBlock.declarations (root : rootBlock) : List Declaration :=
  root.Discovery.map discoveryBlock.declaration ++
    (root.Scrape.map scrapeBlock.declaration ++
      root.RemoteWrite.map remoteWriteBlock.declaration)

/-- The node of the `*System` itself. -/
def rootNode : Node := 0

/-- `NewSystem`: the graph holds the system as its root node. -/
def NewSystem : World := ⟨Graph.empty.Add rootNode, 0⟩

/-- The locals of `Load`, with the graph of the system.  `next` is the handle the next
constructed component gets: a fresh pointer differs from the root and from every earlier
component.  `idNodeMap` and `referenceMap` are only read by key and are functions;
`bodyLookup` is iterated and is an association list. -/
structure LoadState where
  world : World
  next : Node
  components : Node → Option Component
  idNodeMap : String → Option Node
  referenceMap : Node → Option reference
  bodyLookup : List (Node × SyntaxBody)

/-- How a run of the model can end: normally, by a Go panic, or out of fuel. -/
inductive Outcome (α : Type) where
  | done (a : α)
  | panic (msg : String)
  | outOfFuel

/-- The state `Load` starts from on a system made by `NewSystem`. -/
def LoadState.init : LoadState :=
  ⟨NewSystem, rootNode + 1, fun _ => none, fun _ => none, fun _ => none, []⟩

/-- The body of the three construction loops of `Load`: construct the component, add it
to the graph under the root, and register it. -/
def declare (st : LoadState) (d : Declaration) : Outcome LoadState :=
  let c := st.next
  let g1 := st.world.g.Add c
  match g1.AddEdge ⟨rootNode, c⟩ with
  | (_, some msg) => Outcome.panic msg
  | (g2, none) =>
    Outcome.done
      ⟨⟨g2, st.world.tick⟩, c + 1,
        fun n => if n = c then some d.component else st.components n,
        fun key => if key = reference.String d.id then some c else st.idNodeMap key,
        fun n => if n = c then some d.id else st.referenceMap n,
        st.bodyLookup ++ [(c, d.body)]⟩

/-- The three construction loops of `Load`, one after the other. -/
def declareAll : LoadState → List Declaration → Outcome LoadState
  | st, [] => Outcome.done st
  | st, d :: rest =>
    match declare st d with
    | Outcome.done st1 => declareAll st1 rest
    | Outcome.panic msg => Outcome.panic msg
    | Outcome.outOfFuel => Outcome.outOfFuel

/-- The map read `bodyLookup[n]`. -/
def lookupBody : List (Node × SyntaxBody) → Node → Option SyntaxBody
  | [], _ => none
  | (k, body) :: rest, n => if k = n then some body else lookupBody rest n

/-- The inner loop of the wiring step of `Load` for the component `origin`.  The diagnostics
of `parseReference` are passed to `diags.Extend`, whose result `Load` drops. -/
def wireBody (quote : String → String) (idNodeMap : String → Option Node) (origin : Node) :
    Graph → List Traversal → Outcome Graph
  | g, [] => Outcome.done g
  | g, t :: rest =>
    match (parseReference quote t).1 with
    | none => wireBody quote idNodeMap origin g rest
    | some lookup =>
      match idNodeMap (reference.String lookup) with
      | none => wireBody quote idNodeMap origin g rest
      | some target =>
        match g.AddEdge ⟨origin, target⟩ with
        | (_, some msg) => Outcome.panic msg
        | (g1, none) => wireBody quote idNodeMap origin g1 rest

/-- The wiring loop of `Load` over the keys `origins` of `bodyLookup`. -/
def wireAll (quote : String → String) (st : LoadState) :
    Graph → List Node → Outcome Graph
  | g, [] => Outcome.done g
  | g, origin :: rest =>
    match lookupBody st.bodyLookup origin with
    | none => wireAll quote st g rest
    | some body =>
      match wireBody quote st.idNodeMap origin g (expressionsFromSyntaxBody body) with
      | Outcome.done g1 => wireAll quote st g1 rest
      | Outcome.panic msg => Outcome.panic msg
      | Outcome.outOfFuel => Outcome.outOfFuel

/-- `Load` up to the wiring of the references: construct the components, then add an edge
for every reference that names a registered component. -/
def loadWire (sched : Sched) (quote : String → String) (root : rootBlock) :
    Outcome LoadState :=
  match declareAll LoadState.init root.declarations with
  | Outcome.done st =>
    let origins := sched st.world.tick (st.bodyLookup.map (fun entry => entry.1))
    match wireAll quote st st.world.g origins with
    | Outcome.done g => Outcome.done { st with world := ⟨g, st.world.tick + 1⟩ }
    | Outcome.panic msg => Outcome.panic msg
    | Outcome.outOfFuel => Outcome.outOfFuel
  | Outcome.panic msg => Outcome.panic msg
  | Outcome.outOfFuel => Outcome.outOfFuel

/-- The error `Load` returns: diagnostics, or the error of the evaluation closure. -/
inductive LoadError (ε : Type) where
  | diags (ds : Diagnostics)
  | eval (err : ε)

/-- What `Load` leaves: the graph, the returned error, the nodes the evaluation closure
ran on, in order, and the state of that closure. -/
structure LoadResult (σ ε : Type) where
  world : World
  err : Option (LoadError ε)
  calls : List Node
  state : σ

/-- `Load` from the wired graph on: the check of `diags`, `Reduce`, `WalkTopological`.
`diags` is what parsing and decoding left; the wiring step did not extend it. -/
def loadRun {σ ε : Type} (fuel : Nat) (sched : Sched) (diags : Diagnostics) (st : LoadState)
    (fn : LoadState → WalkFunc σ ε) (s : σ) : Outcome (LoadResult σ ε) :=
  if Diagnostics.HasErrors diags then
    Outcome.done ⟨st.world, some (LoadError.diags diags), [], s⟩
  else
    match Reduce fuel sched st.world with
    | none => Outcome.outOfFuel
    | some w1 =>
      match WalkTopological fuel sched w1 (fn st) s with
      | none => Outcome.outOfFuel
      | some r => Outcome.done ⟨r.world, r.err.map LoadError.eval, r.calls, r.state⟩

/-- `s.Load()` on a system made by `NewSystem`, from the decoded root block on.  `diags`
are the diagnostics of `hclsyntax.ParseConfig` and `gohcl.DecodeBody`; `fn` is the closure
handed to `WalkTopological`, which reads the locals of `Load`. -/
def Load {σ ε : Type} (fuel : Nat) (sched : Sched) (quote : String → String) (root : rootBlock)
    (diags : Diagnostics) (fn : LoadState → WalkFunc σ ε) (s : σ) :
    Outcome (LoadResult σ ε) :=
  if Diagnostics.HasErrors diags then
    Outcome.done ⟨NewSystem, some (LoadError.diags diags), [], s⟩
  else
    match loadWire sched quote root with
    | Outcome.done st => loadRun fuel sched diags st fn s
    | Outcome.panic msg => Outcome.panic msg
    | Outcome.outOfFuel => Outcome.outOfFuel

/-- A body with the single attribute `name` whose expression reads the traversals `ts`. -/
def SyntaxBody.single (name : String) (ts : List Traversal) : SyntaxBody :=
  SyntaxBody.mk [(name, ts)] []

/-- The traversal `discovery.static.a.targets`. -/
def traversalStaticA : Traversal :=
  ⟨"discovery", 0, [Traverser.attr "static" 1, Traverser.attr "a" 2, Traverser.attr "targets" 3]⟩

/-- Scenario S2: `discovery "static" "a"` and `discovery "chain" "b"` whose `input` reads
`discovery.static.a.targets`. -/
def scenarioS2 : rootBlock :=
  ⟨[⟨"static", "a", SyntaxBody.single "hosts" []⟩,
    ⟨"chain", "b", SyntaxBody.single "input" [traversalStaticA]⟩], [], []⟩

/-- Scenario S2 with the block `discovery "static" "a"` declared twice. -/
def scenarioTwice : rootBlock :=
  ⟨[⟨"static", "a", SyntaxBody.single "hosts" []⟩,
    ⟨"static", "a", SyntaxBody.single "hosts" []⟩,
    ⟨"chain", "b", SyntaxBody.single "input" [traversalStaticA]⟩], [], []⟩

/-- The `%q` of a name without characters to escape: the name between double quotes. -/
def quotePlain (name : String) : String := "\"" ++ name ++ "\""

/-- The calls of a finished run. -/
def Outcome.calls {σ ε : Type} : Outcome (LoadResult σ ε) → Option (List Node)
  | Outcome.done r => some r.calls
  | _ => none

end Gragent

namespace Gragent

open Dag

/-- What the construction loops of `Load` keep true of its locals: the graph invariants
hold, the nodes are the handles handed out so far, and every registered node is one. -/
structure LoadInv (st : LoadState) : Prop where
  valid : st.world.g.Valid
  nodes : ∀ x, x ∈ st.world.g.nodes ↔ x < st.next
  next_pos : 1 ≤ st.next
  keys : ∀ k body, (k, body) ∈ st.bodyLookup → k < st.next
  ids : ∀ key c, st.idNodeMap key = some c → c < st.next

end Gragent

namespace Dag

/-- The edges of `g` as pairs, read off the outgoing map in the order of its lists. -/
def Graph.edgePairs (g : Graph) : List (Node × Node) :=
  (g.outEdges.map (fun entry => entry.2.map (fun v => (entry.1, v)))).flatten

end Dag

namespace Gragent

open Dag

/-- The wired graph of `scenarioTwice`: the root over the three components, and the edge
from the chain to the second declaration of `discovery.static.a`. -/
def scenarioTwiceGraph : Graph :=
  ⟨[0, 1, 2, 3], [(0, [1, 2, 3]), (3, [2])], [(1, [0]), (2, [0, 3]), (3, [0])]⟩

/-- A rank for the wired graphs of the scenarios: the root above the chain above the rest. -/
def scenarioRank : Node → Nat
  | 0 => 2
  | 3 => 1
  | _ => 0

end Gragent

namespace Gragent

open Dag

/-- The wired graph of scenario S2: the root over the two components, and the edge from
`discovery.chain.b` (node 2) to `discovery.static.a` (node 1). -/
def scenarioS2Graph : Graph :=
  ⟨[0, 1, 2], [(0, [1, 2]), (2, [1])], [(1, [0, 2]), (2, [0])]⟩

/-- The locals of `Load` on scenario S2 after the wiring step. -/
def scenarioS2State : LoadState :=
  ⟨⟨scenarioS2Graph, 1⟩, 3,
    fun n => if n = 2 then some (Component.discovery "chain" "b")
      else if n = 1 then some (Component.discovery "static" "a") else none,
    fun key => if key = "discovery.chain.b" then some 2
      else if key = "discovery.static.a" then some 1 else none,
    fun n => if n = 2 then some ["discovery", "chain", "b"]
      else if n = 1 then some ["discovery", "static", "a"] else none,
    [(1, SyntaxBody.single "hosts" []), (2, SyntaxBody.single "input" [traversalStaticA])]⟩

/-- A rank for the wired graph of scenario S2. -/
def scenarioS2Rank : Node → Nat
  | 0 => 2
  | 2 => 1
  | _ => 0

end Gragent

namespace Gragent

/-- The traversal `foo.bar.baz` of scenario S4. -/
def traversalFooBarBaz : Traversal :=
  ⟨"foo", 0, [Traverser.attr "bar" 1, Traverser.attr "baz" 2]⟩

/-- The traversal `t` followed by the further steps `extra`. -/
def Traversal.extend (t : Traversal) (extra : List Traverser) : Traversal :=
  ⟨t.rootName, t.rootRange, t.rel ++ extra⟩

end Gragent

namespace Gragent

/-- The pieces of a text between its `.` characters. -/
def splitDots : List Char → List (List Char)
  | [] => [[]]
  | c :: cs =>
    if c = '.' then [] :: splitDots cs
    else
      match splitDots cs with
      | [] => [[c]]
      | seg :: rest => (c :: seg) :: rest

/-- The first character of an identifier of the configuration language: a letter or `_`. -/
def isIdentStart (c : Char) : Bool := c.isAlpha || c == '_'

/-- A further character of an identifier: a letter, a digit, `_` or `-`. -/
def isIdentChar (c : Char) : Bool := c.isAlphanum || c == '_' || c == '-'

/-- An identifier of the configuration language, over the ASCII letters. -/
def isIdentifier (s : List Char) : Bool :=
  match s with
  | [] => false
  | c :: cs => isIdentStart c && cs.all isIdentChar

/-- Modelled from the spec: the traversal that dotted text denotes in the configuration
language ("every reference in expressions must dot-path through the schema",
`discovery.static.localhost`); the parser of the language is library code.  Text made of
identifiers joined by `.` denotes the traversal whose root is the first identifier and whose
steps are attribute steps named by the others; other text is left without a denotation. -/
def traversalOfDotted (text : String) : Option Traversal :=
  match splitDots text.data with
  | [] => none
  | root :: rest =>
    if (root :: rest).all isIdentifier then
      some ⟨String.mk root, 0, rest.map (fun seg => Traverser.attr (String.mk seg) 0)⟩
    else none

/-- A reference of the schema: `["discovery", kind, name]`, `["scrape", name]` or
`["remote_write", name]`. -/
def reference.Valid (r : reference) : Prop :=
  (∃ kind name, r = ["discovery", kind, name]) ∨ (∃ name, r = ["scrape", name]) ∨
    (∃ name, r = ["remote_write", name])

/-- A traversal as the parser of the language produces it: the names of its attribute
steps are identifiers and hold no `.`. -/
def Traversal.Plain (t : Traversal) : Prop :=
  ∀ name r, Traverser.attr name r ∈ t.rel → '.' ∉ name.data

end Gragent

namespace Gragent

/-- `cty.Value`: the known, unmarked values of the dynamic type algebra.  The attribute
list of an object is one enumeration of its attribute map (a Go map has no order): two
lists with the same keys and the same value under every key stand for the same object. -/
inductive Value where
  | null
  | bool (b : Bool)
  | number (n : Int)
  | string (s : String)
  | list (elems : List Value)
  | set (elems : List Value)
  | map (entries : List (String × Value))
  | object (attrs : List (String × Value))
  | capsule (tag : String)

/-- The one-valued or two-valued read `m[key]` of a Go map with string keys. -/
def Assoc.find {β : Type} : List (String × β) → String → Option β
  | [], _ => none
  | (k, v) :: m, key => if k = key then some v else Assoc.find m key

/-- The write `m[key] = v` of a Go map with string keys. -/
def Assoc.put {β : Type} : List (String × β) → String → β → List (String × β)
  | [], key, v => [(key, v)]
  | (k, v0) :: m, key, v => if k = key then (k, v) :: m else (k, v0) :: Assoc.put m key v

/-- The keys of a Go map with string keys. -/
def Assoc.keys {β : Type} (m : List (String × β)) : List String :=
  m.map (fun entry => entry.1)

/-- `v.Type().IsObjectType()`. -/
def Value.IsObjectType : Value → Bool
  | .object _ => true
  | _ => false

/-- The attribute `name` of an object (`v.GetAttr(name)`), `none` when `v` has none. -/
def Value.attr : Value → String → Option Value
  | .object attrs, name => Assoc.find attrs name
  | _, _ => none

/-- The attribute names of an object; no name for another value. -/
def Value.fieldNames : Value → List String
  | .object attrs => Assoc.keys attrs
  | _ => []

/-- The attribute map of an object is a map: no name occurs twice. -/
def Value.KeysNodup : Value → Prop
  | .object attrs => (Assoc.keys attrs).Nodup
  | _ => True

/-- Two values are the same object: both are objects and every name has the same value,
or none, in both. -/
def Value.SameObject (v1 v2 : Value) : Prop :=
  v1.IsObjectType = true ∧ v2.IsObjectType = true ∧ ∀ name, v1.attr name = v2.attr name

/-- The second loop of `mergeState`, over the entries of `stateMap` in iteration order. -/
def mergeLoop : List (String × Value) → List (String × Value) →
    Except String (List (String × Value))
  | mergedMap, [] => Except.ok mergedMap
  | mergedMap, (key, value) :: rest =>
    match Assoc.find mergedMap key with
    | some _ => Except.error ("component state overriding key " ++ key)
    | none => mergeLoop (Assoc.put mergedMap key value) rest

/-- `mergeState(inputs, state)`; a panic is an error with the panic message.  `ordIn` and
`ordSt` are the orders in which the two loops iterate `inputMap` and `stateMap`. -/
def mergeState (ordIn ordSt : List (String × Value) → List (String × Value))
    (inputs state : Value) : Except String Value :=
  match inputs with
  | .object inputMap =>
    match state with
    | .object stateMap =>
      let mergedMap := (ordIn inputMap).foldl (fun m entry => Assoc.put m entry.1 entry.2) []
      match mergeLoop mergedMap (ordSt stateMap) with
      | Except.ok merged => Except.ok (Value.object merged)
      | Except.error msg => Except.error msg
    | _ => Except.error "component state must be object type"
  | _ => Except.error "component input must be object type"

/-- Whether a run returned a value. -/
def Except.succeeds {ε α : Type} : Except ε α → Prop
  | Except.ok _ => True
  | Except.error _ => False

end Gragent

namespace Gragent

/-- The input of a discovery component of kind static, encoded: `{hosts, labels}`. -/
def sampleInput : Value :=
  Value.object [("hosts", Value.list [Value.string "h1:1"]), ("labels", Value.map [])]

/-- The state of a discovery component, encoded: `{targets}`. -/
def sampleState : Value :=
  Value.object [("targets", Value.list [])]

/-- Iterating a map with string keys in the order of its list. -/
def inListOrder (l : List (String × Value)) : List (String × Value) := l

/-- Iterating a map with string keys against the order of its list. -/
def inReverseOrder (l : List (String × Value)) : List (String × Value) := l.reverse

end Gragent

namespace Gragent

/-- The Go values `FillEvalContext` nests in `componentValues`: a
`map[string]interface{}` of further layers, or a `map[string]cty.Value`. -/
inductive Layer where
  | inner (entries : List (String × Layer))
  | values (entries : List (String × Value))

/-- `next, ok := upperLayer[layerName].(map[string]interface{})`, with the fresh map made
when `ok` is false (the name is absent, or holds a map of the other type). -/
def Layer.innerOf : Option Layer → List (String × Layer)
  | some (Layer.inner m) => m
  | _ => []

/-- `next, ok := upperLayer[layerName].(map[string]cty.Value)`, with the fresh map made
when `ok` is false. -/
def Layer.valuesOf : Option Layer → List (String × Value)
  | some (Layer.values m) => m
  | _ => []

/-- Go `referenceValue`. -/
structure referenceValue where
  Key : reference
  Value : Value

/-- The inner loop of `FillEvalContext` over the segments that remain of `val.Key`, with
`currentLayer` the `map[string]interface{}` `upper`.  With one segment left the loop asserts
that `currentLayer` is a `map[string]cty.Value` and panics; with two it opens the
`map[string]cty.Value` under the first and stores the value under the second; with more it
opens the `map[string]interface{}` under the first and goes on. -/
def fillInner : List (String × Layer) → List String → Value →
    Except String (List (String × Layer))
  | upper, [], _ => Except.ok upper
  | _, [_], _ =>
    Except.error
      "interface conversion: interface {} is map[string]interface {}, not map[string]cty.Value"
  | upper, [layerName, last], v =>
    let next := Layer.valuesOf (Assoc.find upper layerName)
    Except.ok (Assoc.put upper layerName (Layer.values (Assoc.put next last v)))
  | upper, layerName :: rest, v =>
    let next := Layer.innerOf (Assoc.find upper layerName)
    match fillInner next rest v with
    | Except.ok filled => Except.ok (Assoc.put upper layerName (Layer.inner filled))
    | Except.error msg => Except.error msg

/-- The outer loop of `FillEvalContext` over `wc.vals`. -/
def fillAll : List (String × Layer) → List referenceValue →
    Except String (List (String × Layer))
  | componentValues, [] => Except.ok componentValues
  | componentValues, val :: rest =>
    match fillInner componentValues val.Key val.Value with
    | Except.ok filled => fillAll filled rest
    | Except.error msg => Except.error msg

mutual
/-- `gocty.ToCtyValue(v, evalContextType(v))`: a map of layers becomes the object of the
converted layers, a map of values the object of its values.  The conversion is library code
and is taken to return no error on the type built from the same value. -/
def Layer.toCty : Layer → Value
  | Layer.inner entries => Value.object (Layer.entriesToCty entries)
  | Layer.values entries => Value.object entries
/-- The attributes of the object a `map[string]interface{}` converts to. -/
def Layer.entriesToCty : List (String × Layer) → List (String × Value)
  | [] => []
  | (name, layer) :: rest => (name, Layer.toCty layer) :: Layer.entriesToCty rest
end

/-- `wc.FillEvalContext(ectx)` on `wc.vals = vals` and `ectx.Variables = vars0`: the
variables it leaves, or the panic.  `ord` is the order in which the last loop iterates
`componentValues`. -/
def FillEvalContext (ord : List (String × Layer) → List (String × Layer))
    (vals : List referenceValue) (vars0 : List (String × Value)) :
    Except String (List (String × Value)) :=
  match fillAll [] vals with
  | Except.ok componentValues =>
    Except.ok ((ord componentValues).foldl
      (fun vars entry => Assoc.put vars entry.1 (Layer.toCty entry.2)) vars0)
  | Except.error msg => Except.error msg

/-- Following `path` through nested objects from `v`. -/
def Value.follow : Value → List String → Option Value
  | v, [] => some v
  | v, name :: rest =>
    match v.attr name with
    | some w => Value.follow w rest
    | none => none

/-- Following a reference from the variables: its first segment names the variable, the
others nested object fields. -/
def lookupPath (vars0 : List (String × Value)) : List String → Option Value
  | [] => none
  | name :: rest =>
    match Assoc.find vars0 name with
    | some v => Value.follow v rest
    | none => none

/-- The value of the last record of `vals` whose key is `r`. -/
def lastValue : List referenceValue → reference → Option Value
  | [], _ => none
  | val :: rest, r =>
    match lastValue rest r with
    | some v => some v
    | none => if val.Key = r then some val.Value else none

/-- The value `componentValues` holds for a reference of two or three segments. -/
def leafAt (componentValues : List (String × Layer)) : reference → Option Value
  | [root, name] => Assoc.find (Layer.valuesOf (Assoc.find componentValues root)) name
  | [root, kind, name] =>
    Assoc.find
      (Layer.valuesOf (Assoc.find (Layer.innerOf (Assoc.find componentValues root)) kind)) name
  | _ => none

/-- The shape the schema gives `componentValues`: `scrape` and `remote_write` hold maps of
values, `discovery` holds a map of maps of values. -/
structure Shaped (componentValues : List (String × Layer)) : Prop where
  scrape : ∀ layer, Assoc.find componentValues "scrape" = some layer →
    ∃ vm, layer = Layer.values vm
  remote : ∀ layer, Assoc.find componentValues "remote_write" = some layer →
    ∃ vm, layer = Layer.values vm
  discovery : ∀ layer, Assoc.find componentValues "discovery" = some layer →
    ∃ m, layer = Layer.inner m ∧
      ∀ kind l, Assoc.find m kind = some l → ∃ vm, l = Layer.values vm
  keys : (Assoc.keys componentValues).Nodup

/-- Iterating `componentValues` in the order of its list. -/
def layersInOrder (l : List (String × Layer)) : List (String × Layer) := l

end Gragent

namespace Gragent

/-- Two records in the order of the example of section 4.7 of the spec. -/
def sampleRecords : List referenceValue :=
  [⟨["discovery", "static", "localhost"], Value.string "V1"⟩,
   ⟨["scrape", "foo"], Value.string "V2"⟩]

/-- Two records of which the second key is a strict beginning of the first. -/
def conflictingRecords : List referenceValue :=
  [⟨["discovery", "static", "localhost"], Value.string "V1"⟩,
   ⟨["discovery", "static"], Value.string "V2"⟩]

end Gragent

namespace Gragent

/-- The traversal `discovery.static.missing.targets` of scenario S5. -/
def traversalMissing : Traversal :=
  ⟨"discovery", 0,
    [Traverser.attr "static" 1, Traverser.attr "missing" 2, Traverser.attr "targets" 3]⟩

/-- Scenario S5: the single block `scrape "s"` whose `targets` reads
`discovery.static.missing.targets`, with no `discovery "static" "missing"` declared. -/
def scenarioS5 : rootBlock :=
  ⟨[], [⟨"s", SyntaxBody.single "targets" [traversalMissing]⟩], []⟩

/-- Scenario S4 inside a component: the single block `scrape "s"` whose `targets` reads
`foo.bar.baz`. -/
def scenarioS4 : rootBlock :=
  ⟨[], [⟨"s", SyntaxBody.single "targets" [traversalFooBarBaz]⟩], []⟩

end Gragent

namespace Dag

/-- `g.Edges()`: the outer loop ranges over the keys of `g.outEdges` in the order `ordK`,
the inner loop over the set under the key `src` in the order `ordV src`. -/
def Graph.Edges (ordK : List Node → List Node) (ordV : Node → List Node → List Node)
    (g : Graph) : List Edge :=
  (ordK (g.outEdges.map (fun entry => entry.1))).flatMap
    (fun src => (ordV src (edgeMap.at g.outEdges src)).map (fun dst => ⟨src, dst⟩))

/-- The calls `Add(0)`, `Add(1)`, `Add(2)`, `AddEdge(0 -> 1)`, `AddEdge(0 -> 2)`,
`RemoveEdge(0 -> 2)`. -/
def sampleOps : List Op :=
  [Op.add 0, Op.add 1, Op.add 2, Op.addEdge ⟨0, 1⟩, Op.addEdge ⟨0, 2⟩, Op.removeEdge ⟨0, 2⟩]

end Dag

namespace Components

/-- Go `Scrape`, the fields `Configure` and `Run` share: the stored config `sc` (of some
type `γ`) and the channel `reloadConfig`, made with capacity 1 and carrying `struct{}`,
held as the number of signals it buffers. -/
structure Scrape (γ : Type) where
  sc : γ
  reloadConfig : Nat

/-- `NewScrape`: the zero config and an empty channel. -/
def NewScrape {γ : Type} (zero : γ) : Scrape γ := ⟨zero, 0⟩

/-- `s.Configure(c)`: store `c`, then the `select` sends a signal when the channel has room
and takes the `default` branch when it is full. -/
def Scrape.Configure {γ : Type} (s : Scrape γ) (c : γ) : Scrape γ :=
  if s.reloadConfig < 1 then ⟨c, s.reloadConfig + 1⟩ else ⟨c, s.reloadConfig⟩

/-- The branch `case <-s.reloadConfig` of the loop of `Run`: one signal is taken and
`conf := s.sc` is read; `none` when no signal is buffered and `Run` stays blocked. -/
def Scrape.receive {γ : Type} (s : Scrape γ) : Option (Scrape γ × γ) :=
  if 0 < s.reloadConfig then some (⟨s.sc, s.reloadConfig - 1⟩, s.sc) else none

/-- Go `RemoteWrite`, the fields `Configure` and `Run` share: the stored config `rwc` and
the channel `reloadRWC` of capacity 1, held as the number of signals it buffers. -/
structure RemoteWrite (γ : Type) where
  rwc : γ
  reloadRWC : Nat

/-- `NewRemoteWrite`: the zero (nil) config and an empty channel. -/
def NewRemoteWrite {γ : Type} (zero : γ) : RemoteWrite γ := ⟨zero, 0⟩

/-- `rw.Configure(rwc)`. -/
def RemoteWrite.Configure {γ : Type} (rw : RemoteWrite γ) (rwc : γ) : RemoteWrite γ :=
  if rw.reloadRWC < 1 then ⟨rwc, rw.reloadRWC + 1⟩ else ⟨rwc, rw.reloadRWC⟩

/-- The branch `case <-rw.reloadRWC` of the loop of `Run`. -/
def RemoteWrite.receive {γ : Type} (rw : RemoteWrite γ) : Option (RemoteWrite γ × γ) :=
  if 0 < rw.reloadRWC then some (⟨rw.rwc, rw.reloadRWC - 1⟩, rw.rwc) else none

/-- A step of the sequential machine: a call of `Configure`, or `Run` trying to take a
reload signal. -/
inductive Step (γ : Type) where
  | configure (c : γ)
  | reload

/-- One step on a `Scrape`; a `reload` with no signal pending leaves `Run` blocked. -/
def Scrape.step {γ : Type} (s : Scrape γ) : Step γ → Scrape γ
  | .configure c => s.Configure c
  | .reload =>
    match s.receive with
    | some (s1, _) => s1
    | none => s

/-- One step on a `RemoteWrite`. -/
def RemoteWrite.step {γ : Type} (rw : RemoteWrite γ) : Step γ → RemoteWrite γ
  | .configure c => rw.Configure c
  | .reload =>
    match rw.receive with
    | some (rw1, _) => rw1
    | none => rw

/-- The argument of the most recent `Configure` among `steps`, if there is one. -/
def lastConfigure {γ : Type} (steps : List (Step γ)) : Option γ :=
  steps.foldl (fun acc st => match st with
    | .configure c => some c
    | .reload => acc) none

end Components

namespace Dag

/-- The common shape of the loops of `Walk` and `WalkReverse`, with the set the inner
`for ... range` runs over as the parameter `next`: `g.outEdges[check]` in `Walk` and
`g.inEdges[check]` in `WalkReverse`.  A device of the proofs: `walkLoop` and
`walkReverseLoop` are shown equal to its two instances. -/
def visitLoop {σ ε : Type} (next : Graph → Node → List Node) (sched : Sched)
    (fn : WalkFunc σ ε) :
    Nat → World → σ → nodeSet → List Node → List Node → Option (WalkResult σ ε)
  | _, w, s, _, [], calls => some ⟨w, s, none, calls⟩
  | 0, _, _, _, _ :: _, _ => none
  | fuel + 1, w, s, visited, check :: unchecked, calls =>
    if nodeSet.Has visited check then
      visitLoop next sched fn fuel w s visited unchecked calls
    else
      match fn check w s with
      | (w1, s1, some err) => some ⟨w1, s1, some err, calls ++ [check]⟩
      | (w1, s1, none) =>
        let nexts := sched w1.tick (next w1.g check)
        visitLoop next sched fn fuel ⟨w1.g, w1.tick + 1⟩ s1 (nodeSet.Add visited check)
          (nexts.reverse ++ unchecked) (calls ++ [check])

/-- The visitor invoked on the nodes of `nodes` one after the other, each call after the
earlier one returned nil (and the walk ran its inner loop, one map iteration), up to and
including the first call that returns an error: what a walk that stops at the first error
and invokes the visitor on nothing else does with the nodes it visits. -/
def replay {σ ε : Type} (fn : WalkFunc σ ε) : World → σ → List Node → WalkResult σ ε
  | w, s, [] => ⟨w, s, none, []⟩
  | w, s, c :: rest =>
    match fn c w s with
    | (w1, s1, some err) => ⟨w1, s1, some err, [c]⟩
    | (w1, s1, none) =>
      let r := replay fn ⟨w1.g, w1.tick + 1⟩ s1 rest
      ⟨r.world, r.state, r.err, c :: r.calls⟩

/-- Every node of a visit sequence is a start node or comes after a node it is a
neighbour of (`R v u`: the walk goes from `v` to `u`). -/
def VisitOrder (R : Node → Node → Prop) (start calls : List Node) : Prop :=
  ∀ pre u post, calls = pre ++ u :: post → u ∈ start ∨ ∃ v, v ∈ pre ∧ R v u

/-- The state of the loop of a depth-first walk from `start` along `R`. -/
structure VisitInv (R : Node → Node → Prop) (start visited unchecked calls : List Node) :
    Prop where
  calls_iff : ∀ x, x ∈ visited ↔ x ∈ calls
  calls_nodup : calls.Nodup
  start_cov : ∀ x, x ∈ start → x ∈ visited ∨ x ∈ unchecked
  closed : ∀ v, v ∈ visited → ∀ x, R v x → x ∈ visited ∨ x ∈ unchecked
  pending : ∀ x, x ∈ unchecked → x ∈ start ∨ ∃ v, v ∈ visited ∧ R v x
  order : VisitOrder R start calls

/-- A visitor that logs the nodes it is invoked on and returns the error `"stop"` on the
node `bad`. -/
def failAt (bad : Node) : WalkFunc (List Node) String :=
  WalkFunc.pure (fun n log => (log ++ [n], if n = bad then some "stop" else none))

/-- `WalkReverse(g, Leaves(g), fn)`: the iteration of `Leaves` over the node map, then the
walk. -/
def walkReverseLeaves {σ ε : Type} (fuel : Nat) (sched : Sched) (w : World)
    (fn : WalkFunc σ ε) (s : σ) : Option (WalkResult σ ε) :=
  WalkReverse fuel sched ⟨w.g, w.tick + 1⟩ (Leaves (sched w.tick) w.g) fn s

/-- What "the walk returns exactly the first error and invokes the visitor on no further
node" says of the result `r` of a walk that started in the world `w` with the visitor state
`s`: `r` is what invoking the visitor on the visited nodes in order, up to the first error,
leaves; an error `r` returns is the error of the call on the last visited node, and the
world and state of `r` are those that call left; a visitor that never fails gives nil. -/
def StopsAtFirstError {σ ε : Type} (fn : WalkFunc σ ε) (w : World) (s : σ)
    (r : WalkResult σ ε) : Prop :=
  replay fn w s r.calls = r ∧
    (∀ e, r.err = some e → ∃ pre c w0 s0, r.calls = pre ++ [c] ∧
      fn c w0 s0 = (r.world, r.state, some e)) ∧
    ((∀ n w0 s0, (fn n w0 s0).2.2 = none) → r.err = none)

/-- The calls that build `cycleGraph`. -/
def cycleOps : List Op :=
  [.add 0, .add 1, .add 2, .add 3, .addEdge ⟨0, 1⟩, .addEdge ⟨1, 0⟩, .addEdge ⟨1, 2⟩]

/-- The calls that build `forkGraph`. -/
def forkOps : List Op :=
  [.add 0, .add 1, .add 2, .addEdge ⟨0, 1⟩, .addEdge ⟨0, 2⟩]

/-- The graph with the cycle 0 -> 1 -> 0, the edge 1 -> 2 and the node 3 apart. -/
def cycleGraph : Graph :=
  ⟨[0, 1, 2, 3], [(0, [1]), (1, [0, 2])], [(1, [0]), (0, [1]), (2, [1])]⟩

/-- The graph with the edges 0 -> 1 and 0 -> 2: node 0 depends on the leaves 1 and 2. -/
def forkGraph : Graph :=
  ⟨[0, 1, 2], [(0, [1, 2])], [(1, [0]), (2, [0])]⟩

end Dag

namespace Gragent

/-- The traversal `scrape.s.targets`. -/
def traversalSelf : Traversal :=
  ⟨"scrape", 0, [Traverser.attr "s" 1, Traverser.attr "targets" 2]⟩

/-- The single block `scrape "s"` whose `targets` reads `scrape.s.targets`, a reference to
the block itself. -/
def scenarioSelf : rootBlock :=
  ⟨[], [⟨"s", SyntaxBody.single "targets" [traversalSelf]⟩], []⟩

end Gragent

namespace Dag

/-- `MarshalDOT(g)`, the buffer as text.  `name` is `Name()` of the nodes and `quote` the
verb `%q`; `ordN` is the order in which `g.Nodes()` iterates, `ordK` and `ordV` the orders
in which `g.Edges()` does. -/
def MarshalDOT (name : Node → String) (quote : String → String)
    (ordN ordK : List Node → List Node) (ordV : Node → List Node → List Node) (g : Graph) :
    String :=
  let buf := "digraph \x7b" ++ "\n"
  let buf := buf ++ ("\trankdir=" ++ quote "LR" ++ "\n")
  let buf := buf ++ "\n\t// Vertices:\n"
  let buf := (g.Nodes ordN).foldl (fun b v => b ++ ("\t" ++ quote (name v) ++ "\n")) buf
  let buf := buf ++ "\n\t// Edges:\n"
  let buf := (g.Edges ordK ordV).foldl
    (fun b edge => b ++ ("\t" ++ quote (name edge.From) ++ " -> " ++ quote (name edge.To) ++
      "\n")) buf
  buf ++ ("\x7d" ++ "\n")

/-- The pieces of a text between its newline characters. -/
def splitLines : List Char → List (List Char)
  | [] => [[]]
  | c :: cs =>
    if c = '\n' then [] :: splitLines cs
    else
      match splitLines cs with
      | [] => [[c]]
      | seg :: rest => (c :: seg) :: rest

/-- The lines of a text, as `strings.Split(text, "\n")` gives them: a text that ends with a
newline has the empty text as its last piece. -/
def lines (text : String) : List String :=
  (splitLines text.data).map String.mk

/-- Display names for the sample graphs: `<root>` for node 0 and `c` for the others. -/
def sampleName (n : Node) : String :=
  if n = 0 then "<root>" else "c"

end Dag

namespace Gragent

/-- Go `config.LabelSet`, a `map[string]string`, as the list of its entries. -/
abbrev LabelSet := List (String × String)

/-- Go `config.TargetGroup`; a nil `Labels` map is `none`. -/
structure TargetGroup where
  Targets : List LabelSet
  Labels : Option LabelSet

/-- Go `config.DiscoveryStatic`, what `config.DecodeHCL` fills from the body of a
`discovery "static"` block; a nil `Labels` map (the attribute is optional) is `none`. -/
structure DiscoveryStatic where
  Hosts : List String
  Labels : Option LabelSet

/-- The anonymous struct `CurrentState` of a discovery component returns. -/
structure discoveryState where
  Targets : List TargetGroup

/-- `c.CurrentState()`: a discovery component returns a state whose `Targets` is the empty
slice (`make([]config.TargetGroup, 0)`, under `TODO(rfratto): populate state`); a scrape or
remote_write component returns nil. -/
def Component.CurrentState : Component → Option discoveryState
  | .discovery _ _ => some ⟨[]⟩
  | .scrape _ => none
  | .remoteWrite _ => none

/-- `config.EncodeCty` at the type `config.LabelSet`: a map of strings. -/
def encodeLabelSet (m : LabelSet) : Value :=
  Value.map (m.map (fun entry => (entry.1, Value.string entry.2)))

/-- `config.EncodeCty` at an optional label map: a nil map is the null value. -/
def encodeLabels : Option LabelSet → Value
  | none => Value.null
  | some m => encodeLabelSet m

/-- `config.EncodeCty` at the type `config.TargetGroup`: an object with one attribute per
`cty` tag. -/
def encodeTargetGroup (tg : TargetGroup) : Value :=
  Value.object [("targets", Value.list (tg.Targets.map encodeLabelSet)),
    ("labels", encodeLabels tg.Labels)]

/-- `config.EncodeCty` at the type `config.DiscoveryStatic`. -/
def encodeDiscoveryStatic (cfg : DiscoveryStatic) : Value :=
  Value.object [("hosts", Value.list (cfg.Hosts.map Value.string)),
    ("labels", encodeLabels cfg.Labels)]

/-- `config.EncodeCty` at the type of the state of a discovery component. -/
def encodeState (st : discoveryState) : Value :=
  Value.object [("targets", Value.list (st.Targets.map encodeTargetGroup))]

/-- The value `cachedValue` the closure of `Load` publishes for a component: the encoded
input, merged with the encoded state when `CurrentState` is not nil. -/
def cachedValue (ordIn ordSt : List (String × Value) → List (String × Value))
    (inputCtyVal : Value) (stateVal : Option discoveryState) : Except String Value :=
  match stateVal with
  | none => Except.ok inputCtyVal
  | some st => mergeState ordIn ordSt inputCtyVal (encodeState st)

/-- Scenario S1: the single block `discovery "static" "a"` with `hosts = ["h1:1"]`; the
body holds no traversal. -/
def scenarioS1 : rootBlock :=
  ⟨[⟨"static", "a", SyntaxBody.single "hosts" []⟩], [], []⟩

/-- What `config.DecodeHCL` leaves in `cfg` for the body of scenario S1. -/
def scenarioS1Config : DiscoveryStatic := ⟨["h1:1"], none⟩

end Gragent

namespace Gragent

/-- Go `config.DiscoveryChain`. -/
structure DiscoveryChain where
  Input : List TargetGroup

/-- Go `config.MetricsScrape`. -/
structure MetricsScrape where
  Targets : List TargetGroup

/-- Go `config.RemoteWrite`. -/
structure RemoteWrite where
  URL : String

/-- `config.EncodeCty` at the type `config.DiscoveryChain`. -/
def encodeDiscoveryChain (cfg : DiscoveryChain) : Value :=
  Value.object [("input", Value.list (cfg.Input.map encodeTargetGroup))]

/-- `config.EncodeCty` at the type `config.MetricsScrape`. -/
def encodeMetricsScrape (cfg : MetricsScrape) : Value :=
  Value.object [("targets", Value.list (cfg.Targets.map encodeTargetGroup))]

/-- `config.EncodeCty` at the type `config.RemoteWrite`. -/
def encodeRemoteWrite (cfg : RemoteWrite) : Value :=
  Value.object [("url", Value.string cfg.URL)]

/-- The value `Evaluate` returns in an `interface{}`: one of the four config structs. -/
inductive InputVal where
  | static (cfg : DiscoveryStatic)
  | chain (cfg : DiscoveryChain)
  | scrape (cfg : MetricsScrape)
  | remoteWrite (cfg : RemoteWrite)

/-- `config.EncodeCty(inputVal)`. -/
def encodeInput : InputVal → Value
  | .static cfg => encodeDiscoveryStatic cfg
  | .chain cfg => encodeDiscoveryChain cfg
  | .scrape cfg => encodeMetricsScrape cfg
  | .remoteWrite cfg => encodeRemoteWrite cfg

/-- What `config.DecodeHCL` does with the body and the evaluation context at hand, for each
of the four struct types it is called at: the struct it fills, or `none` when its
diagnostics have errors. -/
structure Decoded where
  static : Option DiscoveryStatic
  chain : Option DiscoveryChain
  scrape : Option MetricsScrape
  remoteWrite : Option RemoteWrite

/-- `c.Evaluate(ectx, b)`: the returned value when the returned diagnostics have no error,
`none` when they have one (a decoding error, or an unknown discovery kind). -/
def Component.Evaluate (c : Component) (dec : Decoded) : Option InputVal :=
  match c with
  | .discovery kind _ =>
    if kind = "static" then dec.static.map InputVal.static
    else if kind = "chain" then dec.chain.map InputVal.chain
    else none
  | .scrape _ => dec.scrape.map InputVal.scrape
  | .remoteWrite _ => dec.remoteWrite.map InputVal.remoteWrite

/-- The decoding results of scenario S1. -/
def scenarioS1Decoded : Decoded := ⟨some scenarioS1Config, none, none, none⟩

end Gragent

namespace Dag

/-! ## Sets and maps -/

theorem nodeSet.mem_Add (ns : nodeSet) (n x : Node) :
    x ∈ nodeSet.Add ns n ↔ x ∈ ns ∨ x = n := by
  unfold nodeSet.Add
  by_cases h : n ∈ ns
  · simp only [h, if_true]
    constructor
    · exact Or.inl
    · rintro (h1 | h1)
      · exact h1
      · exact h1 ▸ h
  · simp [h]

theorem nodeSet.nodup_Add (ns : nodeSet) (n : Node) (h : ns.Nodup) :
    (nodeSet.Add ns n).Nodup := by
  unfold nodeSet.Add
  by_cases hn : n ∈ ns
  · simpa [hn] using h
  · simp only [hn, if_false]
    exact List.Nodup.append h (List.nodup_singleton n) (by simpa using hn)

theorem nodeSet.Add_Add (ns : nodeSet) (n : Node) :
    nodeSet.Add (nodeSet.Add ns n) n = nodeSet.Add ns n := by
  have h : n ∈ nodeSet.Add ns n := (nodeSet.mem_Add ns n n).2 (Or.inr rfl)
  generalize nodeSet.Add ns n = t at h
  unfold nodeSet.Add
  rw [if_pos h]

theorem nodeSet.mem_delete (ns : nodeSet) (n x : Node) :
    x ∈ nodeSet.delete ns n ↔ x ∈ ns ∧ x ≠ n := by
  simp [nodeSet.delete]

theorem nodeSet.nodup_delete (ns : nodeSet) (n : Node) (h : ns.Nodup) :
    (nodeSet.delete ns n).Nodup :=
  h.filter _

theorem nodeSet.delete_delete (ns : nodeSet) (n : Node) :
    nodeSet.delete (nodeSet.delete ns n) n = nodeSet.delete ns n := by
  simp [nodeSet.delete, List.filter_filter]

theorem nodeSet.Has_iff (ns : nodeSet) (n : Node) : nodeSet.Has ns n = true ↔ n ∈ ns := by
  simp [nodeSet.Has]

theorem edgeMap.find_put (m : edgeMap) (k n : Node) (s : nodeSet) :
    edgeMap.find (edgeMap.put m k s) n = if k = n then some s else edgeMap.find m n := by
  induction m with
  | nil =>
    by_cases h : k = n <;> simp [edgeMap.put, edgeMap.find, h]
  | cons p m ih =>
    obtain ⟨k0, s0⟩ := p
    by_cases h0 : k0 = k
    · subst h0
      by_cases h : k0 = n <;> simp [edgeMap.put, edgeMap.find, h]
    · by_cases h : k = n
      · subst h
        simp [edgeMap.put, edgeMap.find, h0, ih]
      · by_cases h1 : k0 = n
        · subst h1
          simp [edgeMap.put, edgeMap.find, h0, h]
        · simp [edgeMap.put, edgeMap.find, h0, h, h1, ih]

theorem edgeMap.at_put (m : edgeMap) (k n : Node) (s : nodeSet) :
    edgeMap.at (edgeMap.put m k s) n = if k = n then s else edgeMap.at m n := by
  unfold edgeMap.at
  rw [edgeMap.find_put]
  by_cases h : k = n <;> simp [h]

theorem edgeMap.put_put (m : edgeMap) (k : Node) (s t : nodeSet) :
    edgeMap.put (edgeMap.put m k s) k t = edgeMap.put m k t := by
  induction m with
  | nil => simp [edgeMap.put]
  | cons p m ih =>
    obtain ⟨k0, s0⟩ := p
    by_cases h0 : k0 = k <;> simp [edgeMap.put, h0, ih]

theorem edgeMap.at_of_find {m : edgeMap} {n : Node} {s : nodeSet}
    (h : edgeMap.find m n = some s) : edgeMap.at m n = s := by
  simp [edgeMap.at, h]

theorem edgeMap.at_of_find_none {m : edgeMap} {n : Node}
    (h : edgeMap.find m n = none) : edgeMap.at m n = [] := by
  simp [edgeMap.at, h]

/-! ## The graph operations on the edge sets -/

theorem Graph.nodes_RemoveEdge (g : Graph) (e : Edge) : (g.RemoveEdge e).nodes = g.nodes := rfl

theorem Graph.out_RemoveEdge (g : Graph) (e : Edge) (n : Node) :
    edgeMap.at (g.RemoveEdge e).outEdges n =
      if e.From = n then nodeSet.delete (edgeMap.at g.outEdges n) e.To
      else edgeMap.at g.outEdges n := by
  unfold Graph.RemoveEdge
  cases h : edgeMap.find g.outEdges e.From with
  | none =>
    by_cases hn : e.From = n
    · subst hn
      simp [h, edgeMap.at_of_find_none h, nodeSet.delete]
    · simp [h, hn]
  | some s =>
    simp only [h, edgeMap.at_put]
    by_cases hn : e.From = n
    · subst hn
      simp [edgeMap.at_of_find h]
    · simp [hn]

theorem Graph.in_RemoveEdge (g : Graph) (e : Edge) (n : Node) :
    edgeMap.at (g.RemoveEdge e).inEdges n =
      if e.To = n then nodeSet.delete (edgeMap.at g.inEdges n) e.From
      else edgeMap.at g.inEdges n := by
  unfold Graph.RemoveEdge
  cases h : edgeMap.find g.inEdges e.To with
  | none =>
    by_cases hn : e.To = n
    · subst hn
      simp [h, edgeMap.at_of_find_none h, nodeSet.delete]
    · simp [h, hn]
  | some s =>
    simp only [h, edgeMap.at_put]
    by_cases hn : e.To = n
    · subst hn
      simp [edgeMap.at_of_find h]
    · simp [hn]

theorem Graph.AddEdge_panics_iff (g : Graph) (e : Edge) :
    (g.AddEdge e).2 ≠ none ↔ (e.From ∉ g.nodes ∨ e.To ∉ g.nodes) := by
  unfold Graph.AddEdge
  by_cases h1 : e.From ∈ g.nodes <;> by_cases h2 : e.To ∈ g.nodes <;>
    simp [nodeSet.Has, h1, h2]

theorem Graph.AddEdge_ok_iff (g : Graph) (e : Edge) :
    (g.AddEdge e).2 = none ↔ (e.From ∈ g.nodes ∧ e.To ∈ g.nodes) := by
  unfold Graph.AddEdge
  by_cases h1 : e.From ∈ g.nodes <;> by_cases h2 : e.To ∈ g.nodes <;>
    simp [nodeSet.Has, h1, h2]

theorem Graph.AddEdge_panic_graph (g : Graph) (e : Edge) (h : (g.AddEdge e).2 ≠ none) :
    (g.AddEdge e).1 = g := by
  unfold Graph.AddEdge at h ⊢
  split
  · rfl
  · rename_i hc
    simp [hc] at h

theorem Graph.AddEdge_ok_graph (g : Graph) (e : Edge)
    (h1 : e.From ∈ g.nodes) (h2 : e.To ∈ g.nodes) :
    g.AddEdge e =
      (⟨g.nodes,
        edgeMap.put g.outEdges e.From (nodeSet.Add (edgeMap.at g.outEdges e.From) e.To),
        edgeMap.put g.inEdges e.To (nodeSet.Add (edgeMap.at g.inEdges e.To) e.From)⟩, none) := by
  unfold Graph.AddEdge
  simp only [nodeSet.Has, h1, h2, decide_True, Bool.not_true, Bool.or_self, Bool.false_eq_true,
    if_false]
  rfl

theorem Graph.out_AddEdge (g : Graph) (e : Edge)
    (h1 : e.From ∈ g.nodes) (h2 : e.To ∈ g.nodes) (n : Node) :
    edgeMap.at (g.AddEdge e).1.outEdges n =
      if e.From = n then nodeSet.Add (edgeMap.at g.outEdges n) e.To
      else edgeMap.at g.outEdges n := by
  rw [Graph.AddEdge_ok_graph g e h1 h2]
  simp only [edgeMap.at_put]
  by_cases hn : e.From = n
  · subst hn; simp
  · simp [hn]

theorem Graph.in_AddEdge (g : Graph) (e : Edge)
    (h1 : e.From ∈ g.nodes) (h2 : e.To ∈ g.nodes) (n : Node) :
    edgeMap.at (g.AddEdge e).1.inEdges n =
      if e.To = n then nodeSet.Add (edgeMap.at g.inEdges n) e.From
      else edgeMap.at g.inEdges n := by
  rw [Graph.AddEdge_ok_graph g e h1 h2]
  simp only [edgeMap.at_put]
  by_cases hn : e.To = n
  · subst hn; simp
  · simp [hn]

theorem Graph.nodes_AddEdge (g : Graph) (e : Edge) : (g.AddEdge e).1.nodes = g.nodes := by
  unfold Graph.AddEdge
  split <;> rfl

/-! ## The invariants are kept by every operation -/

theorem Graph.valid_empty : Graph.empty.Valid where
  nodes_nodup := List.nodup_nil
  out_nodup := fun _ => List.nodup_nil
  in_nodup := fun _ => List.nodup_nil
  endpoints := fun u v h => by simp [Graph.empty, edgeMap.at, edgeMap.find] at h
  mirror := fun u v => by simp [Graph.empty, edgeMap.at, edgeMap.find]

theorem Graph.valid_Add (g : Graph) (n : Node) (h : g.Valid) : (g.Add n).Valid where
  nodes_nodup := nodeSet.nodup_Add _ _ h.nodes_nodup
  out_nodup := h.out_nodup
  in_nodup := h.in_nodup
  endpoints := fun u v huv =>
    ⟨(nodeSet.mem_Add _ _ _).2 (Or.inl (h.endpoints u v huv).1),
     (nodeSet.mem_Add _ _ _).2 (Or.inl (h.endpoints u v huv).2)⟩
  mirror := h.mirror

theorem Graph.valid_RemoveEdge (g : Graph) (e : Edge) (h : g.Valid) :
    (g.RemoveEdge e).Valid where
  nodes_nodup := h.nodes_nodup
  out_nodup := fun n => by
    rw [Graph.out_RemoveEdge]
    split
    · exact nodeSet.nodup_delete _ _ (h.out_nodup n)
    · exact h.out_nodup n
  in_nodup := fun n => by
    rw [Graph.in_RemoveEdge]
    split
    · exact nodeSet.nodup_delete _ _ (h.in_nodup n)
    · exact h.in_nodup n
  endpoints := fun u v huv => by
    rw [Graph.out_RemoveEdge] at huv
    apply h.endpoints u v
    split at huv
    · exact ((nodeSet.mem_delete _ _ _).1 huv).1
    · exact huv
  mirror := fun u v => by
    rw [Graph.out_RemoveEdge, Graph.in_RemoveEdge]
    have hm := h.mirror u v
    by_cases h1 : e.From = u <;> by_cases h2 : e.To = v <;>
      simp [h1, h2, nodeSet.mem_delete, hm]
    · intro _; exact fun hc => h2 hc.symm
    · intro _; exact fun hc => h1 hc.symm

theorem Graph.valid_AddEdge (g : Graph) (e : Edge) (h : g.Valid) : (g.AddEdge e).1.Valid := by
  by_cases hp : (g.AddEdge e).2 = none
  · obtain ⟨h1, h2⟩ := (Graph.AddEdge_ok_iff g e).1 hp
    refine ⟨?_, ?_, ?_, ?_, ?_⟩
    · rw [Graph.nodes_AddEdge]; exact h.nodes_nodup
    · intro n
      rw [Graph.out_AddEdge g e h1 h2]
      split
      · exact nodeSet.nodup_Add _ _ (h.out_nodup n)
      · exact h.out_nodup n
    · intro n
      rw [Graph.in_AddEdge g e h1 h2]
      split
      · exact nodeSet.nodup_Add _ _ (h.in_nodup n)
      · exact h.in_nodup n
    · intro u v huv
      rw [Graph.nodes_AddEdge]
      rw [Graph.out_AddEdge g e h1 h2] at huv
      split at huv
      · rename_i hu
        rcases (nodeSet.mem_Add _ _ _).1 huv with h3 | h3
        · exact h.endpoints u v h3
        · exact ⟨hu ▸ h1, h3 ▸ h2⟩
      · exact h.endpoints u v huv
    · intro u v
      rw [Graph.out_AddEdge g e h1 h2, Graph.in_AddEdge g e h1 h2]
      have hm := h.mirror u v
      by_cases h3 : e.From = u <;> by_cases h4 : e.To = v <;>
        simp [h3, h4, nodeSet.mem_Add, hm]
      · intro hc; exact absurd hc.symm h4
      · intro hc; exact absurd hc.symm h3
  · rw [Graph.AddEdge_panic_graph g e hp]; exact h

theorem Graph.valid_step (g g1 : Graph) (op : Op) (h : g.Valid) (hs : g.step op = some g1) :
    g1.Valid := by
  cases op with
  | add n =>
    simp only [Graph.step, Option.some.injEq] at hs
    exact hs ▸ Graph.valid_Add g n h
  | addEdge e =>
    have hv := Graph.valid_AddEdge g e h
    simp only [Graph.step] at hs
    rcases hr : g.AddEdge e with ⟨g2, _ | msg⟩
    · rw [hr] at hs hv
      simp only [Option.some.injEq] at hs
      exact hs ▸ hv
    · rw [hr] at hs
      simp at hs
  | removeEdge e =>
    simp only [Graph.step, Option.some.injEq] at hs
    exact hs ▸ Graph.valid_RemoveEdge g e h

theorem Graph.valid_run (ops : List Op) (g g1 : Graph) (h : g.Valid)
    (hr : g.run ops = some g1) : g1.Valid := by
  induction ops generalizing g with
  | nil =>
    simp only [Graph.run, Option.some.injEq] at hr
    exact hr ▸ h
  | cons op ops ih =>
    unfold Graph.run at hr
    cases hs : g.step op with
    | none => rw [hs] at hr; simp at hr
    | some g2 =>
      rw [hs] at hr
      exact ih g2 (Graph.valid_step g g2 op h hs) hr

end Dag

namespace Dag

/-! ## Transitive reduction of a finite acyclic relation -/

section Relations

open Relation

variable {E : Node → Node → Prop}

theorem longPath_iff_tail (a b : Node) :
    (∃ x, E a x ∧ TransGen E x b) ↔ ∃ x, TransGen E a x ∧ E x b := by
  constructor
  · rintro ⟨x, hax, hxb⟩
    obtain ⟨y, hxy, hyb⟩ := TransGen.tail'_iff.1 hxb
    exact ⟨y, TransGen.head' hax hxy, hyb⟩
  · rintro ⟨x, hax, hxb⟩
    obtain ⟨y, hay, hyx⟩ := TransGen.head'_iff.1 hax
    exact ⟨y, hay, TransGen.tail' hyx hxb⟩

theorem transGen_mem_right {U : List Node} (hU : ∀ a b, E a b → a ∈ U ∧ b ∈ U)
    {a b : Node} (h : TransGen E a b) : b ∈ U := by
  obtain ⟨y, _, hyb⟩ := TransGen.tail'_iff.1 h
  exact (hU y b hyb).2

theorem transGen_mem_left {U : List Node} (hU : ∀ a b, E a b → a ∈ U ∧ b ∈ U)
    {a b : Node} (h : TransGen E a b) : a ∈ U := by
  obtain ⟨y, hay, _⟩ := TransGen.head'_iff.1 h
  exact (hU a y hay).1

open Classical in
theorem card_descendants_lt {U : List Node} (hU : ∀ a b, E a b → a ∈ U ∧ b ∈ U)
    (hac : ∀ x, ¬ TransGen E x x) {a x : Node} (h : TransGen E a x) :
    (U.toFinset.filter (fun y => TransGen E x y)).card <
      (U.toFinset.filter (fun y => TransGen E a y)).card := by
  apply Finset.card_lt_card
  rw [Finset.ssubset_iff_of_subset]
  · refine ⟨x, ?_, ?_⟩
    · simp only [Finset.mem_filter, List.mem_toFinset]
      exact ⟨transGen_mem_right hU h, h⟩
    · simp only [Finset.mem_filter, List.mem_toFinset, not_and]
      exact fun _ => hac x
  · intro y hy
    simp only [Finset.mem_filter, List.mem_toFinset] at hy ⊢
    exact ⟨hy.1, h.trans hy.2⟩

open Classical in
theorem card_ancestors_lt {U : List Node} (hU : ∀ a b, E a b → a ∈ U ∧ b ∈ U)
    (hac : ∀ x, ¬ TransGen E x x) {y x : Node} (h : TransGen E y x) :
    (U.toFinset.filter (fun z => TransGen E z y)).card <
      (U.toFinset.filter (fun z => TransGen E z x)).card := by
  apply Finset.card_lt_card
  rw [Finset.ssubset_iff_of_subset]
  · refine ⟨y, ?_, ?_⟩
    · simp only [Finset.mem_filter, List.mem_toFinset]
      exact ⟨transGen_mem_left hU h, h⟩
    · simp only [Finset.mem_filter, List.mem_toFinset, not_and]
      exact fun _ => hac y
  · intro z hz
    simp only [Finset.mem_filter, List.mem_toFinset] at hz ⊢
    exact ⟨hz.1, hz.2.trans h⟩

open Classical in
/-- In a finite acyclic relation every path can be replaced by a path of essential edges:
edges with no alternative path of at least two edges. -/
theorem essential_path_of_path (U : List Node) (hU : ∀ a b, E a b → a ∈ U ∧ b ∈ U)
    (hac : ∀ x, ¬ TransGen E x x) :
    ∀ a b, TransGen E a b →
      TransGen (fun p q => E p q ∧ ¬ ∃ x, E p x ∧ TransGen E x q) a b := by
  have outer : ∀ n a, (U.toFinset.filter (fun y => TransGen E a y)).card = n →
      ∀ b, TransGen E a b →
        TransGen (fun p q => E p q ∧ ¬ ∃ x, E p x ∧ TransGen E x q) a b := by
    intro n
    induction n using Nat.strong_induction_on with
    | _ n ih =>
      intro a hn b hab
      have inner : ∀ m x, (U.toFinset.filter (fun z => TransGen E z x)).card = m → E a x →
          TransGen (fun p q => E p q ∧ ¬ ∃ x, E p x ∧ TransGen E x q) a x := by
        intro m
        induction m using Nat.strong_induction_on with
        | _ m ihm =>
          intro x hm hax
          by_cases hr : ∃ y, E a y ∧ TransGen E y x
          · obtain ⟨y, hay, hyx⟩ := hr
            have h1 := ihm _ (hm ▸ card_ancestors_lt hU hac hyx) y rfl hay
            have h2 := ih _ (hn ▸ card_descendants_lt hU hac (TransGen.single hay)) y rfl x hyx
            exact h1.trans h2
          · exact TransGen.single ⟨hax, hr⟩
      obtain ⟨x, hax, hxb⟩ := TransGen.head'_iff.1 hab
      have h1 := inner _ x rfl hax
      rcases reflTransGen_iff_eq_or_transGen.1 hxb with h2 | h2
      · exact h2 ▸ h1
      · exact h1.trans
          (ih _ (hn ▸ card_descendants_lt hU hac (TransGen.single hax)) x rfl b h2)
  exact fun a b hab => outer _ a rfl b hab

end Relations

end Dag

namespace Dag

open Relation

/-! ## The closure of `Reduce` -/

theorem foldl_RemoveEdge_valid (u : Node) (targets : List Node) (g : Graph) (h : g.Valid) :
    (targets.foldl (fun g vPrime => g.RemoveEdge ⟨u, vPrime⟩) g).Valid := by
  induction targets generalizing g with
  | nil => exact h
  | cons t ts ih => exact ih _ (Graph.valid_RemoveEdge g _ h)

theorem foldl_RemoveEdge_nodes (u : Node) (targets : List Node) (g : Graph) :
    (targets.foldl (fun g vPrime => g.RemoveEdge ⟨u, vPrime⟩) g).nodes = g.nodes := by
  induction targets generalizing g with
  | nil => rfl
  | cons t ts ih => exact (ih _).trans (Graph.nodes_RemoveEdge g _)

theorem foldl_RemoveEdge_out_other (u : Node) (targets : List Node) (g : Graph) (x : Node)
    (hx : x ≠ u) :
    edgeMap.at (targets.foldl (fun g vPrime => g.RemoveEdge ⟨u, vPrime⟩) g).outEdges x =
      edgeMap.at g.outEdges x := by
  induction targets generalizing g with
  | nil => rfl
  | cons t ts ih =>
    rw [List.foldl_cons, ih, Graph.out_RemoveEdge]
    exact if_neg (fun hc => hx hc.symm)

theorem foldl_RemoveEdge_out_self (u : Node) (targets : List Node) (g : Graph) (y : Node) :
    y ∈ edgeMap.at (targets.foldl (fun g vPrime => g.RemoveEdge ⟨u, vPrime⟩) g).outEdges u ↔
      (y ∈ edgeMap.at g.outEdges u ∧ y ∉ targets) := by
  induction targets generalizing g with
  | nil => simp
  | cons t ts ih =>
    rw [List.foldl_cons, ih, Graph.out_RemoveEdge]
    simp only [if_true, nodeSet.mem_delete, List.mem_cons, not_or]
    tauto

/-! ## The walk of `Reduce` for one vertex -/

theorem sum_sdiff_insert_add (U V : Finset Node) (f : Node → Nat) (c : Node)
    (hc : c ∈ U) (hv : c ∉ V) :
    (∑ x in U \ insert c V, f x) + f c = ∑ x in U \ V, f x := by
  have h1 : U \ insert c V = (U \ V).erase c := by
    ext x
    simp only [Finset.mem_sdiff, Finset.mem_insert, not_or, Finset.mem_erase]
    tauto
  have h2 : c ∈ U \ V := Finset.mem_sdiff.2 ⟨hc, hv⟩
  rw [h1, add_comm]
  exact Finset.add_sum_erase _ _ h2

theorem toFinset_Add (ns : nodeSet) (n : Node) :
    (nodeSet.Add ns n).toFinset = insert n ns.toFinset := by
  ext x
  simp only [List.mem_toFinset, nodeSet.mem_Add, Finset.mem_insert]
  tauto

theorem walkLoop_reduce (sched : Sched) (hf : sched.Fair) (g0 : Graph) (hv : g0.Valid)
    (hac : g0.Acyclic) (u : Node) :
    ∀ (fuel : Nat) (w : World) (visited unchecked calls : List Node),
      ReduceInv g0 u w visited unchecked →
      unchecked.length +
        (∑ x in g0.nodes.toFinset \ visited.toFinset, (edgeMap.at g0.outEdges x).length)
          ≤ fuel →
      ∃ r, walkLoop sched (reduceVisit sched u) fuel w () visited unchecked calls = some r ∧
        ∃ visited1, ReduceInv g0 u r.world visited1 [] := by
  intro fuel
  induction fuel with
  | zero =>
    intro w visited unchecked calls hinv hfuel
    cases unchecked with
    | nil => exact ⟨⟨w, (), none, calls⟩, by simp [walkLoop], visited, hinv⟩
    | cons c rest => simp at hfuel
  | succ fuel ih =>
    intro w visited unchecked calls hinv hfuel
    cases unchecked with
    | nil => exact ⟨⟨w, (), none, calls⟩, by simp [walkLoop], visited, hinv⟩
    | cons c rest =>
      by_cases hc : c ∈ visited
      · have hstep : walkLoop sched (reduceVisit sched u) (fuel + 1) w () visited (c :: rest)
            calls = walkLoop sched (reduceVisit sched u) fuel w () visited rest calls := by
          simp [walkLoop, nodeSet.Has, hc]
        rw [hstep]
        apply ih
        · refine ⟨hinv.valid, hinv.nodes, hinv.out_other, hinv.out_u, ?_, ?_, ?_⟩
          · intro x hx
            apply hinv.reach
            rcases hx with hx | hx
            · exact Or.inl hx
            · exact Or.inr (List.mem_cons_of_mem _ hx)
          · intro x hx y hxy
            rcases hinv.closed x hx y hxy with h1 | h1
            · exact Or.inl h1
            · rcases List.mem_cons.1 h1 with h2 | h2
              · exact Or.inl (h2 ▸ hc)
              · exact Or.inr h2
          · intro y hy
            rcases hinv.start y hy with h1 | h1
            · exact Or.inl h1
            · rcases List.mem_cons.1 h1 with h2 | h2
              · exact Or.inl (h2 ▸ hc)
              · exact Or.inr h2
        · simp only [List.length_cons] at hfuel
          omega
      · -- the visitor runs on `c`
        have hreach : TransGen g0.edge u c := hinv.reach c (Or.inr (List.mem_cons_self _ _))
        have hcu : c ≠ u := fun h => hac u (h ▸ hreach)
        have hcU : c ∈ g0.nodes := transGen_mem_right (fun a b h => hv.endpoints a b h) hreach
        have hwc : edgeMap.at w.g.outEdges c = edgeMap.at g0.outEdges c := hinv.out_other c hcu
        have hstep : walkLoop sched (reduceVisit sched u) (fuel + 1) w () visited (c :: rest)
            calls =
            walkLoop sched (reduceVisit sched u) fuel
              ⟨(sched w.tick (edgeMap.at w.g.outEdges c)).foldl
                  (fun g vPrime => g.RemoveEdge ⟨u, vPrime⟩) w.g, w.tick + 1 + 1⟩ ()
              (nodeSet.Add visited c)
              ((sched (w.tick + 1)
                  (edgeMap.at ((sched w.tick (edgeMap.at w.g.outEdges c)).foldl
                    (fun g vPrime => g.RemoveEdge ⟨u, vPrime⟩) w.g).outEdges c)).reverse ++ rest)
              (calls ++ [c]) := by
          simp [walkLoop, nodeSet.Has, hc, reduceVisit]
        rw [hstep]
        have hout1 : edgeMap.at ((sched w.tick (edgeMap.at w.g.outEdges c)).foldl
            (fun g vPrime => g.RemoveEdge ⟨u, vPrime⟩) w.g).outEdges c =
            edgeMap.at g0.outEdges c := by
          rw [foldl_RemoveEdge_out_other u _ _ c hcu, hwc]
        rw [hout1]
        have hmemT : ∀ y, y ∈ sched w.tick (edgeMap.at w.g.outEdges c) ↔ g0.edge c y := by
          intro y
          rw [(hf _ _).mem_iff, hwc]
          rfl
        have hmemO : ∀ y, y ∈ sched (w.tick + 1) (edgeMap.at g0.outEdges c) ↔ g0.edge c y := by
          intro y
          rw [(hf _ _).mem_iff]
          rfl
        apply ih
        · refine ⟨?_, ?_, ?_, ?_, ?_, ?_, ?_⟩
          · exact foldl_RemoveEdge_valid u _ _ hinv.valid
          · exact (foldl_RemoveEdge_nodes u _ _).trans hinv.nodes
          · intro x hx
            exact (foldl_RemoveEdge_out_other u _ _ x hx).trans (hinv.out_other x hx)
          · intro y
            show y ∈ edgeMap.at ((sched w.tick (edgeMap.at w.g.outEdges c)).foldl
              (fun g vPrime => g.RemoveEdge ⟨u, vPrime⟩) w.g).outEdges u ↔ _
            rw [foldl_RemoveEdge_out_self, hinv.out_u, hmemT]
            constructor
            · rintro ⟨⟨h1, h2⟩, h3⟩
              refine ⟨h1, ?_⟩
              rintro ⟨x, hx, hxy⟩
              rcases (nodeSet.mem_Add _ _ _).1 hx with h4 | h4
              · exact h2 ⟨x, h4, hxy⟩
              · exact h3 (h4 ▸ hxy)
            · rintro ⟨h1, h2⟩
              refine ⟨⟨h1, ?_⟩, ?_⟩
              · rintro ⟨x, hx, hxy⟩
                exact h2 ⟨x, (nodeSet.mem_Add _ _ _).2 (Or.inl hx), hxy⟩
              · intro h3
                exact h2 ⟨c, (nodeSet.mem_Add _ _ _).2 (Or.inr rfl), h3⟩
          · intro x hx
            rcases hx with hx | hx
            · rcases (nodeSet.mem_Add _ _ _).1 hx with h4 | h4
              · exact hinv.reach x (Or.inl h4)
              · exact h4 ▸ hreach
            · rcases List.mem_append.1 hx with h4 | h4
              · exact TransGen.tail hreach ((hmemO x).1 (List.mem_reverse.1 h4))
              · exact hinv.reach x (Or.inr (List.mem_cons_of_mem _ h4))
          · intro x hx y hxy
            rcases (nodeSet.mem_Add _ _ _).1 hx with h4 | h4
            · rcases hinv.closed x h4 y hxy with h5 | h5
              · exact Or.inl ((nodeSet.mem_Add _ _ _).2 (Or.inl h5))
              · rcases List.mem_cons.1 h5 with h6 | h6
                · exact Or.inl ((nodeSet.mem_Add _ _ _).2 (Or.inr h6))
                · exact Or.inr (List.mem_append.2 (Or.inr h6))
            · subst h4
              exact Or.inr (List.mem_append.2 (Or.inl (List.mem_reverse.2 ((hmemO y).2 hxy))))
          · intro y hy
            rcases hinv.start y hy with h5 | h5
            · exact Or.inl ((nodeSet.mem_Add _ _ _).2 (Or.inl h5))
            · rcases List.mem_cons.1 h5 with h6 | h6
              · exact Or.inl ((nodeSet.mem_Add _ _ _).2 (Or.inr h6))
              · exact Or.inr (List.mem_append.2 (Or.inr h6))
        · have hsum := sum_sdiff_insert_add g0.nodes.toFinset visited.toFinset
            (fun x => (edgeMap.at g0.outEdges x).length) c (List.mem_toFinset.2 hcU)
            (fun h => hc (List.mem_toFinset.1 h))
          have hlen : (sched (w.tick + 1) (edgeMap.at g0.outEdges c)).length =
              (edgeMap.at g0.outEdges c).length := (hf _ _).length_eq
          rw [toFinset_Add]
          simp only [List.length_append, List.length_reverse, List.length_cons] at hfuel ⊢
          simp only at hsum
          omega

end Dag

namespace Dag

open Relation

/-! ## One round of `Reduce`, and the whole loop -/

theorem ReduceDone.sub {g0 g : Graph} {done : List Node} (h : ReduceDone g0 done g)
    {x y : Node} (hxy : g.edge x y) : g0.edge x y := by
  have h1 := (h.edges x y).1 hxy
  by_cases hx : x ∈ done
  · exact (h1.1 hx).1
  · exact h1.2 hx

theorem ReduceDone.sup {g0 g : Graph} {done : List Node} (h : ReduceDone g0 done g)
    {x y : Node} (hxy : g0.Essential x y) : g.edge x y :=
  (h.edges x y).2 ⟨fun _ => hxy, fun _ => hxy.1⟩

theorem ReduceDone.path_iff {g0 g : Graph} {done : List Node} (h : ReduceDone g0 done g)
    (hv : g0.Valid) (hac : g0.Acyclic) (x y : Node) :
    TransGen g.edge x y ↔ TransGen g0.edge x y := by
  constructor
  · exact TransGen.mono (fun _ _ hab => h.sub hab)
  · intro hxy
    have h1 := essential_path_of_path g0.nodes (fun a b hab => hv.endpoints a b hab) hac x y hxy
    exact TransGen.mono (fun _ _ hab => h.sup hab) h1

theorem ReduceDone.acyclic {g0 g : Graph} {done : List Node} (h : ReduceDone g0 done g)
    (hac : g0.Acyclic) : g.Acyclic :=
  fun x hx => hac x (TransGen.mono (fun _ _ hab => h.sub hab) hx)

theorem ReduceDone.length_le {g0 g : Graph} {done : List Node} (h : ReduceDone g0 done g)
    (x : Node) : (edgeMap.at g.outEdges x).length ≤ (edgeMap.at g0.outEdges x).length :=
  (List.subperm_of_subset (h.valid.out_nodup x) (fun _ hy => h.sub hy)).length_le

theorem ReduceInv.visited_iff {g0 : Graph} {u : Node} {w : World} {visited : List Node}
    (h : ReduceInv g0 u w visited []) (x : Node) :
    x ∈ visited ↔ TransGen g0.edge u x := by
  constructor
  · exact fun hx => h.reach x (Or.inl hx)
  · intro hx
    induction hx with
    | single hux =>
      rcases h.start _ hux with h1 | h1
      · exact h1
      · simp at h1
    | tail _ hbc ih =>
      rcases h.closed _ ih _ hbc with h1 | h1
      · exact h1
      · simp at h1

theorem reduceStep_spec (sched : Sched) (hf : sched.Fair) (g0 : Graph) (hv : g0.Valid)
    (hac : g0.Acyclic) (fuel : Nat) (hfuel : 2 * g0.size ≤ fuel) (done : List Node)
    (w : World) (hd : ReduceDone g0 done w.g) (u : Node) (hu : u ∈ g0.nodes)
    (hnd : u ∉ done) :
    ∃ w1, reduceStep fuel sched w u = some w1 ∧ ReduceDone g0 (u :: done) w1.g := by
  have hinit : ReduceInv w.g u ⟨w.g, w.tick + 1⟩ []
      (Graph.Dependencies (sched w.tick) w.g u).reverse := by
    refine ⟨hd.valid, rfl, fun _ _ => rfl, ?_, ?_, ?_, ?_⟩
    · intro y; simp
    · intro x hx
      rcases hx with hx | hx
      · simp at hx
      · exact TransGen.single ((hf _ _).mem_iff.1 (List.mem_reverse.1 hx))
    · intro x hx; simp at hx
    · intro y hy
      exact Or.inr (List.mem_reverse.2 ((hf _ _).mem_iff.2 hy))
  have hbound : (Graph.Dependencies (sched w.tick) w.g u).reverse.length +
      (∑ x in w.g.nodes.toFinset \ ([] : List Node).toFinset,
        (edgeMap.at w.g.outEdges x).length) ≤ fuel := by
    have h1 : (Graph.Dependencies (sched w.tick) w.g u).reverse.length ≤ g0.size := by
      rw [List.length_reverse]
      unfold Graph.Dependencies
      rw [(hf _ _).length_eq]
      refine le_trans (hd.length_le u) ?_
      exact Finset.single_le_sum (f := fun x => (edgeMap.at g0.outEdges x).length)
        (fun _ _ => Nat.zero_le _) (List.mem_toFinset.2 hu)
    have h2 : (∑ x in w.g.nodes.toFinset \ ([] : List Node).toFinset,
        (edgeMap.at w.g.outEdges x).length) ≤ g0.size := by
      rw [hd.nodes]
      simp only [List.toFinset_nil, Finset.sdiff_empty]
      exact Finset.sum_le_sum (fun x _ => hd.length_le x)
    omega
  obtain ⟨r, hr, visited1, hfin⟩ :=
    walkLoop_reduce sched hf w.g hd.valid (hd.acyclic hac) u fuel ⟨w.g, w.tick + 1⟩ []
      (Graph.Dependencies (sched w.tick) w.g u).reverse [] hinit hbound
  refine ⟨r.world, ?_, ?_⟩
  · simp only [reduceStep, Walk]
    rw [hr]
  · refine ⟨hfin.valid, hfin.nodes.trans hd.nodes, ?_⟩
    intro x y
    by_cases hx : x = u
    · subst hx
      show y ∈ edgeMap.at r.world.g.outEdges x ↔ _
      rw [hfin.out_u]
      have hE : y ∈ edgeMap.at w.g.outEdges x ↔ g0.edge x y := by
        constructor
        · exact fun h => hd.sub h
        · exact fun h => (hd.edges x y).2 ⟨fun hc => absurd hc hnd, fun _ => h⟩
      have hL : (∃ z, z ∈ visited1 ∧ w.g.edge z y) ↔ g0.LongPath x y := by
        constructor
        · rintro ⟨z, hz, hzy⟩
          have h1 : TransGen g0.edge x z :=
            (hd.path_iff hv hac x z).1 ((hfin.visited_iff z).1 hz)
          exact (longPath_iff_tail x y).2 ⟨z, h1, hd.sub hzy⟩
        · rintro ⟨z, hxz, hzy⟩
          have h1 : TransGen w.g.edge x z :=
            (hd.path_iff hv hac x z).2 (TransGen.single hxz)
          have h2 : TransGen w.g.edge z y := (hd.path_iff hv hac z y).2 hzy
          obtain ⟨z1, hz1, hz1y⟩ := TransGen.tail'_iff.1 h2
          exact ⟨z1, (hfin.visited_iff z1).2 (h1.trans_left hz1), hz1y⟩
      rw [hE, hL]
      constructor
      · rintro ⟨h1, h2⟩
        exact ⟨fun _ => ⟨h1, h2⟩, fun hc => absurd (List.mem_cons_self _ _) hc⟩
      · intro h
        exact h.1 (List.mem_cons_self _ _)
    · show y ∈ edgeMap.at r.world.g.outEdges x ↔ _
      rw [hfin.out_other x hx]
      have h1 := hd.edges x y
      have h2 : x ∈ u :: done ↔ x ∈ done := by simp [hx]
      rw [h2]
      exact h1

theorem reduceLoop_spec (sched : Sched) (hf : sched.Fair) (g0 : Graph) (hv : g0.Valid)
    (hac : g0.Acyclic) (fuel : Nat) (hfuel : 2 * g0.size ≤ fuel) :
    ∀ (us done : List Node) (w : World), ReduceDone g0 done w.g → us.Nodup →
      (∀ u, u ∈ us → u ∈ g0.nodes ∧ u ∉ done) →
      ∃ w1, reduceLoop fuel sched w us = some w1 ∧ ReduceDone g0 (us.reverse ++ done) w1.g := by
  intro us
  induction us with
  | nil =>
    intro done w hd _ _
    exact ⟨w, rfl, by simpa using hd⟩
  | cons u us ih =>
    intro done w hd hnd hmem
    obtain ⟨w1, hw1, hd1⟩ := reduceStep_spec sched hf g0 hv hac fuel hfuel done w hd u
      (hmem u (List.mem_cons_self _ _)).1 (hmem u (List.mem_cons_self _ _)).2
    have hnd2 := List.nodup_cons.1 hnd
    obtain ⟨w2, hw2, hd2⟩ := ih (u :: done) w1 hd1 hnd2.2 (fun x hx =>
      ⟨(hmem x (List.mem_cons_of_mem _ hx)).1, fun hc => by
        rcases List.mem_cons.1 hc with h1 | h1
        · exact hnd2.1 (h1 ▸ hx)
        · exact (hmem x (List.mem_cons_of_mem _ hx)).2 h1⟩)
    refine ⟨w2, ?_, ?_⟩
    · simp only [reduceLoop, hw1, hw2]
    · simpa using hd2

/-- The graph `Reduce` leaves: same nodes, and exactly the essential edges. -/
theorem Reduce_spec (sched : Sched) (hf : sched.Fair) (w : World) (hv : w.g.Valid)
    (hac : w.g.Acyclic) (fuel : Nat) (hfuel : 2 * w.g.size ≤ fuel) :
    ∃ w1, Reduce fuel sched w = some w1 ∧ w1.g.Valid ∧ w1.g.nodes = w.g.nodes ∧
      ∀ x y, w1.g.edge x y ↔ w.g.Essential x y := by
  have h0 : ReduceDone w.g [] w.g := ⟨hv, rfl, fun x y => by simp⟩
  have hperm := hf w.tick w.g.nodes
  obtain ⟨w1, hw1, hd1⟩ := reduceLoop_spec sched hf w.g hv hac fuel hfuel
    (sched w.tick w.g.nodes) [] ⟨w.g, w.tick + 1⟩ h0 (hperm.nodup_iff.2 hv.nodes_nodup)
    (fun u hu => ⟨hperm.mem_iff.1 hu, by simp⟩)
  refine ⟨w1, hw1, hd1.valid, hd1.nodes, ?_⟩
  intro x y
  rw [hd1.edges]
  constructor
  · intro h
    by_cases hx : x ∈ w.g.nodes
    · exact h.1 (by simpa using hperm.mem_iff.2 hx)
    · have h1 := h.2 (by simpa using fun hc => hx (hperm.mem_iff.1 hc))
      exact absurd (hv.endpoints x y h1).1 hx
  · intro h
    exact ⟨fun _ => h, fun _ => h.1⟩

end Dag

namespace Dag

open Relation

/-! ## Consequences for reachability -/

theorem rank_of_path {g : Graph} (rank : Node → Nat)
    (h : ∀ u v, g.edge u v → rank v < rank u) {x y : Node} (p : TransGen g.edge x y) :
    rank y < rank x := by
  induction p with
  | single hxy => exact h _ _ hxy
  | tail _ hbc ih => exact lt_trans (h _ _ hbc) ih

theorem acyclic_of_rank {g : Graph} (rank : Node → Nat)
    (h : ∀ u v, g.edge u v → rank v < rank u) : g.Acyclic :=
  fun _ hx => lt_irrefl _ (rank_of_path rank h hx)

theorem reach_iff_of_essential {g g1 : Graph} (hv : g.Valid) (hac : g.Acyclic)
    (he : ∀ x y, g1.edge x y ↔ g.Essential x y) (u v : Node) :
    g.Reach u v ↔ g1.Reach u v := by
  unfold Graph.Reach
  rw [reflTransGen_iff_eq_or_transGen, reflTransGen_iff_eq_or_transGen]
  have hp : TransGen g.edge u v ↔ TransGen g1.edge u v := by
    constructor
    · intro h
      have h1 := essential_path_of_path g.nodes (fun a b hab => hv.endpoints a b hab) hac u v h
      exact TransGen.mono (fun a b hab => (he a b).2 hab) h1
    · exact TransGen.mono (fun a b hab => ((he a b).1 hab).1)
  rw [hp]

theorem longPath_mono {g g1 : Graph} (h : ∀ x y, g1.edge x y → g.edge x y) {u v : Node}
    (hl : g1.LongPath u v) : g.LongPath u v := by
  obtain ⟨x, hux, hxv⟩ := hl
  exact ⟨x, h _ _ hux, TransGen.mono h hxv⟩

theorem first_edge_leaving {E : Node → Node → Prop} {u v : Node} (huv : u ≠ v)
    (h : ReflTransGen E u v) : ∃ x, E u x ∧ x ≠ u ∧ ReflTransGen E x v := by
  have key : ∀ a, ReflTransGen E a v → a = u → ∃ x, E u x ∧ x ≠ u ∧ ReflTransGen E x v := by
    intro a ha
    induction ha using ReflTransGen.head_induction_on with
    | refl => exact fun hc => absurd hc.symm huv
    | @head _ c hac hcv ih =>
      intro hau
      by_cases hcu : c = u
      · exact ih hcu
      · exact ⟨c, hau ▸ hac, hcu, hcv⟩
  exact key u h rfl

theorem longPath_of_reach {g : Graph} {u x v : Node} (h1 : g.edge u x) (hxv : x ≠ v)
    (h2 : ReflTransGen g.edge x v) : g.LongPath u v := by
  rcases reflTransGen_iff_eq_or_transGen.1 h2 with h3 | h3
  · exact absurd h3.symm hxv
  · exact ⟨x, h1, h3⟩

end Dag

namespace Dag

open Relation

/-! ## Helper facts for the concrete scenarios -/

theorem Sched.fair_inOrder : Sched.inOrder.Fair := fun _ l => List.Perm.refl l

theorem Sched.fair_backwards : Sched.backwards.Fair := fun _ l => List.reverse_perm l

theorem scenarioS3_run : Graph.empty.run scenarioS3Ops = some scenarioS3 := by decide

theorem scenarioS3_valid : scenarioS3.Valid :=
  Graph.valid_run scenarioS3Ops Graph.empty scenarioS3 Graph.valid_empty scenarioS3_run

theorem scenarioS3_edges (u v : Node) :
    scenarioS3.edge u v ↔ (u, v) ∈ [(0, 1), (0, 2), (0, 3), (2, 1), (3, 2), (3, 1)] := by
  unfold Graph.edge edgeMap.at scenarioS3
  simp only [edgeMap.find]
  by_cases h0 : 0 = u
  · subst h0; simp
  · by_cases h2 : 2 = u
    · subst h2; simp
    · by_cases h3 : 3 = u
      · subst h3; simp
      · simp only [h0, h2, h3, if_false, List.not_mem_nil, false_iff]
        simp only [List.mem_cons, Prod.mk.injEq, List.mem_singleton, List.not_mem_nil,
          or_false]
        rintro (⟨h, _⟩ | ⟨h, _⟩ | ⟨h, _⟩ | ⟨h, _⟩ | ⟨h, _⟩ | ⟨h, _⟩) <;>
          first
            | exact h0 h.symm
            | exact h2 h.symm
            | exact h3 h.symm

theorem scenarioS3_nodes (x : Node) : x ∈ scenarioS3.nodes ↔ x ∈ [0, 1, 2, 3] := Iff.rfl

theorem rank_of_S3_edges {g : Graph}
    (he : ∀ u v, g.edge u v ↔ (u, v) ∈ [(0, 1), (0, 2), (0, 3), (2, 1), (3, 2), (3, 1)])
    (u v : Node) (h : g.edge u v) : scenarioS3Rank v < scenarioS3Rank u := by
  have h1 := (he u v).1 h
  simp only [List.mem_cons, Prod.mk.injEq, List.mem_singleton, List.not_mem_nil, or_false] at h1
  rcases h1 with ⟨rfl, rfl⟩ | ⟨rfl, rfl⟩ | ⟨rfl, rfl⟩ | ⟨rfl, rfl⟩ | ⟨rfl, rfl⟩ | ⟨rfl, rfl⟩ <;>
    decide

theorem scenarioS3_acyclic : scenarioS3.Acyclic :=
  acyclic_of_rank scenarioS3Rank (rank_of_S3_edges scenarioS3_edges)

theorem essential_of_S3_edges {g : Graph}
    (he : ∀ u v, g.edge u v ↔ (u, v) ∈ [(0, 1), (0, 2), (0, 3), (2, 1), (3, 2), (3, 1)])
    (u v : Node) : g.Essential u v ↔ (u, v) ∈ [(0, 3), (3, 2), (2, 1)] := by
  have hrank := rank_of_S3_edges he
  have e01 : g.edge 0 1 := (he 0 1).2 (by decide)
  have e02 : g.edge 0 2 := (he 0 2).2 (by decide)
  have e03 : g.edge 0 3 := (he 0 3).2 (by decide)
  have e21 : g.edge 2 1 := (he 2 1).2 (by decide)
  have e32 : g.edge 3 2 := (he 3 2).2 (by decide)
  have e31 : g.edge 3 1 := (he 3 1).2 (by decide)
  have noLong : ∀ a b, g.edge a b → scenarioS3Rank a ≤ scenarioS3Rank b + 1 →
      ¬ g.LongPath a b := by
    rintro a b _ hab ⟨x, hax, hxb⟩
    have h1 := hrank a x hax
    have h2 := rank_of_path scenarioS3Rank hrank hxb
    omega
  constructor
  · rintro ⟨huv, hno⟩
    have h1 := (he u v).1 huv
    simp only [List.mem_cons, Prod.mk.injEq, List.mem_singleton, List.not_mem_nil, or_false] at h1
    rcases h1 with ⟨rfl, rfl⟩ | ⟨rfl, rfl⟩ | ⟨rfl, rfl⟩ | ⟨rfl, rfl⟩ | ⟨rfl, rfl⟩ | ⟨rfl, rfl⟩
    · exact absurd ⟨2, e02, TransGen.single e21⟩ hno
    · exact absurd ⟨3, e03, TransGen.single e32⟩ hno
    · decide
    · decide
    · decide
    · exact absurd ⟨2, e32, TransGen.single e21⟩ hno
  · intro h
    simp only [List.mem_cons, Prod.mk.injEq, List.mem_singleton, List.not_mem_nil, or_false] at h
    rcases h with ⟨rfl, rfl⟩ | ⟨rfl, rfl⟩ | ⟨rfl, rfl⟩
    · exact ⟨e03, noLong 0 3 e03 (by decide)⟩
    · exact ⟨e32, noLong 3 2 e32 (by decide)⟩
    · exact ⟨e21, noLong 2 1 e21 (by decide)⟩

/-! ## The claims on the graph operations -/

/-- C4 (mirror-edge invariant): in a graph built from the empty graph by any sequence of
`Add`, `AddEdge` and `RemoveEdge` calls none of which panics, `v` is returned by
`Dependencies(u)` exactly when `u` is returned by `Dependants(v)`, whatever the orders the
two maps are iterated in. -/
theorem mirror_edge_invariant (ops : List Op) (g : Graph)
    (hrun : Graph.empty.run ops = some g)
    (ord1 ord2 : List Node → List Node)
    (h1 : ∀ l, (ord1 l).Perm l) (h2 : ∀ l, (ord2 l).Perm l) (u v : Node) :
    v ∈ g.Dependencies ord1 u ↔ u ∈ g.Dependants ord2 v := by
  have hv := Graph.valid_run ops Graph.empty g Graph.valid_empty hrun
  unfold Graph.Dependencies Graph.Dependants
  rw [(h1 _).mem_iff, (h2 _).mem_iff]
  exact hv.mirror u v

theorem mirror_edge_invariant_witness :
    Graph.empty.run scenarioS3Ops = some scenarioS3 ∧
      (∀ l : List Node, (id l).Perm l) ∧ (∀ l : List Node, (List.reverse l).Perm l) ∧
      (2 ∈ scenarioS3.Dependencies id 3 ↔ 3 ∈ scenarioS3.Dependants List.reverse 2) :=
  ⟨scenarioS3_run, fun l => List.Perm.refl l, fun l => List.reverse_perm l,
    mirror_edge_invariant scenarioS3Ops scenarioS3 scenarioS3_run id List.reverse
      (fun l => List.Perm.refl l) (fun l => List.reverse_perm l) 3 2⟩

/-- C5: `AddEdge(Edge{From: u, To: v})` panics exactly when `u` or `v` is not a node of the
graph; when it panics the graph (node set and both edge maps) is unchanged; when it does not,
`v` is in the outgoing set of `u` and `u` is in the incoming set of `v`. -/
theorem addEdge_unknown_endpoint (g : Graph) (u v : Node) :
    ((g.AddEdge ⟨u, v⟩).2 ≠ none ↔ (u ∉ g.nodes ∨ v ∉ g.nodes)) ∧
    ((g.AddEdge ⟨u, v⟩).2 ≠ none → (g.AddEdge ⟨u, v⟩).1 = g) ∧
    ((g.AddEdge ⟨u, v⟩).2 = none →
      v ∈ edgeMap.at (g.AddEdge ⟨u, v⟩).1.outEdges u ∧
      u ∈ edgeMap.at (g.AddEdge ⟨u, v⟩).1.inEdges v) := by
  refine ⟨Graph.AddEdge_panics_iff g ⟨u, v⟩, Graph.AddEdge_panic_graph g ⟨u, v⟩, ?_⟩
  intro h
  obtain ⟨h1, h2⟩ := (Graph.AddEdge_ok_iff g ⟨u, v⟩).1 h
  rw [Graph.out_AddEdge g ⟨u, v⟩ h1 h2, Graph.in_AddEdge g ⟨u, v⟩ h1 h2]
  simp [nodeSet.mem_Add]

/-- C6: `Add`, `AddEdge` (when it does not panic, that is with both endpoints in the graph)
and `RemoveEdge` are idempotent: the second application leaves the graph, node set and both
edge maps, as the first one left it. -/
theorem operations_idempotent (g : Graph) (n : Node) (e : Edge) :
    (g.Add n).Add n = g.Add n ∧
    ((e.From ∈ g.nodes ∧ e.To ∈ g.nodes) →
      (g.AddEdge e).1.AddEdge e = ((g.AddEdge e).1, none)) ∧
    (g.RemoveEdge e).RemoveEdge e = g.RemoveEdge e := by
  refine ⟨?_, ?_, ?_⟩
  · simp [Graph.Add, nodeSet.Add_Add]
  · rintro ⟨h1, h2⟩
    have hn : (g.AddEdge e).1.nodes = g.nodes := Graph.nodes_AddEdge g e
    rw [Graph.AddEdge_ok_graph (g.AddEdge e).1 e (hn ▸ h1) (hn ▸ h2)]
    have ho := Graph.out_AddEdge g e h1 h2 e.From
    have hi := Graph.in_AddEdge g e h1 h2 e.To
    simp only [if_true] at ho hi
    rw [ho, hi, nodeSet.Add_Add, nodeSet.Add_Add, Graph.AddEdge_ok_graph g e h1 h2]
    simp [edgeMap.put_put]
  · have key : ∀ (m : edgeMap) (k x : Node),
        (match edgeMap.find
            (match edgeMap.find m k with
              | some s => edgeMap.put m k (nodeSet.delete s x)
              | none => m) k with
          | some s => edgeMap.put
              (match edgeMap.find m k with
                | some s => edgeMap.put m k (nodeSet.delete s x)
                | none => m) k (nodeSet.delete s x)
          | none =>
              (match edgeMap.find m k with
                | some s => edgeMap.put m k (nodeSet.delete s x)
                | none => m)) =
        (match edgeMap.find m k with
          | some s => edgeMap.put m k (nodeSet.delete s x)
          | none => m) := by
      intro m k x
      cases h : edgeMap.find m k with
      | none => simp [h]
      | some s => simp [edgeMap.find_put, edgeMap.put_put, nodeSet.delete_delete]
    have ho := key g.outEdges e.From e.To
    have hi := key g.inEdges e.To e.From
    unfold Graph.RemoveEdge
    exact congrArg₂ (Graph.mk g.nodes) ho hi

end Dag

namespace Dag

open Relation

/-! ## The claims on `Reduce` -/

/-- C1 (reduction preserves reachability): for every acyclic graph `g` that satisfies the
graph invariants (mirror-edge invariant included), every fair iteration schedule and enough
fuel, `Reduce` returns, and `v` is reachable from `u` by outgoing edges in `g` exactly when
it is in the graph `Reduce` leaves. -/
theorem reduce_preserves_reachability (sched : Sched) (hf : sched.Fair) (w : World)
    (hv : w.g.Valid) (hac : w.g.Acyclic) (fuel : Nat) (hfuel : 2 * w.g.size ≤ fuel) :
    ∃ w1, Reduce fuel sched w = some w1 ∧ ∀ u v, w.g.Reach u v ↔ w1.g.Reach u v := by
  obtain ⟨w1, hw1, _, _, he⟩ := Reduce_spec sched hf w hv hac fuel hfuel
  exact ⟨w1, hw1, fun u v => reach_iff_of_essential hv hac he u v⟩

theorem reduce_preserves_reachability_witness :
    Sched.backwards.Fair ∧ scenarioS3.Valid ∧ scenarioS3.Acyclic ∧
      2 * scenarioS3.size ≤ 12 ∧
      ∃ w1, Reduce 12 Sched.backwards ⟨scenarioS3, 0⟩ = some w1 ∧
        ∀ u v, scenarioS3.Reach u v ↔ w1.g.Reach u v :=
  ⟨Sched.fair_backwards, scenarioS3_valid, scenarioS3_acyclic, by decide,
    reduce_preserves_reachability Sched.backwards Sched.fair_backwards ⟨scenarioS3, 0⟩
      scenarioS3_valid scenarioS3_acyclic 12 (by decide)⟩

/-- C7: for every acyclic graph `g` satisfying the graph invariants, every fair iteration
schedule and enough fuel, `Reduce` returns, leaves the node set unchanged, and leaves exactly
the edges `(u, v)` of `g` for which `g` has no path from `u` to `v` of length at least 2. -/
theorem reduce_edges_exact (sched : Sched) (hf : sched.Fair) (w : World)
    (hv : w.g.Valid) (hac : w.g.Acyclic) (fuel : Nat) (hfuel : 2 * w.g.size ≤ fuel) :
    ∃ w1, Reduce fuel sched w = some w1 ∧ w1.g.nodes = w.g.nodes ∧
      ∀ u v, w1.g.edge u v ↔ (w.g.edge u v ∧ ¬ w.g.LongPath u v) := by
  obtain ⟨w1, hw1, _, hn, he⟩ := Reduce_spec sched hf w hv hac fuel hfuel
  exact ⟨w1, hw1, hn, he⟩

theorem reduce_edges_exact_witness :
    Sched.inOrder.Fair ∧ scenarioS3.Valid ∧ scenarioS3.Acyclic ∧
      2 * scenarioS3.size ≤ 12 ∧
      ∃ w1, Reduce 12 Sched.inOrder ⟨scenarioS3, 0⟩ = some w1 ∧
        w1.g.nodes = scenarioS3.nodes ∧
        ∀ u v, w1.g.edge u v ↔ (scenarioS3.edge u v ∧ ¬ scenarioS3.LongPath u v) :=
  ⟨Sched.fair_inOrder, scenarioS3_valid, scenarioS3_acyclic, by decide,
    reduce_edges_exact Sched.inOrder Sched.fair_inOrder ⟨scenarioS3, 0⟩
      scenarioS3_valid scenarioS3_acyclic 12 (by decide)⟩

/-- C8: for every acyclic graph `g` satisfying the graph invariants, in the graph `Reduce`
leaves (i) no edge `(u, v)` has an alternative path from `u` to `v` of length at least 2,
(ii) removing any edge `(u, v)` of it makes `v` unreachable from `u`, and (iii) every graph
with the reachability of `g` contains all its edges: it is the minimum equivalent graph. -/
theorem reduce_minimum_equivalent (sched : Sched) (hf : sched.Fair) (w : World)
    (hv : w.g.Valid) (hac : w.g.Acyclic) (fuel : Nat) (hfuel : 2 * w.g.size ≤ fuel) :
    ∃ w1, Reduce fuel sched w = some w1 ∧
      (∀ u v, w1.g.edge u v → ¬ w1.g.LongPath u v) ∧
      (∀ u v, w1.g.edge u v →
        w1.g.Reach u v ∧ ¬ (w1.g.RemoveEdge ⟨u, v⟩).Reach u v) ∧
      (∀ h : Graph, (∀ u v, h.Reach u v ↔ w.g.Reach u v) →
        ∀ u v, w1.g.edge u v → h.edge u v) := by
  obtain ⟨w1, hw1, _, _, he⟩ := Reduce_spec sched hf w hv hac fuel hfuel
  have hsub : ∀ x y, w1.g.edge x y → w.g.edge x y := fun x y h => ((he x y).1 h).1
  have hne : ∀ u v, w.g.edge u v → u ≠ v := fun u v h hc =>
    hac u (TransGen.single (by rw [← hc] at h; exact h))
  have hno : ∀ u v, w1.g.edge u v → ¬ w1.g.LongPath u v := fun u v h hl =>
    ((he u v).1 h).2 (longPath_mono hsub hl)
  refine ⟨w1, hw1, hno, ?_, ?_⟩
  · intro u v huv
    refine ⟨ReflTransGen.single huv, ?_⟩
    intro hr
    have hrem : ∀ x y, (w1.g.RemoveEdge ⟨u, v⟩).edge x y → w1.g.edge x y ∧ (x = u → y ≠ v) := by
      intro x y hxy
      unfold Graph.edge at hxy
      rw [Graph.out_RemoveEdge] at hxy
      by_cases hx : u = x
      · simp only [hx, if_true, nodeSet.mem_delete] at hxy
        exact ⟨hxy.1, fun _ => hxy.2⟩
      · simp only [hx, if_false] at hxy
        exact ⟨hxy, fun hc => absurd hc.symm hx⟩
    obtain ⟨x, hux, _, hxv⟩ := first_edge_leaving (hne u v (hsub u v huv)) hr
    have h1 := hrem u x hux
    have h2 : ReflTransGen w1.g.edge x v := ReflTransGen.mono (fun a b hab => (hrem a b hab).1) hxv
    exact hno u v huv (longPath_of_reach h1.1 (h1.2 rfl) h2)
  · intro h hreach u v huv
    have hess := (he u v).1 huv
    have h1 : h.Reach u v := (hreach u v).2 (ReflTransGen.single hess.1)
    obtain ⟨x, hux, hxu, hxv⟩ := first_edge_leaving (hne u v hess.1) h1
    by_cases hx : x = v
    · exact hx ▸ hux
    · exfalso
      have h2 : w.g.Reach u x := (hreach u x).1 (ReflTransGen.single hux)
      have h3 : w.g.Reach x v := (hreach x v).1 hxv
      obtain ⟨y, huy, _, hyx⟩ := first_edge_leaving (fun hc => hxu hc.symm) h2
      exact hess.2 (longPath_of_reach huy (fun hc => by
        rw [hc] at huy hyx
        rcases reflTransGen_iff_eq_or_transGen.1 hyx with h4 | h4
        · exact hx h4
        · rcases reflTransGen_iff_eq_or_transGen.1 h3 with h5 | h5
          · exact hx h5.symm
          · exact hac v (h4.trans h5)) (hyx.trans h3))

theorem reduce_minimum_equivalent_witness :
    Sched.inOrder.Fair ∧ scenarioS3.Valid ∧ scenarioS3.Acyclic ∧
      2 * scenarioS3.size ≤ 13 ∧
      ∃ w1, Reduce 13 Sched.inOrder ⟨scenarioS3, 0⟩ = some w1 ∧
        (∀ u v, w1.g.edge u v → ¬ w1.g.LongPath u v) ∧
        (∀ u v, w1.g.edge u v →
          w1.g.Reach u v ∧ ¬ (w1.g.RemoveEdge ⟨u, v⟩).Reach u v) ∧
        (∀ h : Graph, (∀ u v, h.Reach u v ↔ scenarioS3.Reach u v) →
          ∀ u v, w1.g.edge u v → h.edge u v) :=
  ⟨Sched.fair_inOrder, scenarioS3_valid, scenarioS3_acyclic, by decide,
    reduce_minimum_equivalent Sched.inOrder Sched.fair_inOrder ⟨scenarioS3, 0⟩
      scenarioS3_valid scenarioS3_acyclic 13 (by decide)⟩

/-- C9 (scenario S3): for every graph with the nodes `root = 0`, `a = 1`, `b = 2`, `c = 3`
and exactly the edges `root->a`, `root->b`, `root->c`, `b->a`, `c->b`, `c->a`, whatever the
order of its key lists and whatever fair schedule orders the iterations, `Reduce` returns
and leaves exactly the edges `root->c`, `c->b`, `b->a`. -/
theorem reduce_scenario_S3 (sched : Sched) (hf : sched.Fair) (w : World) (hv : w.g.Valid)
    (hn : ∀ x, x ∈ w.g.nodes ↔ x ∈ [0, 1, 2, 3])
    (he : ∀ u v, w.g.edge u v ↔ (u, v) ∈ [(0, 1), (0, 2), (0, 3), (2, 1), (3, 2), (3, 1)])
    (fuel : Nat) (hfuel : 12 ≤ fuel) :
    ∃ w1, Reduce fuel sched w = some w1 ∧
      (∀ x, x ∈ w1.g.nodes ↔ x ∈ [0, 1, 2, 3]) ∧
      ∀ u v, w1.g.edge u v ↔ (u, v) ∈ [(0, 3), (3, 2), (2, 1)] := by
  have hac : w.g.Acyclic := acyclic_of_rank scenarioS3Rank (rank_of_S3_edges he)
  have hsize : w.g.size ≤ 6 := by
    have hlen : ∀ x, (edgeMap.at w.g.outEdges x).length =
        ((edgeMap.at w.g.outEdges x).toFinset).card :=
      fun x => (List.toFinset_card_of_nodup (hv.out_nodup x)).symm
    have hset : ∀ x, (edgeMap.at w.g.outEdges x).toFinset =
        (([(0, 1), (0, 2), (0, 3), (2, 1), (3, 2), (3, 1)] : List (Node × Node)).filter
          (fun p => p.1 = x)).toFinset.image Prod.snd := by
      intro x
      ext y
      simp only [List.mem_toFinset, Finset.mem_image, List.mem_filter, decide_eq_true_eq,
        Prod.exists, exists_eq_right]
      exact he x y
    have hnodes : w.g.nodes.toFinset = {0, 1, 2, 3} := by
      ext x
      simp only [List.mem_toFinset, hn x, List.mem_cons, List.mem_singleton, List.not_mem_nil,
        or_false, Finset.mem_insert, Finset.mem_singleton]
    unfold Graph.size
    rw [hnodes]
    simp only [hlen, hset]
    decide
  obtain ⟨w1, hw1, _, hn1, he1⟩ := Reduce_spec sched hf w hv hac fuel (by omega)
  refine ⟨w1, hw1, fun x => by rw [hn1]; exact hn x, ?_⟩
  intro u v
  rw [he1]
  exact essential_of_S3_edges he u v

theorem reduce_scenario_S3_witness :
    Sched.backwards.Fair ∧ scenarioS3.Valid ∧
      (∀ x, x ∈ scenarioS3.nodes ↔ x ∈ [0, 1, 2, 3]) ∧
      (∀ u v, scenarioS3.edge u v ↔
        (u, v) ∈ [(0, 1), (0, 2), (0, 3), (2, 1), (3, 2), (3, 1)]) ∧
      12 ≤ 12 ∧
      ∃ w1, Reduce 12 Sched.backwards ⟨scenarioS3, 0⟩ = some w1 ∧
        (∀ x, x ∈ w1.g.nodes ↔ x ∈ [0, 1, 2, 3]) ∧
        ∀ u v, w1.g.edge u v ↔ (u, v) ∈ [(0, 3), (3, 2), (2, 1)] :=
  ⟨Sched.fair_backwards, scenarioS3_valid, scenarioS3_nodes, scenarioS3_edges, le_refl 12,
    reduce_scenario_S3 Sched.backwards Sched.fair_backwards ⟨scenarioS3, 0⟩ scenarioS3_valid
      scenarioS3_nodes scenarioS3_edges 12 (le_refl 12)⟩

end Dag

namespace Dag

open Relation

/-! ## The topological walk -/

theorem length_filter_Add (l seen : List Node) (c : Node) (hnd : l.Nodup) (hc : c ∉ seen) :
    (l.filter (fun x => decide (x ∈ nodeSet.Add seen c))).length =
      (l.filter (fun x => decide (x ∈ seen))).length + (if c ∈ l then 1 else 0) := by
  induction l with
  | nil => simp
  | cons a l ih =>
    obtain ⟨hal, hl⟩ := List.nodup_cons.1 hnd
    have ih1 := ih hl
    by_cases hac : a = c
    · subst hac
      have h1 : a ∈ nodeSet.Add seen a := (nodeSet.mem_Add _ _ _).2 (Or.inr rfl)
      simp only [hal, if_false, add_zero] at ih1
      simp [List.filter_cons, h1, hc, ih1]
    · have h1 : a ∈ nodeSet.Add seen c ↔ a ∈ seen := by
        rw [nodeSet.mem_Add]; simp [hac]
      have h2 : c ∈ a :: l ↔ c ∈ l := by
        rw [List.mem_cons]
        exact ⟨fun h => h.resolve_left (fun h3 => hac h3.symm), Or.inr⟩
      by_cases has : a ∈ seen
      · simp only [List.filter_cons, h1, has, decide_True, if_true, List.length_cons, h2]
        rw [ih1]; omega
      · simp only [List.filter_cons, h1, has, decide_False, h2]
        simpa using ih1

theorem depSeen_Add (g : Graph) (hv : g.Valid) (n c : Node) (seen : List Node)
    (hc : c ∉ seen) :
    depSeen g n (nodeSet.Add seen c) = depSeen g n seen + (if g.edge n c then 1 else 0) :=
  length_filter_Add (edgeMap.at g.outEdges n) seen c (hv.out_nodup n) hc

theorem topoRelax_eq (g : Graph) (rd : DepCount) (unchecked : List Node) (n : Node) :
    topoRelax g (rd, unchecked) n =
      if depEff g rd n - 1 = 0 then
        (fun m => if m = n then some (depEff g rd n - 1) else rd m, n :: unchecked)
      else (fun m => if m = n then some (depEff g rd n - 1) else rd m, unchecked) := rfl

theorem depSeen_full (g : Graph) (n : Node) (seen : List Node)
    (h : depSeen g n seen = (edgeMap.at g.outEdges n).length) :
    ∀ v, g.edge n v → v ∈ seen := by
  intro v hv
  have h1 := List.filter_length_eq_length.1 h v hv
  simpa using h1

theorem topoRelax_inv (g : Graph) (seen todo : List Node) (n0 : Node) (rd : DepCount)
    (unchecked : List Node) (hn0 : n0 ∉ todo)
    (h : RelaxInv g seen (n0 :: todo) rd unchecked) :
    RelaxInv g seen todo (topoRelax g (rd, unchecked) n0).1
      (topoRelax g (rd, unchecked) n0).2 := by
  have hinit : depEff g rd n0 =
      ((edgeMap.at g.outEdges n0).length : Int) - (depSeen g n0 seen : Int) + 1 := by
    unfold depEff
    cases hr : rd n0 with
    | none =>
      have h1 := h.count_none n0 hr
      simp only [List.mem_cons, true_or, if_true] at h1
      simp [h1]
    | some c =>
      have h1 := h.count_some n0 c hr
      simp only [List.mem_cons, true_or, if_true] at h1
      simpa using h1
  have hle : depSeen g n0 seen ≤ (edgeMap.at g.outEdges n0).length :=
    List.length_filter_le _ _
  have hrd : ∀ m, (topoRelax g (rd, unchecked) n0).1 m =
      if m = n0 then some (((edgeMap.at g.outEdges n0).length : Int) -
        (depSeen g n0 seen : Int)) else rd m := by
    intro m
    rw [topoRelax_eq, hinit]
    split <;> simp
  have hun : ∀ m, m ∈ (topoRelax g (rd, unchecked) n0).2 →
      m ∈ unchecked ∨ (m = n0 ∧ depSeen g n0 seen = (edgeMap.at g.outEdges n0).length) := by
    intro m hm
    rw [topoRelax_eq, hinit] at hm
    split at hm
    · rename_i hz
      rcases List.mem_cons.1 hm with h1 | h1
      · exact Or.inr ⟨h1, by omega⟩
      · exact Or.inl h1
    · exact Or.inl hm
  have hsub : ∀ m, m ∈ unchecked → m ∈ (topoRelax g (rd, unchecked) n0).2 := by
    intro m hm
    rw [topoRelax_eq]
    split
    · exact List.mem_cons_of_mem _ hm
    · exact hm
  have hpush : ((edgeMap.at g.outEdges n0).length : Int) - (depSeen g n0 seen : Int) = 0 →
      n0 ∈ (topoRelax g (rd, unchecked) n0).2 := by
    intro hz
    rw [topoRelax_eq, hinit]
    rw [if_pos (by omega)]
    exact List.mem_cons_self _ _
  refine ⟨?_, ?_, ?_, ?_, ?_⟩
  · intro m hm v hmv
    rcases hun m hm with h1 | ⟨h1, h2⟩
    · exact h.ready m h1 v hmv
    · subst h1
      exact depSeen_full g m seen h2 v hmv
  · intro m c hc
    rw [hrd] at hc
    by_cases hm : m = n0
    · subst hm
      simp only [if_true, Option.some.injEq] at hc
      simp [hn0, ← hc]
    · simp only [hm, if_false] at hc
      have h1 := h.count_some m c hc
      simpa [hm] using h1
  · intro m hc
    rw [hrd] at hc
    by_cases hm : m = n0
    · simp [hm] at hc
    · simp only [hm, if_false] at hc
      have h1 := h.count_none m hc
      simpa [hm] using h1
  · intro m hm hlen
    rcases h.leaves m hm hlen with h1 | h1
    · exact Or.inl h1
    · exact Or.inr (hsub m h1)
  · intro m hc
    rw [hrd] at hc
    by_cases hm : m = n0
    · subst hm
      simp only [if_true, Option.some.injEq] at hc
      exact Or.inr (hpush hc)
    · simp only [hm, if_false] at hc
      rcases h.zero m hc with h1 | h1
      · exact Or.inl h1
      · exact Or.inr (hsub m h1)

theorem foldl_topoRelax_inv (g : Graph) (seen : List Node) :
    ∀ (todo : List Node) (rd : DepCount) (unchecked : List Node), todo.Nodup →
      RelaxInv g seen todo rd unchecked →
      RelaxInv g seen [] (todo.foldl (topoRelax g) (rd, unchecked)).1
        (todo.foldl (topoRelax g) (rd, unchecked)).2 := by
  intro todo
  induction todo with
  | nil => exact fun _ _ _ h => h
  | cons n0 todo ih =>
    intro rd unchecked hnd h
    obtain ⟨h1, h2⟩ := List.nodup_cons.1 hnd
    rw [List.foldl_cons]
    exact ih _ _ h2 (topoRelax_inv g seen todo n0 rd unchecked h1 h)

theorem topoLaw_append (g : Graph) (calls : List Node) (c : Node) (h : TopoLaw g calls)
    (hc : ∀ v, g.edge c v → v ∈ calls) : TopoLaw g (calls ++ [c]) := by
  intro pre u post heq v huv
  rcases List.eq_nil_or_concat post with hp | ⟨post1, d, hp⟩
  · subst hp
    have h1 : calls ++ [c] = pre ++ [u] := heq
    obtain ⟨h2, h3⟩ := List.append_inj' h1 rfl
    simp only [List.cons.injEq, and_true] at h3
    subst h2 h3
    exact hc v huv
  · subst hp
    have h1 : calls ++ [c] = (pre ++ u :: post1) ++ [d] := by
      rw [heq]; simp
    obtain ⟨h2, _⟩ := List.append_inj' h1 rfl
    exact h pre u post1 h2 v huv

end Dag

namespace Dag

open Relation

theorem topoRelax_potential (g : Graph) (rd : DepCount) (unchecked : List Node) (n0 : Node)
    (hn0 : n0 ∈ g.nodes) :
    topoPotential g (topoRelax g (rd, unchecked) n0).1 (topoRelax g (rd, unchecked) n0).2 =
      topoPotential g rd unchecked := by
  have hmem : n0 ∈ g.nodes.toFinset := List.mem_toFinset.2 hn0
  have hother : ∀ (rd1 : DepCount), (∀ m, m ≠ n0 → rd1 m = rd m) →
      ∑ n in g.nodes.toFinset.erase n0, depPot g rd1 n =
        ∑ n in g.nodes.toFinset.erase n0, depPot g rd n := by
    intro rd1 h1
    apply Finset.sum_congr rfl
    intro m hm
    have hm1 : m ≠ n0 := (Finset.mem_erase.1 hm).1
    unfold depPot depEff
    rw [h1 m hm1]
  have hsplit : ∀ (rd1 : DepCount), ∑ n in g.nodes.toFinset, depPot g rd1 n =
      depPot g rd1 n0 + ∑ n in g.nodes.toFinset.erase n0, depPot g rd1 n :=
    fun rd1 => (Finset.add_sum_erase _ _ hmem).symm
  have hself : depEff g (fun m => if m = n0 then some (depEff g rd n0 - 1) else rd m) n0 =
      depEff g rd n0 - 1 := by
    simp [depEff]
  unfold topoPotential
  rw [topoRelax_eq]
  split
  · rename_i hz
    simp only [List.length_cons]
    rw [hsplit, hsplit rd, hother _ (fun m hm => by simp [hm])]
    unfold depPot
    rw [hself]
    have h1 : depEff g rd n0 = 1 := by omega
    simp [h1]
    omega
  · rename_i hz
    rw [hsplit, hsplit rd, hother _ (fun m hm => by simp [hm])]
    unfold depPot
    rw [hself]
    have h1 : (0 < depEff g rd n0 - 1) ↔ (0 < depEff g rd n0) := by omega
    simp only [h1]

theorem foldl_topoRelax_potential (g : Graph) :
    ∀ (todo : List Node) (rd : DepCount) (unchecked : List Node),
      (∀ n, n ∈ todo → n ∈ g.nodes) →
      topoPotential g (todo.foldl (topoRelax g) (rd, unchecked)).1
        (todo.foldl (topoRelax g) (rd, unchecked)).2 = topoPotential g rd unchecked := by
  intro todo
  induction todo with
  | nil => exact fun _ _ _ => rfl
  | cons n0 todo ih =>
    intro rd unchecked hmem
    rw [List.foldl_cons]
    rw [ih _ _ (fun n hn => hmem n (List.mem_cons_of_mem _ hn))]
    exact topoRelax_potential g rd unchecked n0 (hmem n0 (List.mem_cons_self _ _))

theorem topoLoop_visited {σ ε : Type} (sched : Sched) (fn : WalkFunc σ ε) (fuel : Nat)
    (w : World) (s : σ) (visited : List Node) (c : Node) (rest : List Node) (rd : DepCount)
    (calls : List Node) (hc : c ∈ visited) :
    topoLoop sched fn (fuel + 1) w s visited (c :: rest) rd calls =
      topoLoop sched fn fuel w s visited rest rd calls := by
  simp [topoLoop, nodeSet.Has, hc]

theorem topoLoop_err {σ ε : Type} (sched : Sched) (fn : WalkFunc σ ε) (fuel : Nat)
    (w : World) (s : σ) (visited : List Node) (c : Node) (rest : List Node) (rd : DepCount)
    (calls : List Node) (hc : c ∉ visited) (w1 : World) (s1 : σ) (err : ε)
    (hfn : fn c w s = (w1, s1, some err)) :
    topoLoop sched fn (fuel + 1) w s visited (c :: rest) rd calls =
      some ⟨w1, s1, some err, calls ++ [c]⟩ := by
  simp [topoLoop, nodeSet.Has, hc, hfn]

theorem topoLoop_ok {σ ε : Type} (sched : Sched) (fn : WalkFunc σ ε) (fuel : Nat)
    (w : World) (s : σ) (visited : List Node) (c : Node) (rest : List Node) (rd : DepCount)
    (calls : List Node) (hc : c ∉ visited) (w1 : World) (s1 : σ)
    (hfn : fn c w s = (w1, s1, none)) :
    topoLoop sched fn (fuel + 1) w s visited (c :: rest) rd calls =
      topoLoop sched fn fuel ⟨w1.g, w1.tick + 1⟩ s1 (nodeSet.Add visited c)
        ((sched w1.tick (edgeMap.at w1.g.inEdges c)).foldl (topoRelax w1.g) (rd, rest)).2
        ((sched w1.tick (edgeMap.at w1.g.inEdges c)).foldl (topoRelax w1.g) (rd, rest)).1
        (calls ++ [c]) := by
  simp [topoLoop, nodeSet.Has, hc, hfn]

theorem topoLoop_spec {σ ε : Type} (sched : Sched) (hf : sched.Fair) (g : Graph)
    (hv : g.Valid) (fn : WalkFunc σ ε) (hfn : ∀ n w s, (fn n w s).1.g = w.g) :
    ∀ (fuel : Nat) (w : World) (s : σ) (visited unchecked : List Node) (rd : DepCount)
      (calls : List Node), w.g = g → TopoInv g visited unchecked rd calls →
      topoPotential g rd unchecked ≤ fuel →
      ∃ r, topoLoop sched fn fuel w s visited unchecked rd calls = some r ∧
        r.world.g = g ∧ TopoLaw g r.calls ∧ r.calls.Nodup ∧
        (r.err = none → ∃ visited1 rd1, TopoInv g visited1 [] rd1 r.calls) := by
  intro fuel
  induction fuel with
  | zero =>
    intro w s visited unchecked rd calls hw hinv hfuel
    cases unchecked with
    | nil =>
      exact ⟨⟨w, s, none, calls⟩, by simp [topoLoop], hw, hinv.law, hinv.calls_nodup,
        fun _ => ⟨visited, rd, hinv⟩⟩
    | cons c rest =>
      unfold topoPotential at hfuel
      simp at hfuel
  | succ fuel ih =>
    intro w s visited unchecked rd calls hw hinv hfuel
    cases unchecked with
    | nil =>
      exact ⟨⟨w, s, none, calls⟩, by simp [topoLoop], hw, hinv.law, hinv.calls_nodup,
        fun _ => ⟨visited, rd, hinv⟩⟩
    | cons c rest =>
      have hpot : topoPotential g rd rest + 1 = topoPotential g rd (c :: rest) := by
        unfold topoPotential
        simp only [List.length_cons]
        omega
      by_cases hc : c ∈ visited
      · rw [topoLoop_visited sched fn fuel w s visited c rest rd calls hc]
        apply ih w s visited rest rd calls hw
        · refine ⟨hinv.calls_iff, hinv.calls_nodup, hinv.law,
            fun n hn => hinv.ready n (List.mem_cons_of_mem _ hn), hinv.count_some,
            hinv.count_none, ?_, ?_⟩
          · intro n hn hlen
            rcases hinv.leaves n hn hlen with h1 | h1
            · exact Or.inl h1
            · rcases List.mem_cons.1 h1 with h2 | h2
              · exact Or.inl (h2 ▸ hc)
              · exact Or.inr h2
          · intro n hz
            rcases hinv.zero n hz with h1 | h1
            · exact Or.inl h1
            · rcases List.mem_cons.1 h1 with h2 | h2
              · exact Or.inl (h2 ▸ hc)
              · exact Or.inr h2
        · omega
      · have hcalls : c ∉ calls := fun h => hc ((hinv.calls_iff c).2 h)
        have hready : ∀ v, g.edge c v → v ∈ calls := fun v hcv =>
          (hinv.calls_iff v).1 (hinv.ready c (List.mem_cons_self _ _) v hcv)
        have hlaw : TopoLaw g (calls ++ [c]) := topoLaw_append g calls c hinv.law hready
        have hnodup : (calls ++ [c]).Nodup :=
          List.Nodup.append hinv.calls_nodup (List.nodup_singleton c) (by simpa using hcalls)
        rcases hres : fn c w s with ⟨w1, s1, _ | err⟩
        · -- the visitor returned nil
          have hw1 : w1.g = g := by
            have h1 := hfn c w s
            rw [hres] at h1
            exact h1.trans hw
          rw [topoLoop_ok sched fn fuel w s visited c rest rd calls hc w1 s1 hres, hw1]
          have hperm := hf w1.tick (edgeMap.at g.inEdges c)
          have hins : ∀ n, n ∈ sched w1.tick (edgeMap.at g.inEdges c) ↔ g.edge n c := by
            intro n
            rw [hperm.mem_iff]
            exact (hv.mirror n c).symm
          have hrelax : RelaxInv g (nodeSet.Add visited c)
              (sched w1.tick (edgeMap.at g.inEdges c)) rd rest := by
            refine ⟨?_, ?_, ?_, ?_, ?_⟩
            · intro n hn v hnv
              exact (nodeSet.mem_Add _ _ _).2
                (Or.inl (hinv.ready n (List.mem_cons_of_mem _ hn) v hnv))
            · intro n k hk
              rw [depSeen_Add g hv n c visited hc, hinv.count_some n k hk]
              simp only [hins n]
              split
              · push_cast; omega
              · simp
            · intro n hk
              rw [depSeen_Add g hv n c visited hc, hinv.count_none n hk]
              simp only [hins n]
              simp
            · intro n hn hlen
              rcases hinv.leaves n hn hlen with h1 | h1
              · exact Or.inl ((nodeSet.mem_Add _ _ _).2 (Or.inl h1))
              · rcases List.mem_cons.1 h1 with h2 | h2
                · exact Or.inl ((nodeSet.mem_Add _ _ _).2 (Or.inr h2))
                · exact Or.inr h2
            · intro n hz
              rcases hinv.zero n hz with h1 | h1
              · exact Or.inl ((nodeSet.mem_Add _ _ _).2 (Or.inl h1))
              · rcases List.mem_cons.1 h1 with h2 | h2
                · exact Or.inl ((nodeSet.mem_Add _ _ _).2 (Or.inr h2))
                · exact Or.inr h2
          have hrel := foldl_topoRelax_inv g (nodeSet.Add visited c)
            (sched w1.tick (edgeMap.at g.inEdges c)) rd rest
            (hperm.nodup_iff.2 (hv.in_nodup c)) hrelax
          have hpot2 := foldl_topoRelax_potential g
            (sched w1.tick (edgeMap.at g.inEdges c)) rd rest
            (fun n hn => (hv.endpoints n c ((hins n).1 hn)).1)
          apply ih
          · rfl
          · refine ⟨?_, hnodup, hlaw, hrel.ready, ?_, ?_, hrel.leaves, hrel.zero⟩
            · intro x
              rw [nodeSet.mem_Add, List.mem_append, List.mem_singleton, hinv.calls_iff]
            · intro n k hk
              have h1 := hrel.count_some n k hk
              simpa using h1
            · intro n hk
              have h1 := hrel.count_none n hk
              simpa using h1
          · omega
        · -- the visitor returned an error
          have hw1 : w1.g = g := by
            have h1 := hfn c w s
            rw [hres] at h1
            exact h1.trans hw
          rw [topoLoop_err sched fn fuel w s visited c rest rd calls hc w1 s1 err hres]
          exact ⟨_, rfl, hw1, hlaw, hnodup, fun he => by simp at he⟩

/-- The visit sequence of `WalkTopological` obeys the topological law. -/
theorem WalkTopological_spec {σ ε : Type} (sched : Sched) (hf : sched.Fair) (w : World)
    (hv : w.g.Valid) (fn : WalkFunc σ ε) (hfn : ∀ n w s, (fn n w s).1.g = w.g) (s : σ)
    (fuel : Nat) (hfuel : 2 * w.g.nodes.length ≤ fuel) :
    ∃ r, WalkTopological fuel sched w fn s = some r ∧ r.world.g = w.g ∧
      TopoLaw w.g r.calls ∧ r.calls.Nodup ∧
      (r.err = none → ∃ visited1 rd1, TopoInv w.g visited1 [] rd1 r.calls) := by
  unfold WalkTopological
  apply topoLoop_spec sched hf w.g hv fn hfn fuel ⟨w.g, w.tick + 1⟩ s [] _ _ [] rfl
  · refine ⟨fun x => Iff.rfl, List.nodup_nil, ?_, ?_, ?_, ?_, ?_, ?_⟩
    · intro pre u post h
      simp at h
    · intro n hn v hnv
      have h1 := (List.mem_filter.1 (List.mem_reverse.1 hn)).2
      have h2 : (edgeMap.at w.g.outEdges n).length = 0 := by simpa using h1
      have h3 : edgeMap.at w.g.outEdges n = [] := List.length_eq_zero.1 h2
      unfold Graph.edge at hnv
      rw [h3] at hnv
      simp at hnv
    · intro n c hc
      simp at hc
    · intro n _
      simp [depSeen]
    · intro n hn hlen
      refine Or.inr (List.mem_reverse.2 (List.mem_filter.2 ⟨(hf _ _).mem_iff.2 hn, ?_⟩))
      simpa using hlen
    · intro n hz
      simp at hz
  · unfold topoPotential
    have h1 : (Leaves (sched w.tick) w.g).reverse.length ≤ w.g.nodes.length := by
      rw [List.length_reverse]
      unfold Leaves
      exact le_trans (List.length_filter_le _ _) (le_of_eq (hf _ _).length_eq)
    have h2 : ∑ n in w.g.nodes.toFinset, depPot w.g (fun _ => none) n ≤ w.g.nodes.length := by
      refine le_trans (Finset.sum_le_card_nsmul _ _ 1 ?_) ?_
      · intro n _
        unfold depPot
        split <;> simp
      · simp only [smul_eq_mul, mul_one]
        exact List.toFinset_card_le _
    omega

/-- When the visitor returns no error and the graph is acyclic, the walk visits every
node. -/
theorem TopoInv.complete {g : Graph} {visited : List Node} {rd : DepCount}
    {calls : List Node} (h : TopoInv g visited [] rd calls) (hv : g.Valid) (hac : g.Acyclic) :
    ∀ n, n ∈ g.nodes → n ∈ calls := by
  classical
  have key : ∀ k n, (g.nodes.toFinset.filter (fun y => TransGen g.edge n y)).card = k →
      n ∈ g.nodes → n ∈ visited := by
    intro k
    induction k using Nat.strong_induction_on with
    | _ k ih =>
      intro n hk hn
      have hout : ∀ v, g.edge n v → v ∈ visited := by
        intro v hnv
        exact ih _ (hk ▸ card_descendants_lt (fun a b hab => hv.endpoints a b hab) hac
          (TransGen.single hnv)) v rfl (hv.endpoints n v hnv).2
      by_cases hlen : (edgeMap.at g.outEdges n).length = 0
      · rcases h.leaves n hn hlen with h1 | h1
        · exact h1
        · simp at h1
      · have hseen : depSeen g n visited = (edgeMap.at g.outEdges n).length := by
          unfold depSeen
          rw [List.filter_length_eq_length]
          intro v hv1
          simpa using hout v hv1
        cases hr : rd n with
        | none =>
          have h1 := h.count_none n hr
          omega
        | some c =>
          have h1 := h.count_some n c hr
          have h2 : c = 0 := by rw [h1, hseen]; simp
          rcases h.zero n (h2 ▸ hr) with h3 | h3
          · exact h3
          · simp at h3
  exact fun n hn => (h.calls_iff n).1 (key _ n rfl hn)

end Dag

namespace Dag

/-! ## The claim on `WalkTopological` -/

theorem logVisit_graph (n : Node) (w : World) (s : List Node) : (logVisit n w s).1.g = w.g :=
  rfl

/-- C2 (topological law): for every graph `g` satisfying the graph invariants (mirror-edge
invariant included), every fair iteration schedule, every visitor `fn` that leaves the graph
unmodified and enough fuel, `WalkTopological` returns, and in the sequence of nodes it invoked
`fn` on each node `u` comes after every `v` with an edge `u -> v`. -/
theorem topological_law {σ ε : Type} (sched : Sched) (hf : sched.Fair) (w : World)
    (hv : w.g.Valid) (fn : WalkFunc σ ε) (hfn : ∀ n w s, (fn n w s).1.g = w.g) (s : σ)
    (fuel : Nat) (hfuel : 2 * w.g.nodes.length ≤ fuel) :
    ∃ r, WalkTopological fuel sched w fn s = some r ∧
      ∀ pre u post, r.calls = pre ++ u :: post → ∀ v, v ∈ edgeMap.at w.g.outEdges u →
        v ∈ pre := by
  obtain ⟨r, hr, _, hlaw, _⟩ := WalkTopological_spec sched hf w hv fn hfn s fuel hfuel
  exact ⟨r, hr, hlaw⟩

theorem topological_law_witness :
    Sched.backwards.Fair ∧ scenarioS3.Valid ∧
      (∀ n w s, (logVisit n w s).1.g = w.g) ∧ 2 * scenarioS3.nodes.length ≤ 8 ∧
      ∃ r, WalkTopological 8 Sched.backwards ⟨scenarioS3, 0⟩ logVisit [] = some r ∧
        ∀ pre u post, r.calls = pre ++ u :: post →
          ∀ v, v ∈ edgeMap.at scenarioS3.outEdges u → v ∈ pre :=
  ⟨Sched.fair_backwards, scenarioS3_valid, logVisit_graph, by decide,
    topological_law Sched.backwards Sched.fair_backwards ⟨scenarioS3, 0⟩ scenarioS3_valid
      logVisit logVisit_graph [] 8 (by decide)⟩

end Dag

namespace Gragent

/-! ## The claims on the reference parser -/

/-- C10: on a traversal with root name `discovery`, `parseReference` returns the reference
`["discovery", kind, name]` (and no diagnostics) exactly when the traversal has at least two
further steps of which the first two are attribute steps named `kind` and `name`; in every
other case (fewer than two further steps, or one of the first two not an attribute step) it
returns no reference and one error diagnostic. -/
theorem parseReference_discovery (quote : String → String) (rootRange : Range)
    (rel : List Traverser) :
    (∀ kind name, (parseReference quote ⟨"discovery", rootRange, rel⟩).1 =
        some ["discovery", kind, name] ↔
      ∃ r0 r1 rest, rel = Traverser.attr kind r0 :: Traverser.attr name r1 :: rest) ∧
    (∀ r, (parseReference quote ⟨"discovery", rootRange, rel⟩).1 = some r →
      (parseReference quote ⟨"discovery", rootRange, rel⟩).2 = []) ∧
    ((¬ ∃ kind r0 name r1 rest,
        rel = Traverser.attr kind r0 :: Traverser.attr name r1 :: rest) →
      (parseReference quote ⟨"discovery", rootRange, rel⟩).1 = none ∧
      ∃ d, (parseReference quote ⟨"discovery", rootRange, rel⟩).2 = [d] ∧
        d.severity = Severity.error ∧
        Diagnostics.HasErrors (parseReference quote ⟨"discovery", rootRange, rel⟩).2
          = true) := by
  have hp : parseReference quote ⟨"discovery", rootRange, rel⟩ =
      parseDiscoveryRef rel rootRange := by
    simp [parseReference]
  rw [hp]
  match rel with
  | [] => simp [parseDiscoveryRef, Diagnostics.HasErrors]
  | [t] => simp [parseDiscoveryRef, Diagnostics.HasErrors]
  | .attr k r0 :: .attr n r1 :: rest =>
    simp only [parseDiscoveryRef]
    refine ⟨?_, ?_, ?_⟩
    · intro kind name
      constructor
      · intro h
        simp only [Option.some.injEq, List.cons.injEq, and_true, true_and] at h
        exact ⟨r0, r1, rest, by rw [h.1, h.2]⟩
      · rintro ⟨a, b, c, h⟩
        simp only [List.cons.injEq, Traverser.attr.injEq] at h
        simp [h.1.1, h.2.1.1]
    · simp
    · intro h
      exact absurd ⟨k, r0, n, r1, rest, rfl⟩ h
  | .attr k r0 :: .index n r1 :: rest => simp [parseDiscoveryRef, Diagnostics.HasErrors]
  | .attr k r0 :: .splat r1 :: rest => simp [parseDiscoveryRef, Diagnostics.HasErrors]
  | .index k r0 :: t1 :: rest => simp [parseDiscoveryRef, Diagnostics.HasErrors]
  | .splat r0 :: t1 :: rest => simp [parseDiscoveryRef, Diagnostics.HasErrors]

end Gragent

namespace Gragent

open Dag Relation

/-! ## The construction and wiring steps of `Load` -/

theorem loadInv_init : LoadInv LoadState.init where
  valid := Graph.valid_Add _ _ Graph.valid_empty
  nodes := fun x => by
    simp [LoadState.init, NewSystem, Graph.Add, Graph.empty, nodeSet.Add, rootNode]
  next_pos := by simp [LoadState.init]
  keys := fun k body h => by simp [LoadState.init] at h
  ids := fun key c h => by simp [LoadState.init] at h

theorem declare_spec (st : LoadState) (h : LoadInv st) (d : Declaration) :
    ∃ st1, declare st d = Outcome.done st1 ∧ LoadInv st1 ∧ st1.next = st.next + 1 ∧
      st1.world.tick = st.world.tick ∧
      st1.bodyLookup = st.bodyLookup ++ [(st.next, d.body)] ∧
      st1.idNodeMap = (fun key => if key = reference.String d.id then some st.next
        else st.idNodeMap key) := by
  have hroot : rootNode ∈ (st.world.g.Add st.next).nodes := by
    simp only [Graph.Add]
    exact (nodeSet.mem_Add _ _ _).2 (Or.inl ((h.nodes rootNode).2 h.next_pos))
  have hc : st.next ∈ (st.world.g.Add st.next).nodes := by
    simp only [Graph.Add]
    exact (nodeSet.mem_Add _ _ _).2 (Or.inr rfl)
  have hok := Graph.AddEdge_ok_graph (st.world.g.Add st.next) ⟨rootNode, st.next⟩ hroot hc
  have hvalid : ((st.world.g.Add st.next).AddEdge ⟨rootNode, st.next⟩).1.Valid :=
    Graph.valid_AddEdge _ _ (Graph.valid_Add _ _ h.valid)
  have hnodes : ((st.world.g.Add st.next).AddEdge ⟨rootNode, st.next⟩).1.nodes =
      nodeSet.Add st.world.g.nodes st.next := Graph.nodes_AddEdge _ _
  refine ⟨⟨⟨((st.world.g.Add st.next).AddEdge ⟨rootNode, st.next⟩).1, st.world.tick⟩,
      st.next + 1,
      fun n => if n = st.next then some d.component else st.components n,
      fun key => if key = reference.String d.id then some st.next else st.idNodeMap key,
      fun n => if n = st.next then some d.id else st.referenceMap n,
      st.bodyLookup ++ [(st.next, d.body)]⟩, ?_, ?_, rfl, rfl, rfl, rfl⟩
  · simp only [declare, hok]
  refine ⟨hvalid, ?_, ?_, ?_, ?_⟩
  · intro x
    show x ∈ ((st.world.g.Add st.next).AddEdge ⟨rootNode, st.next⟩).1.nodes ↔ x < st.next + 1
    rw [hnodes, nodeSet.mem_Add, h.nodes x]
    simp only [Node] at *
    omega
  · show 1 ≤ st.next + 1
    exact Nat.le_add_left 1 st.next
  · intro k body hk
    show k < st.next + 1
    rcases List.mem_append.1 hk with h1 | h1
    · exact Nat.lt_succ_of_lt (h.keys k body h1)
    · simp only [List.mem_singleton, Prod.mk.injEq] at h1
      rw [h1.1]
      exact Nat.lt_succ_self _
  · intro key c hkey
    show c < st.next + 1
    simp only at hkey
    split at hkey
    · simp only [Option.some.injEq] at hkey
      rw [← hkey]
      exact Nat.lt_succ_self _
    · exact Nat.lt_succ_of_lt (h.ids key c hkey)

theorem lookupBody_append_some (l extra : List (Node × SyntaxBody)) (n : Node)
    (body : SyntaxBody) (h : lookupBody l n = some body) :
    lookupBody (l ++ extra) n = some body := by
  induction l with
  | nil => simp [lookupBody] at h
  | cons p l ih =>
    obtain ⟨k, b⟩ := p
    simp only [List.cons_append, lookupBody] at h ⊢
    split
    · rename_i hk
      simpa [hk] using h
    · rename_i hk
      simp only [hk, if_false] at h
      exact ih h

theorem lookupBody_append_new (l : List (Node × SyntaxBody)) (n : Node) (body : SyntaxBody)
    (h : ∀ k b, (k, b) ∈ l → k ≠ n) : lookupBody (l ++ [(n, body)]) n = some body := by
  induction l with
  | nil => simp [lookupBody]
  | cons p l ih =>
    obtain ⟨k, b⟩ := p
    have hk : k ≠ n := h k b (List.mem_cons_self _ _)
    simp only [List.cons_append, lookupBody, hk, if_false]
    exact ih (fun k1 b1 h1 => h k1 b1 (List.mem_cons_of_mem _ h1))

theorem declareAll_spec (ds : List Declaration) :
    ∀ (st : LoadState), LoadInv st →
      ∃ st1, declareAll st ds = Outcome.done st1 ∧ LoadInv st1 ∧
        st1.next = st.next + ds.length ∧ st1.world.tick = st.world.tick ∧
        (∀ n body, lookupBody st.bodyLookup n = some body →
          lookupBody st1.bodyLookup n = some body) ∧
        (∀ key, (∀ d, d ∈ ds → reference.String d.id ≠ key) →
          st1.idNodeMap key = st.idNodeMap key) ∧
        (∀ pre d post, ds = pre ++ d :: post →
          lookupBody st1.bodyLookup (st.next + pre.length) = some d.body ∧
          ((st.next + pre.length, d.body) ∈ st1.bodyLookup) ∧
          ((∀ e, e ∈ post → reference.String e.id ≠ reference.String d.id) →
            st1.idNodeMap (reference.String d.id) = some (st.next + pre.length))) := by
  induction ds with
  | nil =>
    intro st h
    refine ⟨st, rfl, h, rfl, rfl, fun _ _ hb => hb, fun _ _ => rfl, ?_⟩
    intro pre d post hsplit
    simp at hsplit
  | cons d0 rest ih =>
    intro st h
    obtain ⟨st1, hd, hinv1, hnext1, htick1, hbl1, hid1⟩ := declare_spec st h d0
    obtain ⟨st2, hd2, hinv2, hnext2, htick2, hbl2, hid2, hsplit2⟩ := ih st1 hinv1
    have hnew : lookupBody st1.bodyLookup st.next = some d0.body := by
      rw [hbl1]
      exact lookupBody_append_new _ _ _ (fun k b hk => Nat.ne_of_lt (h.keys k b hk))
    refine ⟨st2, by simp only [declareAll, hd, hd2], hinv2, ?_, htick2.trans htick1, ?_, ?_, ?_⟩
    · rw [hnext2, hnext1, List.length_cons]
      simp only [Node] at *
      omega
    · intro n body hb
      apply hbl2
      rw [hbl1]
      exact lookupBody_append_some _ _ _ _ hb
    · intro key hkey
      rw [hid2 key (fun d hd => hkey d (List.mem_cons_of_mem _ hd)), hid1]
      simp only
      rw [if_neg (fun hc => hkey d0 (List.mem_cons_self _ _) hc.symm)]
    · intro pre d post hsplit
      cases pre with
      | nil =>
        simp only [List.nil_append, List.cons.injEq] at hsplit
        obtain ⟨h1, h2⟩ := hsplit
        subst h1 h2
        refine ⟨?_, ?_, ?_⟩
        · simpa using hbl2 _ _ hnew
        · have hmem2 : ∀ (l2 : List (Node × SyntaxBody)) n b,
              lookupBody l2 n = some b → (n, b) ∈ l2 := by
            intro l2
            induction l2 with
            | nil => intro n b hl; simp [lookupBody] at hl
            | cons p l2 ihl =>
              intro n b hl
              obtain ⟨k, b0⟩ := p
              simp only [lookupBody] at hl
              split at hl
              · rename_i hk
                simp only [Option.some.injEq] at hl
                simp [hk, hl]
              · exact List.mem_cons_of_mem _ (ihl n b hl)
          simpa using hmem2 _ _ _ (hbl2 _ _ hnew)
        · intro hlast
          rw [hid2 _ hlast, hid1]
          simp
      | cons p pre1 =>
        simp only [List.cons_append, List.cons.injEq] at hsplit
        obtain ⟨_, h2⟩ := hsplit
        have h3 := hsplit2 pre1 d post h2
        have h4 : st1.next + pre1.length = st.next + (p :: pre1).length := by
          rw [hnext1, List.length_cons]
          simp only [Node] at *
          omega
        rw [h4] at h3
        exact h3

theorem wireBody_spec (quote : String → String) (idNodeMap : String → Option Node)
    (origin : Node) (ts : List Traversal) :
    ∀ (g : Graph), g.Valid → origin ∈ g.nodes →
      (∀ key c, idNodeMap key = some c → c ∈ g.nodes) →
      ∃ g1, wireBody quote idNodeMap origin g ts = Outcome.done g1 ∧ g1.Valid ∧
        g1.nodes = g.nodes ∧ (∀ x y, g.edge x y → g1.edge x y) ∧
        (∀ t, t ∈ ts → ∀ ref target, (parseReference quote t).1 = some ref →
          idNodeMap (reference.String ref) = some target → g1.edge origin target) := by
  induction ts with
  | nil =>
    intro g hv _ _
    exact ⟨g, rfl, hv, rfl, fun _ _ h => h, fun t ht => by simp at ht⟩
  | cons t rest ih =>
    intro g hv ho hids
    cases hp : (parseReference quote t).1 with
    | none =>
      obtain ⟨g1, h1, h2, h3, h4, h5⟩ := ih g hv ho hids
      refine ⟨g1, by simp only [wireBody, hp, h1], h2, h3, h4, ?_⟩
      intro t1 ht1 ref target hr hi
      rcases List.mem_cons.1 ht1 with h6 | h6
      · rw [h6, hp] at hr; simp at hr
      · exact h5 t1 h6 ref target hr hi
    | some lookup =>
      cases hi0 : idNodeMap (reference.String lookup) with
      | none =>
        obtain ⟨g1, h1, h2, h3, h4, h5⟩ := ih g hv ho hids
        refine ⟨g1, by simp only [wireBody, hp, hi0, h1], h2, h3, h4, ?_⟩
        intro t1 ht1 ref target hr hi
        rcases List.mem_cons.1 ht1 with h6 | h6
        · rw [h6, hp] at hr
          simp only [Option.some.injEq] at hr
          rw [← hr, hi0] at hi
          simp at hi
        · exact h5 t1 h6 ref target hr hi
      | some target0 =>
        have ht0 : target0 ∈ g.nodes := hids _ _ hi0
        have hok := Graph.AddEdge_ok_graph g ⟨origin, target0⟩ ho ht0
        have hv1 : (g.AddEdge ⟨origin, target0⟩).1.Valid := Graph.valid_AddEdge g _ hv
        have hn1 : (g.AddEdge ⟨origin, target0⟩).1.nodes = g.nodes := Graph.nodes_AddEdge g _
        have hmono : ∀ x y, g.edge x y → (g.AddEdge ⟨origin, target0⟩).1.edge x y := by
          intro x y hxy
          unfold Graph.edge
          rw [Graph.out_AddEdge g ⟨origin, target0⟩ ho ht0]
          split
          · exact (nodeSet.mem_Add _ _ _).2 (Or.inl hxy)
          · exact hxy
        have hnew : (g.AddEdge ⟨origin, target0⟩).1.edge origin target0 := by
          unfold Graph.edge
          rw [Graph.out_AddEdge g ⟨origin, target0⟩ ho ht0]
          simp only [if_true]
          exact (nodeSet.mem_Add _ _ _).2 (Or.inr rfl)
        obtain ⟨g1, h1, h2, h3, h4, h5⟩ := ih (g.AddEdge ⟨origin, target0⟩).1 hv1
          (hn1 ▸ ho) (fun key c hk => hn1 ▸ hids key c hk)
        refine ⟨g1, ?_, h2, h3.trans hn1, fun x y hxy => h4 x y (hmono x y hxy), ?_⟩
        · simp only [wireBody, hp, hi0]
          rw [hok] at h1 ⊢
          exact h1
        · intro t1 ht1 ref target hr hi
          rcases List.mem_cons.1 ht1 with h6 | h6
          · rw [h6, hp] at hr
            simp only [Option.some.injEq] at hr
            rw [← hr, hi0] at hi
            simp only [Option.some.injEq] at hi
            exact hi ▸ h4 _ _ hnew
          · exact h5 t1 h6 ref target hr hi

theorem wireAll_spec (quote : String → String) (st : LoadState) (origins : List Node) :
    ∀ (g : Graph), g.Valid → (∀ o, o ∈ origins → o ∈ g.nodes) →
      (∀ key c, st.idNodeMap key = some c → c ∈ g.nodes) →
      ∃ g1, wireAll quote st g origins = Outcome.done g1 ∧ g1.Valid ∧
        g1.nodes = g.nodes ∧ (∀ x y, g.edge x y → g1.edge x y) ∧
        (∀ o, o ∈ origins → ∀ body, lookupBody st.bodyLookup o = some body →
          ∀ t, t ∈ expressionsFromSyntaxBody body → ∀ ref target,
            (parseReference quote t).1 = some ref →
            st.idNodeMap (reference.String ref) = some target → g1.edge o target) := by
  induction origins with
  | nil =>
    intro g hv _ _
    exact ⟨g, rfl, hv, rfl, fun _ _ h => h, fun o ho => by simp at ho⟩
  | cons o rest ih =>
    intro g hv hos hids
    cases hb : lookupBody st.bodyLookup o with
    | none =>
      obtain ⟨g1, h1, h2, h3, h4, h5⟩ := ih g hv
        (fun x hx => hos x (List.mem_cons_of_mem _ hx)) hids
      refine ⟨g1, by simp only [wireAll, hb, h1], h2, h3, h4, ?_⟩
      intro o1 ho1 body hbody
      rcases List.mem_cons.1 ho1 with h6 | h6
      · rw [h6, hb] at hbody; simp at hbody
      · exact h5 o1 h6 body hbody
    | some body0 =>
      obtain ⟨g0, k1, k2, k3, k4, k5⟩ := wireBody_spec quote st.idNodeMap o
        (expressionsFromSyntaxBody body0) g hv (hos o (List.mem_cons_self _ _)) hids
      obtain ⟨g1, h1, h2, h3, h4, h5⟩ := ih g0 k2
        (fun x hx => k3 ▸ hos x (List.mem_cons_of_mem _ hx))
        (fun key c hk => k3 ▸ hids key c hk)
      refine ⟨g1, by simp only [wireAll, hb, k1, h1], h2, h3.trans k3,
        fun x y hxy => h4 x y (k4 x y hxy), ?_⟩
      intro o1 ho1 body hbody
      rcases List.mem_cons.1 ho1 with h6 | h6
      · rw [h6, hb] at hbody
        simp only [Option.some.injEq] at hbody
        intro t ht ref target hr hi
        exact h4 _ _ (h6 ▸ k5 t (hbody ▸ ht) ref target hr hi)
      · exact h5 o1 h6 body hbody

/-- The wiring of `Load` never panics; it leaves a graph that satisfies the invariants, in
which every component whose body reads a reference to a registered identity has an edge to
the node registered last under that identity. -/
theorem loadWire_spec (sched : Sched) (hf : sched.Fair) (quote : String → String)
    (root : rootBlock) :
    ∃ st, loadWire sched quote root = Outcome.done st ∧ st.world.g.Valid ∧
      (∀ x, x ∈ st.world.g.nodes ↔ x < root.declarations.length + 1) ∧
      (∀ pre a post, root.declarations = pre ++ a :: post →
        (∀ e, e ∈ post → reference.String e.id ≠ reference.String a.id) →
        ∀ preB b postB, root.declarations = preB ++ b :: postB →
          ∀ t, t ∈ expressionsFromSyntaxBody b.body →
            (parseReference quote t).1 = some a.id →
            st.world.g.edge (preB.length + 1) (pre.length + 1)) := by
  obtain ⟨st1, hd, hinv, hnext, _, _, _, hsplit⟩ :=
    declareAll_spec root.declarations LoadState.init loadInv_init
  have hperm := hf st1.world.tick (st1.bodyLookup.map (fun entry => entry.1))
  obtain ⟨g1, h1, h2, h3, _, h5⟩ := wireAll_spec quote st1
    (sched st1.world.tick (st1.bodyLookup.map (fun entry => entry.1))) st1.world.g hinv.valid
    (fun o ho => by
      obtain ⟨⟨k, body⟩, hk, hk2⟩ := List.mem_map.1 (hperm.mem_iff.1 ho)
      exact (hinv.nodes o).2 (hk2 ▸ hinv.keys k body hk))
    (fun key c hk => (hinv.nodes c).2 (hinv.ids key c hk))
  have hinit : LoadState.init.next = 1 := rfl
  refine ⟨{ st1 with world := ⟨g1, st1.world.tick + 1⟩ }, ?_, h2, ?_, ?_⟩
  · simp only [loadWire, hd, h1]
  · intro x
    show x ∈ g1.nodes ↔ _
    rw [h3, hinv.nodes x, hnext, hinit]
    simp only [Node] at *
    omega
  · intro pre a post hA hlast preB b postB hB t ht hparse
    obtain ⟨_, _, hidA⟩ := hsplit pre a post hA
    obtain ⟨hbodyB, hmemB, _⟩ := hsplit preB b postB hB
    rw [hinit] at hidA hbodyB hmemB
    have hkeyB : 1 + preB.length ∈ sched st1.world.tick
        (st1.bodyLookup.map (fun entry => entry.1)) :=
      hperm.mem_iff.2 (List.mem_map.2 ⟨_, hmemB, rfl⟩)
    have hedge := h5 _ hkeyB b.body hbodyB t ht a.id (1 + pre.length) hparse (hidA hlast)
    rw [Nat.add_comm 1 preB.length, Nat.add_comm 1 pre.length] at hedge
    exact hedge

end Gragent

namespace Dag

open Relation

theorem edge_mem_edgePairs (g : Graph) (u v : Node) (h : g.edge u v) :
    (u, v) ∈ g.edgePairs := by
  unfold Graph.edge edgeMap.at at h
  unfold Graph.edgePairs
  generalize g.outEdges = m at h
  induction m with
  | nil => simp [edgeMap.find] at h
  | cons p m ih =>
    obtain ⟨k, s⟩ := p
    simp only [edgeMap.find] at h
    simp only [List.map_cons, List.flatten_cons, List.mem_append]
    by_cases hk : k = u
    · simp only [hk, if_true] at h
      exact Or.inl (List.mem_map.2 ⟨v, h, by rw [hk]⟩)
    · simp only [hk, if_false] at h
      exact Or.inr (ih h)

theorem acyclic_of_rank_pairs (g : Graph) (rank : Node → Nat)
    (h : ∀ p, p ∈ g.edgePairs → rank p.2 < rank p.1) : g.Acyclic :=
  acyclic_of_rank rank (fun u v huv => h (u, v) (edge_mem_edgePairs g u v huv))

theorem topoLaw_path (g : Graph) (calls : List Node) (hlaw : TopoLaw g calls) {b a : Node}
    (hpath : TransGen g.edge b a) : ∀ p q, calls = p ++ b :: q → a ∈ p := by
  induction hpath using TransGen.head_induction_on with
  | base hba => exact fun p q hc => hlaw p _ q hc a hba
  | @ih b0 x hbx _ ih =>
    intro p q hc
    have hx : x ∈ p := hlaw p b0 q hc x hbx
    obtain ⟨p1, p2, hp⟩ := List.append_of_mem hx
    have hc2 : calls = p1 ++ x :: (p2 ++ b0 :: q) := by
      rw [hc, hp]; simp
    have ha := ih p1 _ hc2
    rw [hp]
    exact List.mem_append_left _ ha

end Dag

namespace Gragent

open Dag Relation

/-! ## The evaluation order of `Load` -/

theorem scenarioTwice_wire :
    loadWire Sched.inOrder quotePlain scenarioTwice =
      Outcome.done
        ⟨⟨scenarioTwiceGraph, 1⟩, 4,
          fun n => if n = 3 then some (Component.discovery "chain" "b")
            else if n = 2 then some (Component.discovery "static" "a")
            else if n = 1 then some (Component.discovery "static" "a") else none,
          fun key => if key = "discovery.chain.b" then some 3
            else if key = "discovery.static.a" then some 2
            else if key = "discovery.static.a" then some 1 else none,
          fun n => if n = 3 then some ["discovery", "chain", "b"]
            else if n = 2 then some ["discovery", "static", "a"]
            else if n = 1 then some ["discovery", "static", "a"] else none,
          [(1, SyntaxBody.single "hosts" []), (2, SyntaxBody.single "hosts" []),
            (3, SyntaxBody.single "input" [traversalStaticA])]⟩ := by
  rfl

/-- C3, the claim as stated fails: in the configuration that declares
`discovery "static" "a"` twice and then `discovery "chain" "b"` reading
`discovery.static.a.targets`, the wired graph is acyclic and the body of `b` holds a
traversal that parses to the reference of the first declaration `a` (node 1), yet `Load`
evaluates node 2, then `b` (node 3), and only then node 1. -/
theorem load_eval_order_counterexample :
    (∃ st, loadWire Sched.inOrder quotePlain scenarioTwice = Outcome.done st ∧
      st.world.g.Acyclic) ∧
    Sched.inOrder.Fair ∧
    scenarioTwice.declarations =
      [] ++ (discoveryBlock.declaration ⟨"static", "a", SyntaxBody.single "hosts" []⟩) ::
        [discoveryBlock.declaration ⟨"static", "a", SyntaxBody.single "hosts" []⟩,
         discoveryBlock.declaration
          ⟨"chain", "b", SyntaxBody.single "input" [traversalStaticA]⟩] ∧
    traversalStaticA ∈ expressionsFromSyntaxBody (SyntaxBody.single "input" [traversalStaticA]) ∧
    (parseReference quotePlain traversalStaticA).1 =
      some (discoveryBlock.declaration ⟨"static", "a", SyntaxBody.single "hosts" []⟩).id ∧
    (Load 20 Sched.inOrder quotePlain scenarioTwice [] (fun _ => logVisit) []).calls =
      some [2, 3, 1, 0] ∧
    ¬ (∀ p q, [2, 3, 1, 0] = p ++ 3 :: q → 1 ∈ p) := by
  refine ⟨⟨_, scenarioTwice_wire, ?_⟩, Sched.fair_inOrder, rfl, ?_, ?_, ?_, ?_⟩
  · exact acyclic_of_rank_pairs scenarioTwiceGraph scenarioRank (by decide)
  · simp [SyntaxBody.single, expressionsFromSyntaxBody, expressionsFromBlocks]
  · decide
  · decide
  · intro h
    have h1 := h [2] [1, 0] rfl
    simp at h1

end Gragent

namespace Gragent

open Dag Relation

/-- C3 (amended): for every configuration, fair schedule and evaluation closure that leaves
the graph unmodified, if the wired graph is acyclic, `b` is a declared block whose body holds
a traversal that parses to the reference of the declared block `a`, and no block declared
after `a` has the dot-joined reference of `a`, then `Load` returns, in its evaluation
sequence the node of `b` is preceded by the node of `a`, and when `Load` returns no error
the node of `b` is in that sequence. -/
theorem load_eval_order {σ ε : Type} (sched : Sched) (hf : sched.Fair)
    (quote : String → String) (root : rootBlock) (diags : Diagnostics)
    (fn : LoadState → WalkFunc σ ε) (hfn : ∀ st n w s, (fn st n w s).1.g = w.g) (s : σ)
    (pre : List Declaration) (a : Declaration) (post : List Declaration)
    (hA : root.declarations = pre ++ a :: post)
    (hlast : ∀ e, e ∈ post → reference.String e.id ≠ reference.String a.id)
    (preB : List Declaration) (b : Declaration) (postB : List Declaration)
    (hB : root.declarations = preB ++ b :: postB)
    (t : Traversal) (ht : t ∈ expressionsFromSyntaxBody b.body)
    (hparse : (parseReference quote t).1 = some a.id)
    (st : LoadState) (hwire : loadWire sched quote root = Outcome.done st)
    (hac : st.world.g.Acyclic)
    (fuel : Nat) (hfuel1 : 2 * st.world.g.size ≤ fuel)
    (hfuel2 : 2 * st.world.g.nodes.length ≤ fuel) :
    ∃ r, Load fuel sched quote root diags fn s = Outcome.done r ∧
      (∀ p q, r.calls = p ++ (preB.length + 1) :: q → (pre.length + 1) ∈ p) ∧
      (r.err = none → (preB.length + 1) ∈ r.calls) := by
  by_cases hd : Diagnostics.HasErrors diags = true
  · refine ⟨⟨NewSystem, some (LoadError.diags diags), [], s⟩, by simp [Load, hd], ?_, ?_⟩
    · intro p q hc
      simp at hc
    · intro he
      simp at he
  · obtain ⟨st1, hw1, hvalid, hnodes, hedges⟩ := loadWire_spec sched hf quote root
    have hst : st1 = st := by
      rw [hw1] at hwire
      exact Outcome.done.inj hwire
    subst hst
    have hedge : st1.world.g.edge (preB.length + 1) (pre.length + 1) :=
      hedges pre a post hA hlast preB b postB hB t ht hparse
    obtain ⟨w1, hred, hv1, hn1, he1⟩ := Reduce_spec sched hf st1.world hvalid hac fuel hfuel1
    have hpath : TransGen w1.g.edge (preB.length + 1) (pre.length + 1) := by
      have h1 := essential_path_of_path st1.world.g.nodes
        (fun x y hxy => hvalid.endpoints x y hxy) hac _ _ (TransGen.single hedge)
      exact TransGen.mono (fun x y hxy => (he1 x y).2 hxy) h1
    obtain ⟨r, hwalk, _, hlaw, _, hfin⟩ := WalkTopological_spec sched hf w1 hv1 (fn st1)
      (hfn st1) s fuel (by rw [hn1]; exact hfuel2)
    have hac1 : w1.g.Acyclic := fun x hx =>
      hac x (TransGen.mono (fun a b hab => ((he1 a b).1 hab).1) hx)
    refine ⟨⟨r.world, r.err.map LoadError.eval, r.calls, r.state⟩, ?_, ?_, ?_⟩
    · simp [Load, loadRun, hd, hw1, hred, hwalk]
    · exact topoLaw_path w1.g r.calls hlaw hpath
    · intro he
      have he1 : r.err = none := by
        cases hr : r.err with
        | none => rfl
        | some e => simp [hr] at he
      obtain ⟨visited1, rd1, hinv⟩ := hfin he1
      apply hinv.complete hv1 hac1
      rw [hn1, hnodes, hB]
      simp only [List.length_append, List.length_cons]
      simp only [Node]
      omega

theorem scenarioS2_wire :
    loadWire Sched.backwards quotePlain scenarioS2 = Outcome.done scenarioS2State := by
  rfl

theorem load_eval_order_witness :
    Sched.backwards.Fair ∧
    (∀ (_ : LoadState) n w s, (logVisit n w s).1.g = w.g) ∧
    scenarioS2.declarations =
      [] ++ (discoveryBlock.declaration ⟨"static", "a", SyntaxBody.single "hosts" []⟩) ::
        [discoveryBlock.declaration
          ⟨"chain", "b", SyntaxBody.single "input" [traversalStaticA]⟩] ∧
    scenarioS2.declarations =
      [discoveryBlock.declaration ⟨"static", "a", SyntaxBody.single "hosts" []⟩] ++
        (discoveryBlock.declaration
          ⟨"chain", "b", SyntaxBody.single "input" [traversalStaticA]⟩) :: [] ∧
    loadWire Sched.backwards quotePlain scenarioS2 = Outcome.done scenarioS2State ∧
    scenarioS2State.world.g.Acyclic ∧
    (∃ r, Load 6 Sched.backwards quotePlain scenarioS2 [] (fun _ => logVisit) [] =
        Outcome.done r ∧
      (∀ p q, r.calls = p ++ 2 :: q → 1 ∈ p) ∧ (r.err = none → 2 ∈ r.calls)) ∧
    (Load 6 Sched.backwards quotePlain scenarioS2 [] (fun _ => logVisit) []).calls =
      some [1, 2, 0] :=
  ⟨Sched.fair_backwards, fun _ => logVisit_graph, rfl, rfl, scenarioS2_wire,
    acyclic_of_rank_pairs scenarioS2Graph scenarioS2Rank (by decide),
    load_eval_order Sched.backwards Sched.fair_backwards quotePlain scenarioS2 []
      (fun _ => logVisit) (fun _ => logVisit_graph) []
      [] (discoveryBlock.declaration ⟨"static", "a", SyntaxBody.single "hosts" []⟩)
      [discoveryBlock.declaration ⟨"chain", "b", SyntaxBody.single "input" [traversalStaticA]⟩]
      rfl (by decide)
      [discoveryBlock.declaration ⟨"static", "a", SyntaxBody.single "hosts" []⟩]
      (discoveryBlock.declaration ⟨"chain", "b", SyntaxBody.single "input" [traversalStaticA]⟩)
      [] rfl traversalStaticA
      (by simp [discoveryBlock.declaration, SyntaxBody.single, expressionsFromSyntaxBody,
        expressionsFromBlocks])
      (by decide) scenarioS2State scenarioS2_wire
      (acyclic_of_rank_pairs scenarioS2Graph scenarioS2Rank (by decide)) 6
      (by decide) (by decide),
    by decide⟩

end Gragent

namespace Gragent

/-! ## More claims on the reference parser -/

theorem parseScrapeRef_cases (rel : List Traverser) (startRange : Range) :
    (∀ name, (parseScrapeRef rel startRange).1 = some ["scrape", name] ↔
      ∃ r0 rest, rel = Traverser.attr name r0 :: rest) ∧
    (∀ r, (parseScrapeRef rel startRange).1 = some r → (parseScrapeRef rel startRange).2 = []) ∧
    ((¬ ∃ name r0 rest, rel = Traverser.attr name r0 :: rest) →
      (parseScrapeRef rel startRange).1 = none ∧
      ∃ d, (parseScrapeRef rel startRange).2 = [d] ∧ d.severity = Severity.error ∧
        Diagnostics.HasErrors (parseScrapeRef rel startRange).2 = true) := by
  match rel with
  | [] => simp [parseScrapeRef, Diagnostics.HasErrors]
  | .attr n r0 :: rest =>
    simp only [parseScrapeRef]
    refine ⟨?_, ?_, ?_⟩
    · intro name
      constructor
      · intro h
        simp only [Option.some.injEq, List.cons.injEq, and_true, true_and] at h
        exact ⟨r0, rest, by rw [h]⟩
      · rintro ⟨a, b, h⟩
        simp only [List.cons.injEq, Traverser.attr.injEq] at h
        simp [h.1.1]
    · simp
    · intro h
      exact absurd ⟨n, r0, rest, rfl⟩ h
  | .index k r0 :: rest => simp [parseScrapeRef, Diagnostics.HasErrors]
  | .splat r0 :: rest => simp [parseScrapeRef, Diagnostics.HasErrors]

theorem parseRemoteWriteRef_cases (rel : List Traverser) (startRange : Range) :
    (∀ name, (parseRemoteWriteRef rel startRange).1 = some ["remote_write", name] ↔
      ∃ r0 rest, rel = Traverser.attr name r0 :: rest) ∧
    (∀ r, (parseRemoteWriteRef rel startRange).1 = some r →
      (parseRemoteWriteRef rel startRange).2 = []) ∧
    ((¬ ∃ name r0 rest, rel = Traverser.attr name r0 :: rest) →
      (parseRemoteWriteRef rel startRange).1 = none ∧
      ∃ d, (parseRemoteWriteRef rel startRange).2 = [d] ∧ d.severity = Severity.error ∧
        Diagnostics.HasErrors (parseRemoteWriteRef rel startRange).2 = true) := by
  match rel with
  | [] => simp [parseRemoteWriteRef, Diagnostics.HasErrors]
  | .attr n r0 :: rest =>
    simp only [parseRemoteWriteRef]
    refine ⟨?_, ?_, ?_⟩
    · intro name
      constructor
      · intro h
        simp only [Option.some.injEq, List.cons.injEq, and_true, true_and] at h
        exact ⟨r0, rest, by rw [h]⟩
      · rintro ⟨a, b, h⟩
        simp only [List.cons.injEq, Traverser.attr.injEq] at h
        simp [h.1.1]
    · simp
    · intro h
      exact absurd ⟨n, r0, rest, rfl⟩ h
  | .index k r0 :: rest => simp [parseRemoteWriteRef, Diagnostics.HasErrors]
  | .splat r0 :: rest => simp [parseRemoteWriteRef, Diagnostics.HasErrors]

/-- C11: on a traversal with root name `scrape` (respectively `remote_write`),
`parseReference` returns `["scrape", name]` (respectively `["remote_write", name]`), with no
diagnostics, exactly when the traversal has at least one further step and the first is an
attribute step named `name`; otherwise it returns no reference and one error diagnostic. -/
theorem parseReference_scrape_remote_write (quote : String → String) (rootRange : Range)
    (rel : List Traverser) :
    ((∀ name, (parseReference quote ⟨"scrape", rootRange, rel⟩).1 = some ["scrape", name] ↔
        ∃ r0 rest, rel = Traverser.attr name r0 :: rest) ∧
      (∀ r, (parseReference quote ⟨"scrape", rootRange, rel⟩).1 = some r →
        (parseReference quote ⟨"scrape", rootRange, rel⟩).2 = []) ∧
      ((¬ ∃ name r0 rest, rel = Traverser.attr name r0 :: rest) →
        (parseReference quote ⟨"scrape", rootRange, rel⟩).1 = none ∧
        ∃ d, (parseReference quote ⟨"scrape", rootRange, rel⟩).2 = [d] ∧
          d.severity = Severity.error ∧
          Diagnostics.HasErrors (parseReference quote ⟨"scrape", rootRange, rel⟩).2 = true)) ∧
    ((∀ name, (parseReference quote ⟨"remote_write", rootRange, rel⟩).1 =
          some ["remote_write", name] ↔
        ∃ r0 rest, rel = Traverser.attr name r0 :: rest) ∧
      (∀ r, (parseReference quote ⟨"remote_write", rootRange, rel⟩).1 = some r →
        (parseReference quote ⟨"remote_write", rootRange, rel⟩).2 = []) ∧
      ((¬ ∃ name r0 rest, rel = Traverser.attr name r0 :: rest) →
        (parseReference quote ⟨"remote_write", rootRange, rel⟩).1 = none ∧
        ∃ d, (parseReference quote ⟨"remote_write", rootRange, rel⟩).2 = [d] ∧
          d.severity = Severity.error ∧
          Diagnostics.HasErrors (parseReference quote ⟨"remote_write", rootRange, rel⟩).2
            = true)) := by
  have hs : parseReference quote ⟨"scrape", rootRange, rel⟩ = parseScrapeRef rel rootRange := by
    simp [parseReference]
  have hr : parseReference quote ⟨"remote_write", rootRange, rel⟩ =
      parseRemoteWriteRef rel rootRange := by
    simp [parseReference]
  rw [hs, hr]
  exact ⟨parseScrapeRef_cases rel rootRange, parseRemoteWriteRef_cases rel rootRange⟩

/-- C12: for every traversal whose root name is none of `discovery`, `scrape`,
`remote_write`, `parseReference` returns no reference and exactly one diagnostic, of error
severity, with summary `Invalid reference` and as detail the quoted root name followed by
` is not a valid key name`. -/
theorem parseReference_invalid_root (quote : String → String) (t : Traversal)
    (h1 : t.rootName ≠ "discovery") (h2 : t.rootName ≠ "scrape")
    (h3 : t.rootName ≠ "remote_write") :
    parseReference quote t =
      (none, [⟨Severity.error, "Invalid reference",
        quote t.rootName ++ " is not a valid key name", t.rootRange⟩]) := by
  simp [parseReference, h1, h2, h3]

theorem parseReference_invalid_root_witness :
    traversalFooBarBaz.rootName ≠ "discovery" ∧ traversalFooBarBaz.rootName ≠ "scrape" ∧
    traversalFooBarBaz.rootName ≠ "remote_write" ∧
    parseReference quotePlain traversalFooBarBaz =
      (none, [⟨Severity.error, "Invalid reference", "\"foo\" is not a valid key name", 0⟩]) :=
  ⟨by decide, by decide, by decide,
    parseReference_invalid_root quotePlain traversalFooBarBaz (by decide) (by decide)
      (by decide)⟩

theorem parseDiscoveryRef_extend (rel extra : List Traverser) (sr : Range) (r : reference)
    (h : (parseDiscoveryRef rel sr).1 = some r) :
    parseDiscoveryRef (rel ++ extra) sr = (some r, []) := by
  match rel with
  | [] => simp [parseDiscoveryRef] at h
  | [t] => simp [parseDiscoveryRef] at h
  | .attr k r0 :: .attr n r1 :: rest =>
    simp only [parseDiscoveryRef, Option.some.injEq] at h
    simp [parseDiscoveryRef, h]
  | .attr k r0 :: .index n r1 :: rest => simp [parseDiscoveryRef] at h
  | .attr k r0 :: .splat r1 :: rest => simp [parseDiscoveryRef] at h
  | .index k r0 :: t1 :: rest => simp [parseDiscoveryRef] at h
  | .splat r0 :: t1 :: rest => simp [parseDiscoveryRef] at h

theorem parseScrapeRef_extend (rel extra : List Traverser) (sr : Range) (r : reference)
    (h : (parseScrapeRef rel sr).1 = some r) :
    parseScrapeRef (rel ++ extra) sr = (some r, []) := by
  match rel with
  | [] => simp [parseScrapeRef] at h
  | .attr n r0 :: rest =>
    simp only [parseScrapeRef, Option.some.injEq] at h
    simp [parseScrapeRef, h]
  | .index k r0 :: rest => simp [parseScrapeRef] at h
  | .splat r0 :: rest => simp [parseScrapeRef] at h

theorem parseRemoteWriteRef_extend (rel extra : List Traverser) (sr : Range) (r : reference)
    (h : (parseRemoteWriteRef rel sr).1 = some r) :
    parseRemoteWriteRef (rel ++ extra) sr = (some r, []) := by
  match rel with
  | [] => simp [parseRemoteWriteRef] at h
  | .attr n r0 :: rest =>
    simp only [parseRemoteWriteRef, Option.some.injEq] at h
    simp [parseRemoteWriteRef, h]
  | .index k r0 :: rest => simp [parseRemoteWriteRef] at h
  | .splat r0 :: rest => simp [parseRemoteWriteRef] at h

/-- C13 (excess trailing steps are ignored): for every traversal `t` on which
`parseReference` returns a reference `r` and every list `extra` of further steps, attribute
steps or not, `parseReference` on `t` followed by `extra` returns `r` and no diagnostics. -/
theorem parseReference_trailing_steps (quote : String → String) (t : Traversal)
    (extra : List Traverser) (r : reference) (h : (parseReference quote t).1 = some r) :
    parseReference quote (t.extend extra) = (some r, []) := by
  unfold parseReference at h ⊢
  simp only [Traversal.extend]
  by_cases h1 : t.rootName = "discovery"
  · simp only [h1, if_true] at h ⊢
    exact parseDiscoveryRef_extend _ _ _ _ h
  · by_cases h2 : t.rootName = "scrape"
    · simp only [h2, if_true] at h ⊢
      simp only [show ¬ ("scrape" = "discovery") by decide, if_false] at h ⊢
      exact parseScrapeRef_extend _ _ _ _ h
    · by_cases h3 : t.rootName = "remote_write"
      · simp only [h3, if_true] at h ⊢
        simp only [show ¬ ("remote_write" = "discovery") by decide,
          show ¬ ("remote_write" = "scrape") by decide, if_false] at h ⊢
        exact parseRemoteWriteRef_extend _ _ _ _ h
      · simp [h1, h2, h3] at h

theorem parseReference_trailing_steps_witness :
    (parseReference quotePlain traversalStaticA).1 = some ["discovery", "static", "a"] ∧
    parseReference quotePlain
        (traversalStaticA.extend [Traverser.index "0" 4, Traverser.attr "x" 5]) =
      (some ["discovery", "static", "a"], []) :=
  ⟨by decide,
    parseReference_trailing_steps quotePlain traversalStaticA
      [Traverser.index "0" 4, Traverser.attr "x" 5] ["discovery", "static", "a"] (by decide)⟩

end Gragent

namespace Gragent

/-! ## Dotted text -/

theorem splitDots_ne_nil (s : List Char) : splitDots s ≠ [] := by
  cases s with
  | nil => simp [splitDots]
  | cons c cs =>
    unfold splitDots
    split
    · simp
    · split <;> simp

theorem splitDots_cons_of_ne (c : Char) (cs : List Char) (hc : c ≠ '.') :
    ∃ seg rest, splitDots cs = seg :: rest ∧ splitDots (c :: cs) = (c :: seg) :: rest := by
  cases h : splitDots cs with
  | nil => exact absurd h (splitDots_ne_nil cs)
  | cons seg rest =>
    refine ⟨seg, rest, rfl, ?_⟩
    simp [splitDots, hc, h]

theorem splitDots_append_dot (a b : List Char) :
    splitDots (a ++ '.' :: b) = splitDots a ++ splitDots b := by
  induction a with
  | nil => simp [splitDots]
  | cons c a ih =>
    by_cases hc : c = '.'
    · subst hc
      simp [splitDots, ih]
    · obtain ⟨seg, rest, h1, h2⟩ := splitDots_cons_of_ne c a hc
      obtain ⟨seg2, rest2, h3, h4⟩ := splitDots_cons_of_ne c (a ++ '.' :: b) hc
      rw [List.cons_append, h4, h2]
      rw [ih, h1] at h3
      simp only [List.cons_append, List.cons.injEq] at h3
      rw [← h3.1, ← h3.2]
      rfl

theorem splitDots_of_no_dot (a : List Char) (h : '.' ∉ a) : splitDots a = [a] := by
  induction a with
  | nil => rfl
  | cons c a ih =>
    have hc : c ≠ '.' := fun hc => h (hc ▸ List.mem_cons_self _ _)
    obtain ⟨seg, rest, h1, h2⟩ := splitDots_cons_of_ne c a hc
    rw [ih (fun hm => h (List.mem_cons_of_mem _ hm))] at h1
    simp only [List.cons.injEq] at h1
    rw [h2, ← h1.1, ← h1.2]

theorem eq_of_splitDots_singleton (a b : List Char) (h : splitDots a = [b]) : a = b := by
  induction a generalizing b with
  | nil =>
    simp only [splitDots, List.cons.injEq, and_true] at h
    exact h
  | cons c a ih =>
    by_cases hc : c = '.'
    · subst hc
      simp only [splitDots, if_true, List.cons.injEq] at h
      exact absurd h.2 (splitDots_ne_nil a)
    · obtain ⟨seg, rest, h1, h2⟩ := splitDots_cons_of_ne c a hc
      rw [h2] at h
      simp only [List.cons.injEq] at h
      rw [h.2] at h1
      rw [ih seg h1, h.1]

theorem no_dot_of_splitDots_singleton (a b : List Char) (h : splitDots a = [b]) :
    '.' ∉ a := by
  induction a generalizing b with
  | nil => simp
  | cons c a ih =>
    by_cases hc : c = '.'
    · subst hc
      simp only [splitDots, if_true, List.cons.injEq] at h
      exact absurd h.2 (splitDots_ne_nil a)
    · obtain ⟨seg, rest, h1, h2⟩ := splitDots_cons_of_ne c a hc
      rw [h2] at h
      simp only [List.cons.injEq] at h
      rw [h.2] at h1
      intro hm
      rcases List.mem_cons.1 hm with h3 | h3
      · exact hc h3.symm
      · exact ih seg h1 h3

theorem intercalate_go_data (acc sep : String) (l : List String) :
    (String.intercalate.go acc sep l).data =
      acc.data ++ (l.map (fun a => sep.data ++ a.data)).flatten := by
  induction l generalizing acc with
  | nil => simp [String.intercalate.go]
  | cons a l ih =>
    simp [String.intercalate.go, ih, String.data_append]

theorem reference_String_data (a : String) (r : List String) :
    (reference.String (a :: r)).data =
      a.data ++ (r.map (fun seg => '.' :: seg.data)).flatten := by
  unfold reference.String String.intercalate
  rw [intercalate_go_data]
  rfl

theorem splitDots_reference_String (a : String) (r : List String) :
    splitDots (reference.String (a :: r)).data =
      ((a :: r).map (fun seg => splitDots seg.data)).flatten := by
  induction r generalizing a with
  | nil =>
    rw [reference_String_data]
    simp
  | cons b r ih =>
    have h1 : (reference.String (a :: b :: r)).data =
        a.data ++ '.' :: (reference.String (b :: r)).data := by
      rw [reference_String_data, reference_String_data]
      simp
    rw [h1, splitDots_append_dot, ih]
    simp

end Gragent

namespace Gragent

/-! ## The round trip of a reference through its dotted text -/

theorem isIdentChar_ne_dot (c : Char) (h : isIdentChar c = true) : c ≠ '.' := by
  intro hc
  subst hc
  revert h
  decide

theorem isIdentStart_ne_dot (c : Char) (h : isIdentStart c = true) : c ≠ '.' := by
  intro hc
  subst hc
  revert h
  decide

theorem no_dot_of_isIdentifier (s : List Char) (h : isIdentifier s = true) : '.' ∉ s := by
  cases s with
  | nil => simp
  | cons c cs =>
    simp only [isIdentifier, Bool.and_eq_true, List.all_eq_true] at h
    intro hm
    rcases List.mem_cons.1 hm with h1 | h1
    · exact isIdentStart_ne_dot c h.1 h1.symm
    · exact isIdentChar_ne_dot _ (h.2 _ h1) rfl

theorem splitDots_String_of_no_dot (a : String) (r : List String)
    (h : ∀ seg, seg ∈ a :: r → '.' ∉ seg.data) :
    splitDots (reference.String (a :: r)).data = (a :: r).map (fun seg => seg.data) := by
  rw [splitDots_reference_String]
  generalize a :: r = l at h
  induction l with
  | nil => rfl
  | cons b l ih =>
    simp only [List.map_cons, List.flatten_cons]
    rw [splitDots_of_no_dot b.data (h b (List.mem_cons_self _ _)),
      ih (fun seg hs => h seg (List.mem_cons_of_mem _ hs))]
    rfl

theorem traversalOfDotted_of_identifiers (a : String) (r : List String)
    (h : ∀ seg, seg ∈ a :: r → isIdentifier seg.data = true) :
    traversalOfDotted (reference.String (a :: r)) =
      some ⟨a, 0, r.map (fun seg => Traverser.attr seg 0)⟩ := by
  unfold traversalOfDotted
  rw [splitDots_String_of_no_dot a r (fun seg hs => no_dot_of_isIdentifier _ (h seg hs))]
  have hall : ((a :: r).map (fun seg => seg.data)).all isIdentifier = true := by
    rw [List.all_eq_true]
    intro x hx
    obtain ⟨seg, hs, rfl⟩ := List.mem_map.1 hx
    exact h seg hs
  simp only [List.map_cons] at hall ⊢
  rw [if_pos hall]
  simp [List.map_map, Function.comp_def]

theorem reference_Equals_self (r : reference) : reference.Equals r r = true := by
  induction r with
  | nil => rfl
  | cons a r ih => simp [reference.Equals, ih]

/-- C14, the claim as stated fails: `["scrape", "a.b"]` is a reference of the schema, its
dotted text `scrape.a.b` denotes the traversal `scrape`, `a`, `b`, and `parseReference`
returns `["scrape", "a"]` on it, which is not the reference. -/
theorem reference_round_trip_counterexample :
    reference.Valid ["scrape", "a.b"] ∧
    traversalOfDotted (reference.String ["scrape", "a.b"]) =
      some ⟨"scrape", 0, [Traverser.attr "a" 0, Traverser.attr "b" 0]⟩ ∧
    parseReference quotePlain ⟨"scrape", 0, [Traverser.attr "a" 0, Traverser.attr "b" 0]⟩ =
      (some ["scrape", "a"], []) ∧
    reference.Equals ["scrape", "a"] ["scrape", "a.b"] = false := by
  refine ⟨Or.inr (Or.inl ⟨"a.b", rfl⟩), ?_, ?_, ?_⟩
  · decide
  · decide
  · decide

/-- C14 (amended): for every reference `r` of the schema whose segments are identifiers
(and so hold no `.`), the dotted text `r.String()` denotes a traversal, and `parseReference`
on that traversal returns `r`, with no diagnostics. -/
theorem reference_round_trip (quote : String → String) (r : reference) (hv : r.Valid)
    (hid : ∀ seg, seg ∈ r → isIdentifier seg.data = true) :
    ∃ t, traversalOfDotted (reference.String r) = some t ∧
      parseReference quote t = (some r, []) ∧ reference.Equals r r = true := by
  rcases hv with ⟨kind, name, rfl⟩ | ⟨name, rfl⟩ | ⟨name, rfl⟩
  · exact ⟨_, traversalOfDotted_of_identifiers _ _ hid,
      by simp [parseReference, parseDiscoveryRef], reference_Equals_self _⟩
  · exact ⟨_, traversalOfDotted_of_identifiers _ _ hid,
      by simp [parseReference, parseScrapeRef], reference_Equals_self _⟩
  · exact ⟨_, traversalOfDotted_of_identifiers _ _ hid,
      by simp [parseReference, parseRemoteWriteRef], reference_Equals_self _⟩

theorem reference_round_trip_witness :
    reference.Valid ["discovery", "static", "a"] ∧
    (∀ seg, seg ∈ ["discovery", "static", "a"] → isIdentifier seg.data = true) ∧
    ∃ t, traversalOfDotted (reference.String ["discovery", "static", "a"]) = some t ∧
      parseReference quotePlain t = (some ["discovery", "static", "a"], []) ∧
      reference.Equals ["discovery", "static", "a"] ["discovery", "static", "a"] = true :=
  ⟨Or.inl ⟨"static", "a", rfl⟩, by decide,
    reference_round_trip quotePlain ["discovery", "static", "a"]
      (Or.inl ⟨"static", "a", rfl⟩) (by decide)⟩

end Gragent

namespace Gragent

/-! ## Maps with string keys -/

theorem Assoc.find_of_put {β : Type} (m : List (String × β)) (k key : String) (v : β) :
    Assoc.find (Assoc.put m k v) key = if k = key then some v else Assoc.find m key := by
  induction m with
  | nil =>
    by_cases h : k = key <;> simp [Assoc.put, Assoc.find, h]
  | cons p m ih =>
    obtain ⟨k0, v0⟩ := p
    by_cases h0 : k0 = k
    · subst h0
      by_cases h : k0 = key <;> simp [Assoc.put, Assoc.find, h]
    · by_cases h : k = key
      · subst h
        simp [Assoc.put, Assoc.find, h0, ih]
      · by_cases h1 : k0 = key
        · subst h1
          simp [Assoc.put, Assoc.find, h0, h]
        · simp [Assoc.put, Assoc.find, h0, h, h1, ih]

theorem Assoc.find_eq_none_iff {β : Type} (m : List (String × β)) (key : String) :
    Assoc.find m key = none ↔ key ∉ Assoc.keys m := by
  induction m with
  | nil => simp [Assoc.find, Assoc.keys]
  | cons p m ih =>
    obtain ⟨k0, v0⟩ := p
    by_cases h : k0 = key
    · simp [Assoc.find, Assoc.keys, h]
    · simp only [Assoc.find, h, if_false, ih, Assoc.keys, List.map_cons, List.mem_cons, not_or]
      exact ⟨fun h1 => ⟨fun hc => h hc.symm, h1⟩, fun h1 => h1.2⟩

theorem Assoc.mem_keys_put {β : Type} (m : List (String × β)) (k key : String) (v : β) :
    key ∈ Assoc.keys (Assoc.put m k v) ↔ key = k ∨ key ∈ Assoc.keys m := by
  have h1 := Assoc.find_eq_none_iff (Assoc.put m k v) key
  have h2 := Assoc.find_eq_none_iff m key
  rw [Assoc.find_of_put] at h1
  by_cases hk : k = key
  · subst hk
    simp only [if_true] at h1
    constructor
    · exact fun _ => Or.inl rfl
    · intro _
      by_contra hc
      exact absurd (h1.2 hc) (by simp)
  · simp only [hk, if_false] at h1
    constructor
    · intro h
      by_contra hc
      exact (h1.1 (h2.2 (fun hm => hc (Or.inr hm)))) h
    · rintro (h | h)
      · exact absurd h.symm hk
      · by_contra hc
        exact (h2.1 (h1.2 hc)) h

theorem Assoc.nodup_keys_put {β : Type} (m : List (String × β)) (k : String) (v : β)
    (h : (Assoc.keys m).Nodup) : (Assoc.keys (Assoc.put m k v)).Nodup := by
  induction m with
  | nil => simp [Assoc.put, Assoc.keys]
  | cons p m ih =>
    obtain ⟨k0, v0⟩ := p
    have h1 : k0 ∉ Assoc.keys m ∧ (Assoc.keys m).Nodup := by
      simpa [Assoc.keys] using h
    by_cases h0 : k0 = k
    · simpa [Assoc.put, h0, Assoc.keys] using h
    · simp only [Assoc.put, h0, if_false]
      show (k0 :: Assoc.keys (Assoc.put m k v)).Nodup
      refine List.nodup_cons.2 ⟨?_, ih h1.2⟩
      rw [Assoc.mem_keys_put]
      rintro (h2 | h2)
      · exact h0 h2
      · exact h1.1 h2

theorem Assoc.mem_iff_find {β : Type} (m : List (String × β)) (h : (Assoc.keys m).Nodup)
    (key : String) (v : β) : (key, v) ∈ m ↔ Assoc.find m key = some v := by
  induction m with
  | nil => simp [Assoc.find]
  | cons p m ih =>
    obtain ⟨k0, v0⟩ := p
    have h1 : k0 ∉ Assoc.keys m ∧ (Assoc.keys m).Nodup := by
      simpa [Assoc.keys] using h
    by_cases h0 : k0 = key
    · subst h0
      simp only [List.mem_cons, Prod.mk.injEq, true_and, Assoc.find, if_true,
        Option.some.injEq]
      constructor
      · rintro (h2 | h2)
        · exact h2.symm
        · exact absurd (List.mem_map.2 ⟨(k0, v), h2, rfl⟩) h1.1
      · exact fun h2 => Or.inl h2.symm
    · simp only [List.mem_cons, Prod.mk.injEq, Assoc.find, h0, if_false, ← ih h1.2]
      constructor
      · rintro (h2 | h2)
        · exact absurd h2.1.symm h0
        · exact h2
      · exact Or.inr

theorem Assoc.find_perm {β : Type} (m1 m2 : List (String × β)) (hp : m1.Perm m2)
    (h : (Assoc.keys m2).Nodup) (key : String) : Assoc.find m1 key = Assoc.find m2 key := by
  have h1 : (Assoc.keys m1).Nodup := (hp.map _).nodup_iff.2 h
  cases hf : Assoc.find m2 key with
  | none =>
    rw [Assoc.find_eq_none_iff] at hf ⊢
    exact fun hm => hf ((hp.map _).mem_iff.1 hm)
  | some v =>
    rw [← Assoc.mem_iff_find m2 h] at hf
    rw [← Assoc.mem_iff_find m1 h1]
    exact hp.mem_iff.2 hf

theorem Assoc.find_foldl_put {β : Type} (l : List (String × β)) :
    ∀ (m : List (String × β)), (Assoc.keys l).Nodup → ∀ key,
      Assoc.find (l.foldl (fun m entry => Assoc.put m entry.1 entry.2) m) key =
        match Assoc.find l key with
        | some v => some v
        | none => Assoc.find m key := by
  induction l with
  | nil => intro m _ key; simp [Assoc.find]
  | cons p l ih =>
    intro m h key
    obtain ⟨k0, v0⟩ := p
    have h1 : k0 ∉ Assoc.keys l ∧ (Assoc.keys l).Nodup := by
      simpa [Assoc.keys] using h
    rw [List.foldl_cons, ih _ h1.2 key, Assoc.find_of_put]
    by_cases h0 : k0 = key
    · subst h0
      have h2 : Assoc.find l k0 = none := (Assoc.find_eq_none_iff l k0).2 h1.1
      simp [Assoc.find, h2]
    · simp [Assoc.find, h0]

theorem Assoc.nodup_foldl_put {β : Type} (l : List (String × β)) :
    ∀ (m : List (String × β)), (Assoc.keys m).Nodup →
      (Assoc.keys (l.foldl (fun m entry => Assoc.put m entry.1 entry.2) m)).Nodup := by
  induction l with
  | nil => exact fun m h => h
  | cons p l ih => exact fun m h => ih _ (Assoc.nodup_keys_put m p.1 p.2 h)

end Gragent

namespace Gragent

/-! ## `mergeState` -/

theorem mergeLoop_spec (l : List (String × Value)) :
    ∀ (merged : List (String × Value)), (Assoc.keys l).Nodup →
      ((∀ key, key ∈ Assoc.keys l → key ∉ Assoc.keys merged) →
        mergeLoop merged l =
          Except.ok (l.foldl (fun m entry => Assoc.put m entry.1 entry.2) merged)) ∧
      ((∃ key, key ∈ Assoc.keys l ∧ key ∈ Assoc.keys merged) →
        ∃ msg, mergeLoop merged l = Except.error msg) := by
  induction l with
  | nil =>
    intro merged _
    exact ⟨fun _ => rfl, fun ⟨key, h, _⟩ => by simp [Assoc.keys] at h⟩
  | cons p l ih =>
    intro merged hnd
    obtain ⟨k0, v0⟩ := p
    have h1 : k0 ∉ Assoc.keys l ∧ (Assoc.keys l).Nodup := by
      simpa [Assoc.keys] using hnd
    cases hf : Assoc.find merged k0 with
    | some v =>
      have hk : k0 ∈ Assoc.keys merged := by
        by_contra hc
        rw [(Assoc.find_eq_none_iff merged k0).2 hc] at hf
        simp at hf
      refine ⟨fun h => absurd hk (h k0 (by simp [Assoc.keys])), fun _ => ?_⟩
      exact ⟨"component state overriding key " ++ k0, by simp only [mergeLoop, hf]⟩
    | none =>
      have hk : k0 ∉ Assoc.keys merged := (Assoc.find_eq_none_iff merged k0).1 hf
      obtain ⟨ih1, ih2⟩ := ih (Assoc.put merged k0 v0) h1.2
      refine ⟨fun h => ?_, fun ⟨key, hkey, hm⟩ => ?_⟩
      · simp only [mergeLoop, hf, List.foldl_cons]
        apply ih1
        intro key hkey
        rw [Assoc.mem_keys_put]
        rintro (h2 | h2)
        · exact h1.1 (h2 ▸ hkey)
        · exact h key (by simp [Assoc.keys] at hkey ⊢; exact Or.inr hkey) h2
      · simp only [mergeLoop, hf]
        apply ih2
        have h3 : key = k0 ∨ key ∈ Assoc.keys l := by
          simpa [Assoc.keys] using hkey
        rcases h3 with h3 | h3
        · exact absurd (h3 ▸ hm) hk
        · exact ⟨key, h3, (Assoc.mem_keys_put _ _ _ _).2 (Or.inr hm)⟩

/-- What `mergeState` does on two objects: it fails exactly on a shared name, and
otherwise returns the union. -/
theorem mergeState_objects (ordIn ordSt : List (String × Value) → List (String × Value))
    (hIn : ∀ l, (ordIn l).Perm l) (hSt : ∀ l, (ordSt l).Perm l)
    (ia sa : List (String × Value)) (hia : (Assoc.keys ia).Nodup)
    (hsa : (Assoc.keys sa).Nodup) :
    ((∃ key, key ∈ Assoc.keys ia ∧ key ∈ Assoc.keys sa) →
      ∃ msg, mergeState ordIn ordSt (Value.object ia) (Value.object sa) = Except.error msg) ∧
    ((∀ key, key ∈ Assoc.keys ia → key ∉ Assoc.keys sa) →
      ∃ merged, mergeState ordIn ordSt (Value.object ia) (Value.object sa) =
          Except.ok (Value.object merged) ∧
        (Assoc.keys merged).Nodup ∧
        ∀ key, Assoc.find merged key =
          match Assoc.find sa key with
          | some v => some v
          | none => Assoc.find ia key) := by
  have hpi := hIn ia
  have hps := hSt sa
  have hndi : (Assoc.keys (ordIn ia)).Nodup := (hpi.map _).nodup_iff.2 hia
  have hnds : (Assoc.keys (ordSt sa)).Nodup := (hps.map _).nodup_iff.2 hsa
  have hmi : ∀ key, key ∈ Assoc.keys (ordIn ia) ↔ key ∈ Assoc.keys ia :=
    fun key => (hpi.map _).mem_iff
  have hms : ∀ key, key ∈ Assoc.keys (ordSt sa) ↔ key ∈ Assoc.keys sa :=
    fun key => (hps.map _).mem_iff
  have hfind0 : ∀ key,
      Assoc.find ((ordIn ia).foldl (fun m entry => Assoc.put m entry.1 entry.2) []) key =
        Assoc.find ia key := by
    intro key
    rw [Assoc.find_foldl_put _ _ hndi, Assoc.find_perm _ _ hpi hia]
    cases Assoc.find ia key <;> rfl
  have hkeys0 : ∀ key,
      key ∈ Assoc.keys ((ordIn ia).foldl (fun m entry => Assoc.put m entry.1 entry.2) []) ↔
        key ∈ Assoc.keys ia := by
    intro key
    have h1 := Assoc.find_eq_none_iff
      ((ordIn ia).foldl (fun m entry => Assoc.put m entry.1 entry.2) []) key
    have h2 := Assoc.find_eq_none_iff ia key
    rw [hfind0] at h1
    constructor
    · intro h
      by_contra hc
      exact h1.1 (h2.2 hc) h
    · intro h
      by_contra hc
      exact h2.1 (h1.2 hc) h
  obtain ⟨hok, herr⟩ := mergeLoop_spec (ordSt sa)
    ((ordIn ia).foldl (fun m entry => Assoc.put m entry.1 entry.2) []) hnds
  constructor
  · rintro ⟨key, h1, h2⟩
    obtain ⟨msg, hmsg⟩ := herr ⟨key, (hms key).2 h2, (hkeys0 key).2 h1⟩
    exact ⟨msg, by simp only [mergeState, hmsg]⟩
  · intro hdis
    have h1 := hok (fun key hk hc => hdis key ((hkeys0 key).1 hc) ((hms key).1 hk))
    refine ⟨(ordSt sa).foldl (fun m entry => Assoc.put m entry.1 entry.2)
        ((ordIn ia).foldl (fun m entry => Assoc.put m entry.1 entry.2) []),
      by simp only [mergeState, h1], ?_, ?_⟩
    · exact Assoc.nodup_foldl_put _ _ (Assoc.nodup_foldl_put _ _ (by simp [Assoc.keys]))
    · intro key
      rw [Assoc.find_foldl_put _ _ hnds, Assoc.find_perm _ _ hps hsa, hfind0]
      cases Assoc.find sa key <;> rfl

theorem mem_fieldNames_iff (attrs : List (String × Value)) (name : String) :
    name ∈ Assoc.keys attrs ↔ Assoc.find attrs name ≠ none := by
  rw [Ne, Assoc.find_eq_none_iff]
  exact not_not.symm

/-- C15: for arguments whose attribute maps are maps, `mergeState(inputs, state)` returns a
value exactly when both are objects and no field name occurs in both (otherwise it panics);
the value it returns is an object whose field names are those of the two arguments, each
field with the value it has in the argument it comes from. -/
theorem mergeState_union (ordIn ordSt : List (String × Value) → List (String × Value))
    (hIn : ∀ l, (ordIn l).Perm l) (hSt : ∀ l, (ordSt l).Perm l) (inputs state : Value)
    (hI : inputs.KeysNodup) (hS : state.KeysNodup) :
    (Except.succeeds (mergeState ordIn ordSt inputs state) ↔
      (inputs.IsObjectType = true ∧ state.IsObjectType = true ∧
        ∀ name, name ∈ inputs.fieldNames → name ∉ state.fieldNames)) ∧
    (∀ merged, mergeState ordIn ordSt inputs state = Except.ok merged →
      merged.IsObjectType = true ∧ merged.KeysNodup ∧
      (∀ name, name ∈ merged.fieldNames ↔
        (name ∈ inputs.fieldNames ∨ name ∈ state.fieldNames)) ∧
      (∀ name, name ∈ inputs.fieldNames → merged.attr name = inputs.attr name) ∧
      (∀ name, name ∈ state.fieldNames → merged.attr name = state.attr name)) := by
  cases inputs with
  | object ia =>
    cases state with
    | object sa =>
      obtain ⟨herr, hok⟩ := mergeState_objects ordIn ordSt hIn hSt ia sa hI hS
      by_cases hdis : ∀ key, key ∈ Assoc.keys ia → key ∉ Assoc.keys sa
      · obtain ⟨merged, hm, hnd, hfind⟩ := hok hdis
        have hkeys : ∀ name, name ∈ Assoc.keys merged ↔
            (name ∈ Assoc.keys ia ∨ name ∈ Assoc.keys sa) := by
          intro name
          rw [mem_fieldNames_iff, mem_fieldNames_iff, mem_fieldNames_iff, hfind]
          cases Assoc.find sa name <;> simp
        constructor
        · rw [hm]
          simp only [Except.succeeds, Value.IsObjectType, Value.fieldNames, true_and, true_iff]
          exact hdis
        · intro v hv
          rw [hm] at hv
          simp only [Except.ok.injEq] at hv
          subst hv
          refine ⟨rfl, hnd, hkeys, ?_, ?_⟩
          · intro name hn
            simp only [Value.attr, hfind]
            have h1 : Assoc.find sa name = none :=
              (Assoc.find_eq_none_iff sa name).2 (hdis name hn)
            rw [h1]
          · intro name hn
            simp only [Value.attr, hfind]
            have h1 := (mem_fieldNames_iff sa name).1 hn
            cases hf : Assoc.find sa name with
            | none => exact absurd hf h1
            | some v => rfl
      · have hsh : ∃ key, key ∈ Assoc.keys ia ∧ key ∈ Assoc.keys sa := by
          by_contra hc
          exact hdis (fun key h1 h2 => hc ⟨key, h1, h2⟩)
        obtain ⟨msg, hmsg⟩ := herr hsh
        constructor
        · rw [hmsg]
          simp only [Except.succeeds, Value.IsObjectType, Value.fieldNames, true_and, false_iff]
          exact hdis
        · intro v hv
          rw [hmsg] at hv
          simp at hv
    | _ => simp [mergeState, Except.succeeds, Value.IsObjectType]
  | _ => simp [mergeState, Except.succeeds, Value.IsObjectType]

theorem mergeState_union_witness :
    (∀ l, (inListOrder l).Perm l) ∧ (∀ l, (inReverseOrder l).Perm l) ∧
    sampleInput.KeysNodup ∧ sampleState.KeysNodup ∧
    (Except.succeeds (mergeState inListOrder inReverseOrder sampleInput sampleState) ↔
      (sampleInput.IsObjectType = true ∧ sampleState.IsObjectType = true ∧
        ∀ name, name ∈ sampleInput.fieldNames → name ∉ sampleState.fieldNames)) ∧
    (∀ merged, mergeState inListOrder inReverseOrder sampleInput sampleState =
        Except.ok merged →
      merged.IsObjectType = true ∧ merged.KeysNodup ∧
      (∀ name, name ∈ merged.fieldNames ↔
        (name ∈ sampleInput.fieldNames ∨ name ∈ sampleState.fieldNames)) ∧
      (∀ name, name ∈ sampleInput.fieldNames → merged.attr name = sampleInput.attr name) ∧
      (∀ name, name ∈ sampleState.fieldNames → merged.attr name = sampleState.attr name)) :=
  ⟨fun l => List.Perm.refl l, fun l => List.reverse_perm l,
    by simp [sampleInput, Value.KeysNodup, Assoc.keys],
    by simp [sampleState, Value.KeysNodup, Assoc.keys],
    mergeState_union inListOrder inReverseOrder (fun l => List.Perm.refl l)
      (fun l => List.reverse_perm l) sampleInput sampleState
      (by simp [sampleInput, Value.KeysNodup, Assoc.keys])
      (by simp [sampleState, Value.KeysNodup, Assoc.keys])⟩

/-- C16 (merge determinism): for all objects `a` and `b`, whatever the orders the maps are
iterated in, `mergeState(a, b)` fails exactly when `mergeState(b, a)` fails, and when both
return they return the same object: the same field names with the same values. -/
theorem mergeState_order_independent
    (ord1 ord2 ord3 ord4 : List (String × Value) → List (String × Value))
    (h1 : ∀ l, (ord1 l).Perm l) (h2 : ∀ l, (ord2 l).Perm l)
    (h3 : ∀ l, (ord3 l).Perm l) (h4 : ∀ l, (ord4 l).Perm l)
    (a b : Value) (ha : a.IsObjectType = true) (hb : b.IsObjectType = true)
    (hka : a.KeysNodup) (hkb : b.KeysNodup) :
    (Except.succeeds (mergeState ord1 ord2 a b) ↔
      Except.succeeds (mergeState ord3 ord4 b a)) ∧
    (∀ v1 v2, mergeState ord1 ord2 a b = Except.ok v1 →
      mergeState ord3 ord4 b a = Except.ok v2 → v1.SameObject v2) := by
  cases a with
  | object aa =>
    cases b with
    | object ba =>
      obtain ⟨herr1, hok1⟩ := mergeState_objects ord1 ord2 h1 h2 aa ba hka hkb
      obtain ⟨herr2, hok2⟩ := mergeState_objects ord3 ord4 h3 h4 ba aa hkb hka
      by_cases hdis : ∀ key, key ∈ Assoc.keys aa → key ∉ Assoc.keys ba
      · have hdis2 : ∀ key, key ∈ Assoc.keys ba → key ∉ Assoc.keys aa :=
          fun key hk hc => hdis key hc hk
        obtain ⟨m1, hm1, _, hf1⟩ := hok1 hdis
        obtain ⟨m2, hm2, _, hf2⟩ := hok2 hdis2
        constructor
        · rw [hm1, hm2]
          simp [Except.succeeds]
        · intro v1 v2 hv1 hv2
          rw [hm1] at hv1
          rw [hm2] at hv2
          simp only [Except.ok.injEq] at hv1 hv2
          subst hv1 hv2
          refine ⟨rfl, rfl, ?_⟩
          intro name
          simp only [Value.attr, hf1, hf2]
          cases hfa : Assoc.find aa name with
          | none => cases Assoc.find ba name <;> rfl
          | some va =>
            have hna : name ∈ Assoc.keys aa := (mem_fieldNames_iff aa name).2 (by simp [hfa])
            have hnb : Assoc.find ba name = none :=
              (Assoc.find_eq_none_iff ba name).2 (hdis name hna)
            rw [hnb]
      · have hsh : ∃ key, key ∈ Assoc.keys aa ∧ key ∈ Assoc.keys ba := by
          by_contra hc
          exact hdis (fun key k1 k2 => hc ⟨key, k1, k2⟩)
        obtain ⟨key, k1, k2⟩ := hsh
        obtain ⟨msg1, hmsg1⟩ := herr1 ⟨key, k1, k2⟩
        obtain ⟨msg2, hmsg2⟩ := herr2 ⟨key, k2, k1⟩
        constructor
        · rw [hmsg1, hmsg2]
          simp [Except.succeeds]
        · intro v1 v2 hv1
          rw [hmsg1] at hv1
          simp at hv1
    | _ => simp [Value.IsObjectType] at hb
  | _ => simp [Value.IsObjectType] at ha

theorem mergeState_order_independent_witness :
    (∀ l, (inListOrder l).Perm l) ∧ (∀ l, (inReverseOrder l).Perm l) ∧
    sampleInput.IsObjectType = true ∧ sampleState.IsObjectType = true ∧
    sampleInput.KeysNodup ∧ sampleState.KeysNodup ∧
    (Except.succeeds (mergeState inListOrder inReverseOrder sampleInput sampleState) ↔
      Except.succeeds (mergeState inReverseOrder inListOrder sampleState sampleInput)) ∧
    (∀ v1 v2, mergeState inListOrder inReverseOrder sampleInput sampleState = Except.ok v1 →
      mergeState inReverseOrder inListOrder sampleState sampleInput = Except.ok v2 →
      v1.SameObject v2) :=
  ⟨fun l => List.Perm.refl l, fun l => List.reverse_perm l, rfl, rfl,
    by simp [sampleInput, Value.KeysNodup, Assoc.keys],
    by simp [sampleState, Value.KeysNodup, Assoc.keys],
    mergeState_order_independent inListOrder inReverseOrder inReverseOrder inListOrder
      (fun l => List.Perm.refl l) (fun l => List.reverse_perm l)
      (fun l => List.reverse_perm l) (fun l => List.Perm.refl l)
      sampleInput sampleState rfl rfl
      (by simp [sampleInput, Value.KeysNodup, Assoc.keys])
      (by simp [sampleState, Value.KeysNodup, Assoc.keys])⟩

end Gragent

namespace Gragent

/-! ## `FillEvalContext` -/

theorem fillInner_two (upper : List (String × Layer)) (root name : String) (v : Value) :
    fillInner upper [root, name] v =
      Except.ok (Assoc.put upper root
        (Layer.values (Assoc.put (Layer.valuesOf (Assoc.find upper root)) name v))) := rfl

theorem fillInner_three (upper : List (String × Layer)) (root kind name : String) (v : Value) :
    fillInner upper [root, kind, name] v =
      Except.ok (Assoc.put upper root
        (Layer.inner (Assoc.put (Layer.innerOf (Assoc.find upper root)) kind
          (Layer.values (Assoc.put
            (Layer.valuesOf (Assoc.find (Layer.innerOf (Assoc.find upper root)) kind))
            name v))))) := rfl

theorem fillInner_total (key : List String) :
    ∀ (upper : List (String × Layer)) (v : Value), key.length ≠ 1 →
      ∃ filled, fillInner upper key v = Except.ok filled := by
  induction key with
  | nil => exact fun upper v _ => ⟨upper, rfl⟩
  | cons a rest ih =>
    intro upper v hlen
    match rest, ih, hlen with
    | [], _, hlen => simp at hlen
    | [b], _, _ => exact ⟨_, rfl⟩
    | b :: c :: rest1, ih, _ =>
      obtain ⟨filled, hf⟩ := ih (Layer.innerOf (Assoc.find upper a)) v (by simp)
      exact ⟨Assoc.put upper a (Layer.inner filled), by simp only [fillInner, hf]⟩

theorem fillAll_total (vals : List referenceValue) :
    ∀ (cv : List (String × Layer)), (∀ val, val ∈ vals → val.Key.length ≠ 1) →
      ∃ filled, fillAll cv vals = Except.ok filled := by
  induction vals with
  | nil => exact fun cv _ => ⟨cv, rfl⟩
  | cons val rest ih =>
    intro cv h
    obtain ⟨f1, h1⟩ := fillInner_total val.Key cv val.Value (h val (List.mem_cons_self _ _))
    obtain ⟨f2, h2⟩ := ih f1 (fun x hx => h x (List.mem_cons_of_mem _ hx))
    exact ⟨f2, by simp only [fillAll, h1, h2]⟩

theorem leafAt_put_two (cv : List (String × Layer)) (root0 name0 root name : String)
    (v : Value) :
    leafAt (Assoc.put cv root0
        (Layer.values (Assoc.put (Layer.valuesOf (Assoc.find cv root0)) name0 v)))
      [root, name] =
      if root0 = root ∧ name0 = name then some v else leafAt cv [root, name] := by
  simp only [leafAt, Assoc.find_of_put]
  by_cases hr : root0 = root
  · subst hr
    simp only [if_true, Layer.valuesOf, Assoc.find_of_put, true_and]
  · simp [hr]

theorem leafAt_put_other_two (cv : List (String × Layer)) (root0 root name : String)
    (layer : Layer) (h : root0 ≠ root) :
    leafAt (Assoc.put cv root0 layer) [root, name] = leafAt cv [root, name] := by
  simp [leafAt, Assoc.find_of_put, h]

theorem leafAt_put_other_three (cv : List (String × Layer)) (root0 root kind name : String)
    (layer : Layer) (h : root0 ≠ root) :
    leafAt (Assoc.put cv root0 layer) [root, kind, name] = leafAt cv [root, kind, name] := by
  simp [leafAt, Assoc.find_of_put, h]

theorem leafAt_put_three (cv : List (String × Layer)) (root0 kind0 name0 kind name : String)
    (v : Value) :
    leafAt (Assoc.put cv root0
        (Layer.inner (Assoc.put (Layer.innerOf (Assoc.find cv root0)) kind0
          (Layer.values (Assoc.put
            (Layer.valuesOf (Assoc.find (Layer.innerOf (Assoc.find cv root0)) kind0))
            name0 v)))))
      [root0, kind, name] =
      if kind0 = kind ∧ name0 = name then some v else leafAt cv [root0, kind, name] := by
  simp only [leafAt, Assoc.find_of_put, if_true, Layer.innerOf]
  by_cases hk : kind0 = kind
  · subst hk
    simp only [if_true, Layer.valuesOf, Assoc.find_of_put, true_and]
  · simp [hk]

theorem find_entriesToCty (m : List (String × Layer)) (key : String) :
    Assoc.find (Layer.entriesToCty m) key = (Assoc.find m key).map Layer.toCty := by
  induction m with
  | nil => simp [Layer.entriesToCty, Assoc.find]
  | cons p m ih =>
    obtain ⟨k, l⟩ := p
    by_cases h : k = key <;> simp [Layer.entriesToCty, Assoc.find, h, ih]

theorem find_foldl_toCty (l : List (String × Layer)) :
    ∀ (vars0 : List (String × Value)), (Assoc.keys l).Nodup → ∀ key,
      Assoc.find (l.foldl (fun vars entry => Assoc.put vars entry.1 (Layer.toCty entry.2))
        vars0) key =
        match Assoc.find l key with
        | some layer => some (Layer.toCty layer)
        | none => Assoc.find vars0 key := by
  induction l with
  | nil => intro vars0 _ key; simp [Assoc.find]
  | cons p l ih =>
    intro vars0 h key
    obtain ⟨k0, l0⟩ := p
    have h1 : k0 ∉ Assoc.keys l ∧ (Assoc.keys l).Nodup := by
      simpa [Assoc.keys] using h
    rw [List.foldl_cons, ih _ h1.2 key, Assoc.find_of_put]
    by_cases h0 : k0 = key
    · subst h0
      have h2 : Assoc.find l k0 = none := (Assoc.find_eq_none_iff l k0).2 h1.1
      simp [Assoc.find, h2]
    · simp [Assoc.find, h0]

end Gragent

namespace Gragent

theorem Shaped.inner_entries {cv : List (String × Layer)} (hs : Shaped cv) (kind : String)
    (l : Layer) (h : Assoc.find (Layer.innerOf (Assoc.find cv "discovery")) kind = some l) :
    ∃ vm, l = Layer.values vm := by
  cases hf : Assoc.find cv "discovery" with
  | none =>
    rw [hf] at h
    simp [Layer.innerOf, Assoc.find] at h
  | some layer =>
    obtain ⟨m, hm, hall⟩ := hs.discovery layer hf
    rw [hf, hm] at h
    exact hall kind l h

theorem fillInner_valid_two (cv : List (String × Layer)) (hs : Shaped cv) (root0 name0 : String)
    (hroot : root0 = "scrape" ∨ root0 = "remote_write") (v : Value) :
    ∃ cv1, fillInner cv [root0, name0] v = Except.ok cv1 ∧ Shaped cv1 ∧
      (∀ r, reference.Valid r → leafAt cv1 r = if [root0, name0] = r then some v
        else leafAt cv r) ∧
      (∀ name, Assoc.find cv1 name ≠ none → (Assoc.find cv name ≠ none ∨ name = root0)) ∧
      (∀ kind, Assoc.find (Layer.innerOf (Assoc.find cv1 "discovery")) kind ≠ none →
        Assoc.find (Layer.innerOf (Assoc.find cv "discovery")) kind ≠ none) := by
  have hnd : root0 ≠ "discovery" := by
    rcases hroot with h | h <;> rw [h] <;> decide
  refine ⟨_, fillInner_two cv root0 name0 v, ?_, ?_, ?_, ?_⟩
  · refine ⟨?_, ?_, ?_, Assoc.nodup_keys_put _ _ _ hs.keys⟩
    · intro layer hl
      rw [Assoc.find_of_put] at hl
      split at hl
      · exact ⟨_, (Option.some.inj hl).symm⟩
      · exact hs.scrape layer hl
    · intro layer hl
      rw [Assoc.find_of_put] at hl
      split at hl
      · exact ⟨_, (Option.some.inj hl).symm⟩
      · exact hs.remote layer hl
    · intro layer hl
      rw [Assoc.find_of_put, if_neg hnd] at hl
      exact hs.discovery layer hl
  · intro r hr
    rcases hr with ⟨kind, name, rfl⟩ | ⟨name, rfl⟩ | ⟨name, rfl⟩
    · rw [leafAt_put_other_three _ _ _ _ _ _ hnd]
      simp
    · rw [leafAt_put_two]
      simp
    · rw [leafAt_put_two]
      simp
  · intro name hn
    rw [Assoc.find_of_put] at hn
    split at hn
    · rename_i h
      exact Or.inr h.symm
    · exact Or.inl hn
  · intro kind hk
    rw [Assoc.find_of_put, if_neg hnd] at hk
    exact hk

theorem fillInner_valid_three (cv : List (String × Layer)) (hs : Shaped cv)
    (kind0 name0 : String) (v : Value) :
    ∃ cv1, fillInner cv ["discovery", kind0, name0] v = Except.ok cv1 ∧ Shaped cv1 ∧
      (∀ r, reference.Valid r → leafAt cv1 r = if ["discovery", kind0, name0] = r then some v
        else leafAt cv r) ∧
      (∀ name, Assoc.find cv1 name ≠ none →
        (Assoc.find cv name ≠ none ∨ name = "discovery")) ∧
      (∀ kind, Assoc.find (Layer.innerOf (Assoc.find cv1 "discovery")) kind ≠ none →
        (Assoc.find (Layer.innerOf (Assoc.find cv "discovery")) kind ≠ none ∨
          kind = kind0)) := by
  refine ⟨_, fillInner_three cv "discovery" kind0 name0 v, ?_, ?_, ?_, ?_⟩
  · refine ⟨?_, ?_, ?_, Assoc.nodup_keys_put _ _ _ hs.keys⟩
    · intro layer hl
      rw [Assoc.find_of_put, if_neg (by decide)] at hl
      exact hs.scrape layer hl
    · intro layer hl
      rw [Assoc.find_of_put, if_neg (by decide)] at hl
      exact hs.remote layer hl
    · intro layer hl
      rw [Assoc.find_of_put, if_pos rfl] at hl
      refine ⟨_, (Option.some.inj hl).symm, ?_⟩
      intro kind l hkl
      rw [Assoc.find_of_put] at hkl
      split at hkl
      · exact ⟨_, (Option.some.inj hkl).symm⟩
      · exact hs.inner_entries kind l hkl
  · intro r hr
    rcases hr with ⟨kind, name, rfl⟩ | ⟨name, rfl⟩ | ⟨name, rfl⟩
    · rw [leafAt_put_three]
      simp
    · rw [leafAt_put_other_two _ _ _ _ _ (by decide)]
      simp
    · rw [leafAt_put_other_two _ _ _ _ _ (by decide)]
      simp
  · intro name hn
    rw [Assoc.find_of_put] at hn
    split at hn
    · rename_i h
      exact Or.inr h.symm
    · exact Or.inl hn
  · intro kind hk
    rw [Assoc.find_of_put, if_pos rfl] at hk
    simp only [Layer.innerOf] at hk
    rw [Assoc.find_of_put] at hk
    split at hk
    · rename_i h
      exact Or.inr h.symm
    · exact Or.inl hk

theorem lastValue_cons_ne_none (val : referenceValue) (rest : List referenceValue) :
    lastValue (val :: rest) val.Key ≠ none := by
  simp only [lastValue]
  cases lastValue rest val.Key <;> simp

theorem lastValue_cons_of_ne_none (val : referenceValue) (rest : List referenceValue)
    (r : reference) (h : lastValue rest r ≠ none) : lastValue (val :: rest) r ≠ none := by
  simp only [lastValue]
  cases hl : lastValue rest r with
  | none => exact absurd hl h
  | some v => simp

theorem lastValue_mem (vals : List referenceValue) (r : reference)
    (h : lastValue vals r ≠ none) : ∃ val, val ∈ vals ∧ val.Key = r := by
  induction vals with
  | nil => simp [lastValue] at h
  | cons val rest ih =>
    by_cases hr : lastValue rest r = none
    · simp only [lastValue, hr] at h
      by_cases hk : val.Key = r
      · exact ⟨val, List.mem_cons_self _ _, hk⟩
      · simp [hk] at h
    · obtain ⟨x, hx, hxk⟩ := ih hr
      exact ⟨x, List.mem_cons_of_mem _ hx, hxk⟩

/-- The loop of `FillEvalContext` over records whose keys follow the schema: it does not
panic, and `componentValues` holds under every reference the value of its last record. -/
theorem fillAll_valid (vals : List referenceValue) :
    ∀ (cv : List (String × Layer)), Shaped cv → (∀ val, val ∈ vals → reference.Valid val.Key) →
      ∃ cv1, fillAll cv vals = Except.ok cv1 ∧ Shaped cv1 ∧
        (∀ r, reference.Valid r → leafAt cv1 r =
          match lastValue vals r with
          | some v => some v
          | none => leafAt cv r) ∧
        (∀ name, Assoc.find cv1 name ≠ none →
          (Assoc.find cv name ≠ none ∨ ∃ val, val ∈ vals ∧ val.Key.head? = some name)) ∧
        (∀ kind, Assoc.find (Layer.innerOf (Assoc.find cv1 "discovery")) kind ≠ none →
          (Assoc.find (Layer.innerOf (Assoc.find cv "discovery")) kind ≠ none ∨
            ∃ name, lastValue vals ["discovery", kind, name] ≠ none)) := by
  induction vals with
  | nil =>
    intro cv hs _
    exact ⟨cv, rfl, hs, fun r _ => rfl, fun name h => Or.inl h, fun kind h => Or.inl h⟩
  | cons val rest ih =>
    intro cv hs hvalid
    have hstep : ∃ cv1, fillInner cv val.Key val.Value = Except.ok cv1 ∧ Shaped cv1 ∧
        (∀ r, reference.Valid r → leafAt cv1 r = if val.Key = r then some val.Value
          else leafAt cv r) ∧
        (∀ name, Assoc.find cv1 name ≠ none →
          (Assoc.find cv name ≠ none ∨ val.Key.head? = some name)) ∧
        (∀ kind, Assoc.find (Layer.innerOf (Assoc.find cv1 "discovery")) kind ≠ none →
          (Assoc.find (Layer.innerOf (Assoc.find cv "discovery")) kind ≠ none ∨
            ∃ name, val.Key = ["discovery", kind, name])) := by
      rcases hvalid val (List.mem_cons_self _ _) with ⟨kind, name, hk⟩ | ⟨name, hk⟩ | ⟨name, hk⟩
      · rw [hk]
        obtain ⟨cv1, h1, h2, h3, h4, h5⟩ := fillInner_valid_three cv hs kind name val.Value
        refine ⟨cv1, h1, h2, h3, ?_, ?_⟩
        · intro n hn
          rcases h4 n hn with h | h
          · exact Or.inl h
          · exact Or.inr (by simp [h])
        · intro k hk1
          rcases h5 k hk1 with h | h
          · exact Or.inl h
          · exact Or.inr ⟨name, by rw [h]⟩
      · rw [hk]
        obtain ⟨cv1, h1, h2, h3, h4, h5⟩ :=
          fillInner_valid_two cv hs "scrape" name (Or.inl rfl) val.Value
        refine ⟨cv1, h1, h2, h3, ?_, fun k hk1 => Or.inl (h5 k hk1)⟩
        intro n hn
        rcases h4 n hn with h | h
        · exact Or.inl h
        · exact Or.inr (by simp [h])
      · rw [hk]
        obtain ⟨cv1, h1, h2, h3, h4, h5⟩ :=
          fillInner_valid_two cv hs "remote_write" name (Or.inr rfl) val.Value
        refine ⟨cv1, h1, h2, h3, ?_, fun k hk1 => Or.inl (h5 k hk1)⟩
        intro n hn
        rcases h4 n hn with h | h
        · exact Or.inl h
        · exact Or.inr (by simp [h])
    obtain ⟨cv1, h1, hs1, hleaf1, hname1, hkind1⟩ := hstep
    obtain ⟨cv2, h2, hs2, hleaf2, hname2, hkind2⟩ := ih cv1 hs1
      (fun x hx => hvalid x (List.mem_cons_of_mem _ hx))
    refine ⟨cv2, by simp only [fillAll, h1, h2], hs2, ?_, ?_, ?_⟩
    · intro r hr
      rw [hleaf2 r hr, hleaf1 r hr]
      simp only [lastValue]
      cases lastValue rest r with
      | some v => rfl
      | none =>
        by_cases hk : val.Key = r <;> simp [hk]
    · intro name hn
      rcases hname2 name hn with h | ⟨x, hx, hxk⟩
      · rcases hname1 name h with h3 | h3
        · exact Or.inl h3
        · exact Or.inr ⟨val, List.mem_cons_self _ _, h3⟩
      · exact Or.inr ⟨x, List.mem_cons_of_mem _ hx, hxk⟩
    · intro kind hk
      rcases hkind2 kind hk with h | ⟨name, hn⟩
      · rcases hkind1 kind h with h3 | ⟨name, h3⟩
        · exact Or.inl h3
        · exact Or.inr ⟨name, h3 ▸ lastValue_cons_ne_none val rest⟩
      · exact Or.inr ⟨name, lastValue_cons_of_ne_none val rest _ hn⟩

end Gragent

namespace Gragent

theorem shaped_nil : Shaped [] where
  scrape := fun layer h => by simp [Assoc.find] at h
  remote := fun layer h => by simp [Assoc.find] at h
  discovery := fun layer h => by simp [Assoc.find] at h
  keys := by simp [Assoc.keys]

theorem follow_object_one (vm : List (String × Value)) (name : String) :
    Value.follow (Value.object vm) [name] = Assoc.find vm name := by
  simp only [Value.follow, Value.attr]
  cases Assoc.find vm name <;> rfl

theorem lookupPath_eq_leafAt (cv : List (String × Layer)) (hs : Shaped cv)
    (vars : List (String × Value))
    (hvars : ∀ name, Assoc.find vars name = (Assoc.find cv name).map Layer.toCty)
    (r : reference) (hr : r.Valid) : lookupPath vars r = leafAt cv r := by
  have two : ∀ root name, (∀ layer, Assoc.find cv root = some layer →
      ∃ vm, layer = Layer.values vm) → lookupPath vars [root, name] = leafAt cv [root, name] := by
    intro root name hshape
    simp only [lookupPath, leafAt, hvars]
    cases hf : Assoc.find cv root with
    | none => simp [Layer.valuesOf, Assoc.find]
    | some layer =>
      obtain ⟨vm, rfl⟩ := hshape layer hf
      simp only [Option.map_some', Layer.toCty, Layer.valuesOf]
      exact follow_object_one vm name
  rcases hr with ⟨kind, name, rfl⟩ | ⟨name, rfl⟩ | ⟨name, rfl⟩
  · simp only [lookupPath, leafAt, hvars]
    cases hf : Assoc.find cv "discovery" with
    | none => simp [Layer.valuesOf, Layer.innerOf, Assoc.find]
    | some layer =>
      obtain ⟨m, rfl, hall⟩ := hs.discovery layer hf
      simp only [Option.map_some', Layer.toCty, Layer.innerOf, Value.follow, Value.attr,
        find_entriesToCty]
      cases hk : Assoc.find m kind with
      | none => simp [Layer.valuesOf, Assoc.find]
      | some l =>
        obtain ⟨vm, rfl⟩ := hall kind l hk
        simp only [Option.map_some', Layer.toCty, Layer.valuesOf, Value.attr]
        cases Assoc.find vm name <;> rfl
  · exact two "scrape" name hs.scrape
  · exact two "remote_write" name hs.remote

theorem lastValue_ne_none_of_mem (vals : List referenceValue) (val : referenceValue)
    (h : val ∈ vals) : lastValue vals val.Key ≠ none := by
  induction vals with
  | nil => simp at h
  | cons x rest ih =>
    rcases List.mem_cons.1 h with h1 | h1
    · rw [h1]
      exact lastValue_cons_ne_none x rest
    · exact lastValue_cons_of_ne_none x rest _ (ih h1)

theorem leafAt_none_of_find_none (cv : List (String × Layer)) (r : reference) (name : String)
    (hr : r.head? = some name) (h : Assoc.find cv name = none) : leafAt cv r = none := by
  match r, hr with
  | [], hr => simp at hr
  | [a], _ => rfl
  | [a, b], hr =>
    simp only [List.head?_cons, Option.some.injEq] at hr
    simp [leafAt, hr, h, Layer.valuesOf, Assoc.find]
  | [a, b, c], hr =>
    simp only [List.head?_cons, Option.some.injEq] at hr
    simp [leafAt, hr, h, Layer.valuesOf, Layer.innerOf, Assoc.find]
  | a :: b :: c :: d :: rest, _ => rfl

/-- C17: for every ordered list of records whose references follow the schema, and every
context whose variables are first segments of recorded references (the empty context, or
the one an earlier call left), `FillEvalContext` returns, and in the variables it leaves
(i) following any reference of the schema through nested object fields reaches the value of
the last record with that key, and nothing when there is no such record, (ii) every variable
is the first segment of a recorded reference, and (iii) every field of `discovery` is the
kind of a recorded reference. -/
theorem fillEvalContext_tree (ord : List (String × Layer) → List (String × Layer))
    (hord : ∀ l, (ord l).Perm l) (vals : List referenceValue)
    (hvalid : ∀ val, val ∈ vals → reference.Valid val.Key)
    (vars0 : List (String × Value))
    (hvars0 : ∀ name, Assoc.find vars0 name ≠ none →
      ∃ val, val ∈ vals ∧ val.Key.head? = some name) :
    ∃ vars, FillEvalContext ord vals vars0 = Except.ok vars ∧
      (∀ r, reference.Valid r → lookupPath vars r = lastValue vals r) ∧
      (∀ name, Assoc.find vars name ≠ none →
        ∃ val, val ∈ vals ∧ val.Key.head? = some name) ∧
      (∀ kind, lookupPath vars ["discovery", kind] ≠ none →
        ∃ name, lastValue vals ["discovery", kind, name] ≠ none) := by
  obtain ⟨cv1, hfill, hs1, hleaf, hname, hkind⟩ := fillAll_valid vals [] shaped_nil hvalid
  have hp := hord cv1
  have hnd : (Assoc.keys (ord cv1)).Nodup := (hp.map _).nodup_iff.2 hs1.keys
  have hold : ∀ name, Assoc.find cv1 name = none → Assoc.find vars0 name = none := by
    intro name hn
    by_contra hc
    obtain ⟨val, hval, hhead⟩ := hvars0 name hc
    have h1 := hleaf val.Key (hvalid val hval)
    rw [leafAt_none_of_find_none cv1 val.Key name hhead hn] at h1
    have h2 := lastValue_ne_none_of_mem vals val hval
    cases hl : lastValue vals val.Key with
    | none => exact h2 hl
    | some v =>
      rw [hl] at h1
      simp at h1
  have hvars : ∀ name,
      Assoc.find ((ord cv1).foldl
        (fun vars entry => Assoc.put vars entry.1 (Layer.toCty entry.2)) vars0) name =
        (Assoc.find cv1 name).map Layer.toCty := by
    intro name
    rw [find_foldl_toCty _ _ hnd, Assoc.find_perm _ _ hp hs1.keys]
    cases hf : Assoc.find cv1 name with
    | none => simpa using hold name hf
    | some l => rfl
  refine ⟨(ord cv1).foldl
      (fun vars entry => Assoc.put vars entry.1 (Layer.toCty entry.2)) vars0,
    by simp only [FillEvalContext, hfill], ?_, ?_, ?_⟩
  · intro r hr
    rw [lookupPath_eq_leafAt cv1 hs1 _ hvars r hr, hleaf r hr]
    have h0 : leafAt [] r = none := by
      rcases hr with ⟨kind, name, rfl⟩ | ⟨name, rfl⟩ | ⟨name, rfl⟩ <;>
        simp [leafAt, Assoc.find, Layer.valuesOf, Layer.innerOf]
    rw [h0]
    cases lastValue vals r <;> rfl
  · intro name hn
    rw [hvars] at hn
    have h1 : Assoc.find cv1 name ≠ none := by
      intro hc
      rw [hc] at hn
      exact hn rfl
    rcases hname name h1 with h2 | h2
    · simp [Assoc.find] at h2
    · exact h2
  · intro kind hk
    simp only [lookupPath, hvars] at hk
    cases hf : Assoc.find cv1 "discovery" with
    | none =>
      rw [hf] at hk
      simp at hk
    | some layer =>
      obtain ⟨m, rfl, _⟩ := hs1.discovery layer hf
      rw [hf] at hk
      simp only [Option.map_some', Layer.toCty, Value.follow, Value.attr,
        find_entriesToCty] at hk
      have h1 : Assoc.find (Layer.innerOf (Assoc.find cv1 "discovery")) kind ≠ none := by
        rw [hf]
        simp only [Layer.innerOf]
        intro hc
        rw [hc] at hk
        simp at hk
      rcases hkind kind h1 with h2 | h2
      · simp [Layer.innerOf, Assoc.find] at h2
      · exact h2

theorem fillEvalContext_tree_witness :
    (∀ l, (layersInOrder l).Perm l) ∧
    (∀ val, val ∈ sampleRecords → reference.Valid val.Key) ∧
    (∀ name, Assoc.find ([] : List (String × Value)) name ≠ none →
      ∃ val, val ∈ sampleRecords ∧ val.Key.head? = some name) ∧
    ∃ vars, FillEvalContext layersInOrder sampleRecords [] = Except.ok vars ∧
      (∀ r, reference.Valid r → lookupPath vars r = lastValue sampleRecords r) ∧
      (∀ name, Assoc.find vars name ≠ none →
        ∃ val, val ∈ sampleRecords ∧ val.Key.head? = some name) ∧
      (∀ kind, lookupPath vars ["discovery", kind] ≠ none →
        ∃ name, lastValue sampleRecords ["discovery", kind, name] ≠ none) :=
  ⟨fun l => List.Perm.refl l,
    fun val hv => by
      simp only [sampleRecords, List.mem_cons, List.mem_singleton, List.not_mem_nil,
        or_false] at hv
      rcases hv with rfl | rfl
      · exact Or.inl ⟨"static", "localhost", rfl⟩
      · exact Or.inr (Or.inl ⟨"foo", rfl⟩),
    fun name hn => absurd rfl hn,
    fillEvalContext_tree layersInOrder (fun l => List.Perm.refl l) sampleRecords
      (fun val hv => by
        simp only [sampleRecords, List.mem_cons, List.mem_singleton, List.not_mem_nil,
          or_false] at hv
        rcases hv with rfl | rfl
        · exact Or.inl ⟨"static", "localhost", rfl⟩
        · exact Or.inr (Or.inl ⟨"foo", rfl⟩))
      [] (fun name hn => absurd rfl hn)⟩

/-- C18, the claim as stated fails: on the records `discovery.static.localhost = V1` and
then `discovery.static = V2`, one key a strict beginning of the other, `FillEvalContext`
does not fail: it returns the variables `discovery = {static = V2}`. -/
theorem fillEvalContext_conflict_counterexample :
    FillEvalContext layersInOrder conflictingRecords [] =
      Except.ok [("discovery", Value.object [("static", Value.string "V2")])] ∧
    Except.succeeds (FillEvalContext layersInOrder conflictingRecords []) := by
  have h : FillEvalContext layersInOrder conflictingRecords [] =
      Except.ok [("discovery", Value.object [("static", Value.string "V2")])] := by
    simp [FillEvalContext, conflictingRecords, fillAll, fillInner, Assoc.find, Assoc.put,
      Layer.valuesOf, Layer.innerOf, layersInOrder, Layer.toCty]
  exact ⟨h, by rw [h]; trivial⟩

/-- C18 (amended): when one reference is a strict beginning of another, `FillEvalContext`
does not fail; the record pushed later replaces the layer the earlier one built: `a.b.c`
then `a.b` leaves `a = {b = V2}`, `a.b` then `a.b.c` leaves `a = {b = {c = V1}}`; and no list
of records whose keys have two or more segments makes it fail. -/
theorem fillEvalContext_prefix (ord : List (String × Layer) → List (String × Layer))
    (hord : ∀ l, (ord l).Perm l) (a b c : String) (v1 v2 : Value) :
    FillEvalContext ord [⟨[a, b, c], v1⟩, ⟨[a, b], v2⟩] [] =
      Except.ok [(a, Value.object [(b, v2)])] ∧
    FillEvalContext ord [⟨[a, b], v2⟩, ⟨[a, b, c], v1⟩] [] =
      Except.ok [(a, Value.object [(b, Value.object [(c, v1)])])] ∧
    (∀ (vals : List referenceValue) (vars0 : List (String × Value)),
      (∀ val, val ∈ vals → 2 ≤ val.Key.length) →
      ∃ vars, FillEvalContext ord vals vars0 = Except.ok vars) := by
  have hsingle : ∀ (x : String × Layer), ord [x] = [x] :=
    fun x => List.perm_singleton.1 (hord [x])
  refine ⟨?_, ?_, ?_⟩
  · have h1 : fillAll [] [⟨[a, b, c], v1⟩, ⟨[a, b], v2⟩] =
        Except.ok [(a, Layer.values [(b, v2)])] := by
      simp [fillAll, fillInner, Assoc.find, Assoc.put, Layer.valuesOf, Layer.innerOf]
    simp [FillEvalContext, h1, hsingle, Assoc.put, Layer.toCty]
  · have h1 : fillAll [] [⟨[a, b], v2⟩, ⟨[a, b, c], v1⟩] =
        Except.ok [(a, Layer.inner [(b, Layer.values [(c, v1)])])] := by
      simp [fillAll, fillInner, Assoc.find, Assoc.put, Layer.valuesOf, Layer.innerOf]
    simp [FillEvalContext, h1, hsingle, Assoc.put, Layer.toCty, Layer.entriesToCty]
  · intro vals vars0 hlen
    obtain ⟨filled, hf⟩ := fillAll_total vals []
      (fun val hv hc => by have := hlen val hv; omega)
    exact ⟨(ord filled).foldl
      (fun vars entry => Assoc.put vars entry.1 (Layer.toCty entry.2)) vars0,
      by simp only [FillEvalContext, hf]⟩

theorem fillEvalContext_prefix_witness :
    (∀ l, (layersInOrder l).Perm l) ∧
    FillEvalContext layersInOrder
        [⟨["discovery", "static", "localhost"], Value.string "V1"⟩,
         ⟨["discovery", "static"], Value.string "V2"⟩] [] =
      Except.ok [("discovery", Value.object [("static", Value.string "V2")])] ∧
    FillEvalContext layersInOrder
        [⟨["discovery", "static"], Value.string "V2"⟩,
         ⟨["discovery", "static", "localhost"], Value.string "V1"⟩] [] =
      Except.ok [("discovery",
        Value.object [("static", Value.object [("localhost", Value.string "V1")])])] ∧
    (∀ (vals : List referenceValue) (vars0 : List (String × Value)),
      (∀ val, val ∈ vals → 2 ≤ val.Key.length) →
      ∃ vars, FillEvalContext layersInOrder vals vars0 = Except.ok vars) :=
  ⟨fun l => List.Perm.refl l,
    fillEvalContext_prefix layersInOrder (fun l => List.Perm.refl l)
      "discovery" "static" "localhost" (Value.string "V1") (Value.string "V2")⟩

end Gragent

namespace Gragent

/-! ## Distinct identities have distinct registry keys -/

theorem parseReference_valid_plain (quote : String → String) (t : Traversal) (ht : t.Plain)
    (ref : reference) (h : (parseReference quote t).1 = some ref) :
    ref.Valid ∧ ∀ seg, seg ∈ ref → '.' ∉ seg.data := by
  unfold parseReference at h
  unfold Traversal.Plain at ht
  by_cases h1 : t.rootName = "discovery"
  · simp only [h1, if_true] at h
    match hrel : t.rel, h with
    | [], h => simp [parseDiscoveryRef] at h
    | [_], h => simp [parseDiscoveryRef] at h
    | .attr k r0 :: .attr n r1 :: rest, h =>
      simp only [parseDiscoveryRef, Option.some.injEq] at h
      subst h
      refine ⟨Or.inl ⟨k, n, rfl⟩, ?_⟩
      intro seg hseg
      simp only [List.mem_cons, List.mem_singleton, List.not_mem_nil, or_false] at hseg
      rcases hseg with rfl | rfl | rfl
      · decide
      · exact ht seg r0 (by rw [hrel]; simp)
      · exact ht seg r1 (by rw [hrel]; simp)
    | .attr k r0 :: .index n r1 :: rest, h => simp [parseDiscoveryRef] at h
    | .attr k r0 :: .splat r1 :: rest, h => simp [parseDiscoveryRef] at h
    | .index k r0 :: t1 :: rest, h => simp [parseDiscoveryRef] at h
    | .splat r0 :: t1 :: rest, h => simp [parseDiscoveryRef] at h
  · by_cases h2 : t.rootName = "scrape"
    · simp only [h2, if_true, show ¬ ("scrape" = "discovery") by decide, if_false] at h
      match hrel : t.rel, h with
      | [], h => simp [parseScrapeRef] at h
      | .attr n r0 :: rest, h =>
        simp only [parseScrapeRef, Option.some.injEq] at h
        subst h
        refine ⟨Or.inr (Or.inl ⟨n, rfl⟩), ?_⟩
        intro seg hseg
        simp only [List.mem_cons, List.mem_singleton, List.not_mem_nil, or_false] at hseg
        rcases hseg with rfl | rfl
        · decide
        · exact ht seg r0 (by rw [hrel]; simp)
      | .index k r0 :: rest, h => simp [parseScrapeRef] at h
      | .splat r0 :: rest, h => simp [parseScrapeRef] at h
    · by_cases h3 : t.rootName = "remote_write"
      · simp only [h3, if_true, show ¬ ("remote_write" = "discovery") by decide,
          show ¬ ("remote_write" = "scrape") by decide, if_false] at h
        match hrel : t.rel, h with
        | [], h => simp [parseRemoteWriteRef] at h
        | .attr n r0 :: rest, h =>
          simp only [parseRemoteWriteRef, Option.some.injEq] at h
          subst h
          refine ⟨Or.inr (Or.inr ⟨n, rfl⟩), ?_⟩
          intro seg hseg
          simp only [List.mem_cons, List.mem_singleton, List.not_mem_nil, or_false] at hseg
          rcases hseg with rfl | rfl
          · decide
          · exact ht seg r0 (by rw [hrel]; simp)
        | .index k r0 :: rest, h => simp [parseRemoteWriteRef] at h
        | .splat r0 :: rest, h => simp [parseRemoteWriteRef] at h
      · simp [h1, h2, h3] at h

theorem append_eq_pair {α : Type} (A B : List α) (k n : α) (hA : A ≠ []) (hB : B ≠ [])
    (h : A ++ B = [k, n]) : A = [k] ∧ B = [n] := by
  match A, B, hA, hB, h with
  | [a], [b], _, _, h =>
    simp only [List.singleton_append, List.cons.injEq, and_true] at h
    exact ⟨by rw [h.1], by rw [h.2]⟩
  | [a], b :: c :: rest, _, _, h => simp at h
  | a :: c :: rest, b :: rest2, _, _, h => simp at h

theorem string_eq_of_splitDots (K k : String) (h : splitDots K.data = [k.data]) : K = k :=
  String.ext (eq_of_splitDots_singleton K.data k.data h)

/-- A reference of the schema and a reference without `.` in its segments that have the
same dotted text are the same reference. -/
theorem reference_eq_of_String_eq (d ref : reference) (hd : d.Valid) (hr : ref.Valid)
    (hplain : ∀ seg, seg ∈ ref → '.' ∉ seg.data)
    (h : reference.String d = reference.String ref) : d = ref := by
  have hne : ref ≠ [] := by
    rcases hr with ⟨_, _, rfl⟩ | ⟨_, rfl⟩ | ⟨_, rfl⟩ <;> simp
  obtain ⟨a, r, rfl⟩ := List.exists_cons_of_ne_nil hne
  have hr2 := splitDots_String_of_no_dot a r hplain
  have hd2 : splitDots (reference.String d).data =
      (d.map (fun seg => splitDots seg.data)).flatten := by
    rcases hd with ⟨_, _, rfl⟩ | ⟨_, rfl⟩ | ⟨_, rfl⟩ <;> exact splitDots_reference_String _ _
  rw [h, hr2] at hd2
  have sD : splitDots "discovery".data = ["discovery".data] := by decide
  have sS : splitDots "scrape".data = ["scrape".data] := by decide
  have sR : splitDots "remote_write".data = ["remote_write".data] := by decide
  rcases hd with ⟨K, N, rfl⟩ | ⟨N, rfl⟩ | ⟨N, rfl⟩ <;>
    rcases hr with ⟨k, n, hrk⟩ | ⟨n, hrk⟩ | ⟨n, hrk⟩ <;>
    simp only [List.cons.injEq] at hrk <;>
    obtain ⟨rfl, rfl⟩ := hrk <;>
    simp only [List.map_cons, List.map_nil, List.flatten_cons, List.flatten_nil,
      List.append_nil, sD, sS, sR, List.singleton_append, List.cons.injEq, true_and] at hd2
  · obtain ⟨h1, h2⟩ := append_eq_pair _ _ _ _ (splitDots_ne_nil _) (splitDots_ne_nil _) hd2.symm
    rw [string_eq_of_splitDots K k h1, string_eq_of_splitDots N n h2]
  · simp at hd2
  · simp at hd2
  · simp at hd2
  · rw [string_eq_of_splitDots N n hd2.symm]
  · simp at hd2
  · simp at hd2
  · simp at hd2
  · rw [string_eq_of_splitDots N n hd2.symm]

end Gragent

namespace Dag

theorem Graph.edge_AddEdge (g : Graph) (e : Edge) (h1 : e.From ∈ g.nodes)
    (h2 : e.To ∈ g.nodes) (x y : Node) :
    (g.AddEdge e).1.edge x y ↔ g.edge x y ∨ (x = e.From ∧ y = e.To) := by
  unfold Graph.edge
  rw [Graph.out_AddEdge g e h1 h2]
  by_cases hx : e.From = x
  · rw [if_pos hx, nodeSet.mem_Add]
    constructor
    · rintro (h | h)
      · exact Or.inl h
      · exact Or.inr ⟨hx.symm, h⟩
    · rintro (h | ⟨_, h⟩)
      · exact Or.inl h
      · exact Or.inr h
  · rw [if_neg hx]
    constructor
    · exact Or.inl
    · rintro (h | ⟨h, _⟩)
      · exact h
      · exact absurd h.symm hx

end Dag

namespace Gragent

open Dag

/-! ## The edges of the wired graph, exactly -/

theorem declare_edges (st : LoadState) (h : LoadInv st) (d : Declaration) (st1 : LoadState)
    (hd : declare st d = Outcome.done st1) (x y : Node) :
    st1.world.g.edge x y ↔ st.world.g.edge x y ∨ (x = rootNode ∧ y = st.next) := by
  have hroot : rootNode ∈ (st.world.g.Add st.next).nodes := by
    simp only [Graph.Add]
    exact (nodeSet.mem_Add _ _ _).2 (Or.inl ((h.nodes rootNode).2 h.next_pos))
  have hc : st.next ∈ (st.world.g.Add st.next).nodes := by
    simp only [Graph.Add]
    exact (nodeSet.mem_Add _ _ _).2 (Or.inr rfl)
  have hok := Graph.AddEdge_ok_graph (st.world.g.Add st.next) ⟨rootNode, st.next⟩ hroot hc
  have hedge := Graph.edge_AddEdge (st.world.g.Add st.next) ⟨rootNode, st.next⟩ hroot hc x y
  simp only [declare, hok, Outcome.done.injEq] at hd
  subst hd
  rw [hok] at hedge
  exact hedge

theorem declareAll_edges (ds : List Declaration) :
    ∀ (st : LoadState), LoadInv st → ∀ st1, declareAll st ds = Outcome.done st1 →
      ∀ x y, st1.world.g.edge x y ↔
        st.world.g.edge x y ∨ (x = rootNode ∧ st.next ≤ y ∧ y < st.next + ds.length) := by
  induction ds with
  | nil =>
    intro st _ st1 hd x y
    simp only [declareAll, Outcome.done.injEq] at hd
    subst hd
    simp
  | cons d0 rest ih =>
    intro st h st2 hd2 x y
    obtain ⟨st1, hd, hinv1, hnext1, _, _, _⟩ := declare_spec st h d0
    simp only [declareAll, hd] at hd2
    rw [ih st1 hinv1 st2 hd2 x y, declare_edges st h d0 st1 hd x y, hnext1, List.length_cons]
    constructor
    · rintro ((h1 | ⟨h1, h2⟩) | ⟨h1, h2, h3⟩)
      · exact Or.inl h1
      · refine Or.inr ⟨h1, Nat.le_of_eq h2.symm, ?_⟩
        simp only [Node] at *
        omega
      · refine Or.inr ⟨h1, ?_, ?_⟩ <;> simp only [Node] at * <;> omega
    · rintro (h1 | ⟨h1, h2, h3⟩)
      · exact Or.inl (Or.inl h1)
      · by_cases hy : y = st.next
        · exact Or.inl (Or.inr ⟨h1, hy⟩)
        · refine Or.inr ⟨h1, ?_, ?_⟩ <;> simp only [Node] at * <;> omega

theorem declareAll_keys (ds : List Declaration) :
    ∀ (st : LoadState), LoadInv st → ∀ st1, declareAll st ds = Outcome.done st1 →
      ∀ k body, (k, body) ∈ st1.bodyLookup → (k, body) ∈ st.bodyLookup ∨ st.next ≤ k := by
  induction ds with
  | nil =>
    intro st _ st1 hd k body hk
    simp only [declareAll, Outcome.done.injEq] at hd
    subst hd
    exact Or.inl hk
  | cons d0 rest ih =>
    intro st h st2 hd2 k body hk
    obtain ⟨st1, hd, hinv1, hnext1, _, hbl1, _⟩ := declare_spec st h d0
    simp only [declareAll, hd] at hd2
    rcases ih st1 hinv1 st2 hd2 k body hk with h1 | h1
    · rw [hbl1] at h1
      rcases List.mem_append.1 h1 with h2 | h2
      · exact Or.inl h2
      · simp only [List.mem_singleton, Prod.mk.injEq] at h2
        exact Or.inr (Nat.le_of_eq h2.1.symm)
    · rw [hnext1] at h1
      exact Or.inr (Nat.le_of_succ_le h1)

theorem wireBody_edges (quote : String → String) (idNodeMap : String → Option Node)
    (origin : Node) (ts : List Traversal) :
    ∀ (g g1 : Graph), wireBody quote idNodeMap origin g ts = Outcome.done g1 →
      origin ∈ g.nodes → (∀ key c, idNodeMap key = some c → c ∈ g.nodes) →
      ∀ x y, g1.edge x y → g.edge x y ∨ (x = origin ∧ ∃ t, t ∈ ts ∧ ∃ ref,
        (parseReference quote t).1 = some ref ∧ idNodeMap (reference.String ref) = some y) := by
  induction ts with
  | nil =>
    intro g g1 hw _ _ x y hxy
    simp only [wireBody, Outcome.done.injEq] at hw
    subst hw
    exact Or.inl hxy
  | cons t rest ih =>
    intro g g1 hw ho hids x y hxy
    have lift : (g.edge x y ∨ (x = origin ∧ ∃ t1, t1 ∈ rest ∧ ∃ ref,
        (parseReference quote t1).1 = some ref ∧
          idNodeMap (reference.String ref) = some y)) →
        g.edge x y ∨ (x = origin ∧ ∃ t1, t1 ∈ t :: rest ∧ ∃ ref,
          (parseReference quote t1).1 = some ref ∧
            idNodeMap (reference.String ref) = some y) := by
      rintro (h1 | ⟨h1, t1, h2, h3⟩)
      · exact Or.inl h1
      · exact Or.inr ⟨h1, t1, List.mem_cons_of_mem _ h2, h3⟩
    cases hp : (parseReference quote t).1 with
    | none =>
      simp only [wireBody, hp] at hw
      exact lift (ih g g1 hw ho hids x y hxy)
    | some lookup =>
      cases hi0 : idNodeMap (reference.String lookup) with
      | none =>
        simp only [wireBody, hp, hi0] at hw
        exact lift (ih g g1 hw ho hids x y hxy)
      | some target0 =>
        have ht0 : target0 ∈ g.nodes := hids _ _ hi0
        have hok := Graph.AddEdge_ok_graph g ⟨origin, target0⟩ ho ht0
        have hn1 : (g.AddEdge ⟨origin, target0⟩).1.nodes = g.nodes := Graph.nodes_AddEdge g _
        have hedge := Graph.edge_AddEdge g ⟨origin, target0⟩ ho ht0 x y
        rw [hok] at hedge hn1
        simp only [wireBody, hp, hi0, hok] at hw
        rcases ih _ g1 hw (by rw [hn1]; exact ho)
          (fun key c hk => by rw [hn1]; exact hids key c hk) x y hxy with h1 | h1
        · rcases hedge.1 h1 with h2 | ⟨h2, h3⟩
          · exact Or.inl h2
          · exact Or.inr ⟨h2, t, List.mem_cons_self _ _, lookup, hp, by rw [h3]; exact hi0⟩
        · exact lift (Or.inr h1)

theorem wireAll_edges (quote : String → String) (st : LoadState) (origins : List Node) :
    ∀ (g g1 : Graph), wireAll quote st g origins = Outcome.done g1 → g.Valid →
      (∀ o, o ∈ origins → o ∈ g.nodes) →
      (∀ key c, st.idNodeMap key = some c → c ∈ g.nodes) →
      ∀ x y, g1.edge x y → g.edge x y ∨ (x ∈ origins ∧ ∃ body,
        lookupBody st.bodyLookup x = some body ∧ ∃ t, t ∈ expressionsFromSyntaxBody body ∧
          ∃ ref, (parseReference quote t).1 = some ref ∧
            st.idNodeMap (reference.String ref) = some y) := by
  induction origins with
  | nil =>
    intro g g1 hw _ _ _ x y hxy
    simp only [wireAll, Outcome.done.injEq] at hw
    subst hw
    exact Or.inl hxy
  | cons o rest ih =>
    intro g g1 hw hv hos hids x y hxy
    cases hb : lookupBody st.bodyLookup o with
    | none =>
      simp only [wireAll, hb] at hw
      rcases ih g g1 hw hv (fun z hz => hos z (List.mem_cons_of_mem _ hz)) hids x y hxy
        with h1 | ⟨h1, h2⟩
      · exact Or.inl h1
      · exact Or.inr ⟨List.mem_cons_of_mem _ h1, h2⟩
    | some body0 =>
      obtain ⟨g0, k1, k2, k3, _, _⟩ := wireBody_spec quote st.idNodeMap o
        (expressionsFromSyntaxBody body0) g hv (hos o (List.mem_cons_self _ _)) hids
      simp only [wireAll, hb, k1] at hw
      rcases ih g0 g1 hw k2 (fun z hz => k3 ▸ hos z (List.mem_cons_of_mem _ hz))
        (fun key c hk => k3 ▸ hids key c hk) x y hxy with h1 | ⟨h1, h2⟩
      · rcases wireBody_edges quote st.idNodeMap o (expressionsFromSyntaxBody body0) g g0 k1
          (hos o (List.mem_cons_self _ _)) hids x y h1 with h3 | ⟨h3, h4⟩
        · exact Or.inl h3
        · exact Or.inr ⟨by rw [h3]; exact List.mem_cons_self _ _, body0, by rw [h3]; exact hb,
            h4⟩
      · exact Or.inr ⟨List.mem_cons_of_mem _ h1, h2⟩

end Gragent

namespace Gragent

open Dag

theorem declarations_valid (root : rootBlock) (d : Declaration)
    (h : d ∈ root.declarations) : reference.Valid d.id := by
  simp only [rootBlock.declarations, List.mem_append, List.mem_map] at h
  rcases h with ⟨b, _, rfl⟩ | ⟨b, _, rfl⟩ | ⟨b, _, rfl⟩
  · exact Or.inl ⟨b.Kind, b.Name, rfl⟩
  · exact Or.inr (Or.inl ⟨b.Name, rfl⟩)
  · exact Or.inr (Or.inr ⟨b.Name, rfl⟩)

theorem exists_last_split {α : Type} (P : α → Prop) (l : List α) (h : ∃ d, d ∈ l ∧ P d) :
    ∃ pre d post, l = pre ++ d :: post ∧ P d ∧ ∀ e, e ∈ post → ¬ P e := by
  induction l with
  | nil =>
    obtain ⟨d, hd, _⟩ := h
    simp at hd
  | cons a l ih =>
    by_cases hl : ∃ d, d ∈ l ∧ P d
    · obtain ⟨pre, d, post, h1, h2, h3⟩ := ih hl
      exact ⟨a :: pre, d, post, by rw [h1]; rfl, h2, h3⟩
    · obtain ⟨d, hd, hP⟩ := h
      rcases List.mem_cons.1 hd with h1 | h1
      · exact ⟨[], a, l, rfl, h1 ▸ hP, fun e he hPe => hl ⟨e, he, hPe⟩⟩
      · exact absurd ⟨d, h1, hP⟩ hl

theorem split_of_getElem? {α : Type} (l : List α) (i : Nat) (d : α) (h : l[i]? = some d) :
    ∃ pre post, l = pre ++ d :: post ∧ pre.length = i := by
  obtain ⟨hi, hd⟩ := List.getElem?_eq_some.1 h
  refine ⟨l.take i, l.drop (i + 1), ?_, ?_⟩
  · rw [← hd, ← List.drop_eq_getElem_cons hi, List.take_append_drop]
  · rw [List.length_take]
    exact Nat.min_eq_left (Nat.le_of_lt hi)

theorem getElem?_of_split {α : Type} (pre post : List α) (d : α) :
    (pre ++ d :: post)[pre.length]? = some d := by
  rw [List.getElem?_append_right (Nat.le_refl _), Nat.sub_self]
  exact List.getElem?_cons_zero

theorem init_no_edges (x y : Node) : ¬ LoadState.init.world.g.edge x y := by
  simp [LoadState.init, NewSystem, Graph.edge, Graph.Add, Graph.empty, edgeMap.at,
    edgeMap.find]

end Gragent

namespace Gragent

theorem scenarioS5_plain : ∀ d, d ∈ scenarioS5.declarations →
    ∀ t, t ∈ expressionsFromSyntaxBody d.body → t.Plain := by
  intro d hd t ht
  simp only [scenarioS5, rootBlock.declarations, List.map_nil, List.map_cons, List.nil_append,
    List.append_nil, List.mem_singleton] at hd
  subst hd
  simp [scrapeBlock.declaration, SyntaxBody.single, expressionsFromSyntaxBody,
    expressionsFromBlocks] at ht
  subst ht
  intro name r hmem
  simp only [traversalMissing, List.mem_cons, Traverser.attr.injEq, List.mem_singleton,
    List.not_mem_nil, or_false] at hmem
  rcases hmem with ⟨rfl, _⟩ | ⟨rfl, _⟩ | ⟨rfl, _⟩ <;> decide

end Gragent

namespace Gragent

open Dag

/-- C19: for a configuration whose declared blocks have pairwise distinct identities (and
whose traversals are as the parser produces them, with attribute names free of `.`), the
wiring of `Load` ends normally and the edges of the graph it leaves, before `Reduce`, are
exactly the edges root -> c for every declared component c and the edges origin -> target
for every pair of declared components where the body of origin holds a traversal on which
`parseReference` returns the identity of target.  A traversal whose reference names no
declared component adds no edge and does not stop the wiring. -/
theorem load_wired_edges (sched : Sched) (hf : sched.Fair) (quote : String → String)
    (root : rootBlock)
    (hdistinct : (root.declarations.map (fun d => d.id)).Nodup)
    (hplain : ∀ d, d ∈ root.declarations → ∀ t, t ∈ expressionsFromSyntaxBody d.body →
      t.Plain) :
    ∃ st, loadWire sched quote root = Outcome.done st ∧
      ∀ x y, st.world.g.edge x y ↔
        ((x = rootNode ∧ ∃ j c, root.declarations[j]? = some c ∧ y = j + 1) ∨
          ∃ i origin j target t, root.declarations[i]? = some origin ∧
            root.declarations[j]? = some target ∧ x = i + 1 ∧ y = j + 1 ∧
            t ∈ expressionsFromSyntaxBody origin.body ∧
            (parseReference quote t).1 = some target.id) := by
  obtain ⟨st1, hd, hinv, hnext, _, _, hidkeep, hsplit⟩ :=
    declareAll_spec root.declarations LoadState.init loadInv_init
  have hedges1 := declareAll_edges root.declarations LoadState.init loadInv_init st1 hd
  have hkeys := declareAll_keys root.declarations LoadState.init loadInv_init st1 hd
  have hperm := hf st1.world.tick (st1.bodyLookup.map (fun entry => entry.1))
  have horigins : ∀ o, o ∈ sched st1.world.tick (st1.bodyLookup.map (fun entry => entry.1)) →
      o ∈ st1.world.g.nodes := by
    intro o ho
    obtain ⟨⟨k, body⟩, hk, hk2⟩ := List.mem_map.1 (hperm.mem_iff.1 ho)
    exact (hinv.nodes o).2 (hk2 ▸ hinv.keys k body hk)
  have hids : ∀ key c, st1.idNodeMap key = some c → c ∈ st1.world.g.nodes :=
    fun key c hk => (hinv.nodes c).2 (hinv.ids key c hk)
  obtain ⟨g1, h1, _, _, h4, h5⟩ := wireAll_spec quote st1
    (sched st1.world.tick (st1.bodyLookup.map (fun entry => entry.1))) st1.world.g hinv.valid
    horigins hids
  have hconv := wireAll_edges quote st1
    (sched st1.world.tick (st1.bodyLookup.map (fun entry => entry.1))) st1.world.g g1 h1
    hinv.valid horigins hids
  have hinit : LoadState.init.next = 1 := rfl
  rw [hinit] at hnext hedges1 hkeys hsplit
  refine ⟨{ st1 with world := ⟨g1, st1.world.tick + 1⟩ }, ?_, ?_⟩
  · simp only [loadWire, hd, h1]
  intro x y
  show g1.edge x y ↔ _
  constructor
  · intro hxy
    rcases hconv x y hxy with hold | ⟨hx, body, hbody, t, ht, ref, hparse, hidy⟩
    · rcases (hedges1 x y).1 hold with h0 | ⟨hx, hy1, hy2⟩
      · exact absurd h0 (init_no_edges x y)
      · have hj : y - 1 < root.declarations.length := by
          simp only [Node] at *
          omega
        refine Or.inl ⟨hx, y - 1, root.declarations[y - 1], List.getElem?_eq_getElem hj, ?_⟩
        simp only [Node] at *
        omega
    · obtain ⟨⟨k, b0⟩, hk, hk2⟩ := List.mem_map.1 (hperm.mem_iff.1 hx)
      simp only at hk2
      subst hk2
      have hk1 : 1 ≤ k := by
        rcases hkeys k b0 hk with h0 | h0
        · simp [LoadState.init] at h0
        · exact h0
      have hk3 : k < 1 + root.declarations.length := hnext ▸ hinv.keys k b0 hk
      have hi : k - 1 < root.declarations.length := by
        simp only [Node] at *
        omega
      obtain ⟨preO, postO, hO, hlenO⟩ := split_of_getElem? root.declarations (k - 1)
        root.declarations[k - 1] (List.getElem?_eq_getElem hi)
      obtain ⟨hbodyO, _, _⟩ := hsplit preO _ postO hO
      have hkO : 1 + preO.length = k := by
        rw [hlenO]
        simp only [Node] at *
        omega
      rw [hkO, hbody, Option.some.injEq] at hbodyO
      have hdecl : ∃ d, d ∈ root.declarations ∧
          reference.String d.id = reference.String ref := by
        by_contra hnone
        have hkeep := hidkeep (reference.String ref)
          (fun d hd hs => hnone ⟨d, hd, hs⟩)
        rw [hidy] at hkeep
        simp [LoadState.init] at hkeep
      obtain ⟨preT, tgt, postT, hT, hsame, hlast⟩ :=
        exists_last_split (fun d => reference.String d.id = reference.String ref)
          root.declarations hdecl
      obtain ⟨_, _, hidT⟩ := hsplit preT tgt postT hT
      have hidT2 := hidT (fun e he => by rw [hsame]; exact hlast e he)
      rw [hsame, hidy, Option.some.injEq] at hidT2
      have hmemO : root.declarations[k - 1] ∈ root.declarations := List.getElem_mem hi
      have htO : t ∈ expressionsFromSyntaxBody (root.declarations[k - 1]).body := by
        rw [← hbodyO]
        exact ht
      obtain ⟨hrv, hrp⟩ := parseReference_valid_plain quote t
        (hplain _ hmemO t htO) ref hparse
      have hmemT : tgt ∈ root.declarations := by
        rw [hT]
        simp
      have hidEq : tgt.id = ref :=
        reference_eq_of_String_eq tgt.id ref (declarations_valid root tgt hmemT) hrv hrp hsame
      refine Or.inr ⟨k - 1, root.declarations[k - 1], preT.length, tgt, t,
        List.getElem?_eq_getElem hi, ?_, ?_, ?_, htO, by rw [hidEq]; exact hparse⟩
      · rw [hT]
        exact getElem?_of_split preT postT tgt
      · simp only [Node] at *
        omega
      · rw [hidT2, Nat.add_comm]
  · rintro (⟨hx, j, c, hj, hy⟩ | ⟨i, origin, j, target, t, hi, hj, hx, hy, ht, hparse⟩)
    · obtain ⟨hjlt, _⟩ := List.getElem?_eq_some.1 hj
      apply h4
      refine (hedges1 x y).2 (Or.inr ⟨hx, ?_, ?_⟩) <;> simp only [Node] at * <;> omega
    · obtain ⟨preO, postO, hO, hlenO⟩ := split_of_getElem? root.declarations i origin hi
      obtain ⟨preT, postT, hT, hlenT⟩ := split_of_getElem? root.declarations j target hj
      obtain ⟨hbodyO, hmemO, _⟩ := hsplit preO origin postO hO
      obtain ⟨_, _, hidT⟩ := hsplit preT target postT hT
      have hmemO2 : origin ∈ root.declarations := by
        rw [hO]
        simp
      obtain ⟨hrv, hrp⟩ := parseReference_valid_plain quote t
        (hplain origin hmemO2 t ht) target.id hparse
      have hlast : ∀ e, e ∈ postT → reference.String e.id ≠ reference.String target.id := by
        intro e he hs
        have hmemE : e ∈ root.declarations := by
          rw [hT]
          simp [he]
        have hidE : e.id = target.id :=
          reference_eq_of_String_eq e.id target.id (declarations_valid root e hmemE) hrv hrp hs
        rw [hT, List.map_append, List.map_cons] at hdistinct
        have hnd := (List.nodup_cons.1 (List.nodup_append.1 hdistinct).2.1).1
        exact hnd (List.mem_map.2 ⟨e, he, hidE⟩)
      have hkeyO : 1 + preO.length ∈ sched st1.world.tick
          (st1.bodyLookup.map (fun entry => entry.1)) :=
        hperm.mem_iff.2 (List.mem_map.2 ⟨_, hmemO, rfl⟩)
      have hedge := h5 _ hkeyO origin.body hbodyO t ht target.id (1 + preT.length) hparse
        (hidT hlast)
      rw [hlenO, hlenT, Nat.add_comm 1 i, Nat.add_comm 1 j, ← hx, ← hy] at hedge
      exact hedge

end Gragent

namespace Gragent

open Dag

/-- Witness for C19 on scenario S5: the hypotheses hold for the single block `scrape "s"`
reading `discovery.static.missing.targets`, and its wired graph has the edges stated. -/
theorem load_wired_edges_witness :
    Sched.inOrder.Fair ∧ (scenarioS5.declarations.map (fun d => d.id)).Nodup ∧
      (∀ d, d ∈ scenarioS5.declarations → ∀ t, t ∈ expressionsFromSyntaxBody d.body →
        t.Plain) ∧
      ∃ st, loadWire Sched.inOrder quotePlain scenarioS5 = Outcome.done st ∧
        ∀ x y, st.world.g.edge x y ↔
          ((x = rootNode ∧ ∃ j c, scenarioS5.declarations[j]? = some c ∧ y = j + 1) ∨
            ∃ i origin j target t, scenarioS5.declarations[i]? = some origin ∧
              scenarioS5.declarations[j]? = some target ∧ x = i + 1 ∧ y = j + 1 ∧
              t ∈ expressionsFromSyntaxBody origin.body ∧
              (parseReference quotePlain t).1 = some target.id) :=
  ⟨Sched.fair_inOrder, by decide, scenarioS5_plain,
    load_wired_edges Sched.inOrder Sched.fair_inOrder quotePlain scenarioS5 (by decide)
      scenarioS5_plain⟩

end Gragent

namespace Gragent

open Dag

/-! ## The diagnostics of the wiring step -/

/-- When parsing and decoding left no error, `Load` never returns diagnostics, whatever the
bodies of the components hold: the diagnostics of `parseReference` are not in `diags`. -/
theorem Load_err_not_diags {σ ε : Type} (fuel : Nat) (sched : Sched) (quote : String → String)
    (root : rootBlock) (diags : Diagnostics) (fn : LoadState → WalkFunc σ ε) (s : σ)
    (hd : Diagnostics.HasErrors diags = false) (r : LoadResult σ ε)
    (h : Load fuel sched quote root diags fn s = Outcome.done r) (ds : Diagnostics) :
    r.err ≠ some (LoadError.diags ds) := by
  unfold Load at h
  rw [hd] at h
  simp only [Bool.false_eq_true, if_false] at h
  cases hw : loadWire sched quote root with
  | panic msg => rw [hw] at h; simp at h
  | outOfFuel => rw [hw] at h; simp at h
  | done st =>
    rw [hw] at h
    simp only [loadRun, hd, Bool.false_eq_true, if_false] at h
    cases hr : Reduce fuel sched st.world with
    | none => rw [hr] at h; simp at h
    | some w1 =>
      rw [hr] at h
      simp only at h
      cases hwalk : WalkTopological fuel sched w1 (fn st) s with
      | none => rw [hwalk] at h; simp at h
      | some res =>
        rw [hwalk] at h
        simp only [Outcome.done.injEq] at h
        subst h
        cases res.err <;> simp

/-- C20, what the code does: in the configuration with the single block `scrape "s"` whose
`targets` reads `foo.bar.baz`, `parseReference` returns no reference and a diagnostic of
severity error for that traversal, yet `Load` returns no error: it goes on to `Reduce` and
runs the evaluation closure on the component (node 1) and on the root (node 0). -/
theorem load_invalid_reference_not_fatal :
    scenarioS4.declarations =
      [scrapeBlock.declaration ⟨"s", SyntaxBody.single "targets" [traversalFooBarBaz]⟩] ∧
    traversalFooBarBaz ∈
      expressionsFromSyntaxBody (SyntaxBody.single "targets" [traversalFooBarBaz]) ∧
    (parseReference quotePlain traversalFooBarBaz).1 = none ∧
    Diagnostics.HasErrors (parseReference quotePlain traversalFooBarBaz).2 = true ∧
    ∃ r, Load 20 Sched.inOrder quotePlain scenarioS4 [] (fun _ => logVisit) [] =
        Outcome.done r ∧ r.err = none ∧ r.calls = [1, 0] := by
  refine ⟨rfl, ?_, by decide, by decide, _, rfl, rfl, rfl⟩
  simp [SyntaxBody.single, expressionsFromSyntaxBody, expressionsFromBlocks]

end Gragent

namespace Gragent

open Dag

/-! ## The names of the constructed components -/

theorem declaration_name (root : rootBlock) (d : Declaration) (h : d ∈ root.declarations) :
    d.component.Name = reference.String d.id := by
  simp only [rootBlock.declarations, List.mem_append, List.mem_map] at h
  rcases h with ⟨b, _, rfl⟩ | ⟨b, _, rfl⟩ | ⟨b, _, rfl⟩
  · apply String.ext
    show ("discovery." ++ b.Kind ++ "." ++ b.Name).data =
      (reference.String ["discovery", b.Kind, b.Name]).data
    rw [reference_String_data]
    simp only [String.data_append, List.map_cons, List.map_nil, List.flatten_cons,
      List.flatten_nil, List.append_nil, List.append_assoc]
    rfl
  · rfl
  · rfl

theorem declare_registry (st : LoadState) (h : LoadInv st) (d : Declaration) (st1 : LoadState)
    (hd : declare st d = Outcome.done st1) :
    st1.components = (fun n => if n = st.next then some d.component else st.components n) ∧
      st1.referenceMap = (fun n => if n = st.next then some d.id else st.referenceMap n) := by
  have hroot : rootNode ∈ (st.world.g.Add st.next).nodes := by
    simp only [Graph.Add]
    exact (nodeSet.mem_Add _ _ _).2 (Or.inl ((h.nodes rootNode).2 h.next_pos))
  have hc : st.next ∈ (st.world.g.Add st.next).nodes := by
    simp only [Graph.Add]
    exact (nodeSet.mem_Add _ _ _).2 (Or.inr rfl)
  have hok := Graph.AddEdge_ok_graph (st.world.g.Add st.next) ⟨rootNode, st.next⟩ hroot hc
  simp only [declare, hok, Outcome.done.injEq] at hd
  subst hd
  exact ⟨rfl, rfl⟩

theorem declareAll_registry (ds : List Declaration) :
    ∀ (st : LoadState), LoadInv st → ∀ st1, declareAll st ds = Outcome.done st1 →
      (∀ n, n < st.next → st1.components n = st.components n ∧
        st1.referenceMap n = st.referenceMap n) ∧
      ∀ pre d post, ds = pre ++ d :: post →
        st1.components (st.next + pre.length) = some d.component ∧
          st1.referenceMap (st.next + pre.length) = some d.id := by
  induction ds with
  | nil =>
    intro st _ st1 hd
    simp only [declareAll, Outcome.done.injEq] at hd
    subst hd
    exact ⟨fun _ _ => ⟨rfl, rfl⟩, fun pre d post h => by simp at h⟩
  | cons d0 rest ih =>
    intro st h st2 hd2
    obtain ⟨st1, hd, hinv1, hnext1, _, _, _⟩ := declare_spec st h d0
    simp only [declareAll, hd] at hd2
    obtain ⟨hc1, hr1⟩ := declare_registry st h d0 st1 hd
    obtain ⟨hold, hnew⟩ := ih st1 hinv1 st2 hd2
    have hfresh : st2.components st.next = some d0.component ∧
        st2.referenceMap st.next = some d0.id := by
      obtain ⟨h1, h2⟩ := hold st.next (by rw [hnext1]; exact Nat.lt_succ_self _)
      rw [h1, h2, hc1, hr1]
      simp
    constructor
    · intro n hn
      obtain ⟨h1, h2⟩ := hold n (by rw [hnext1]; exact Nat.lt_succ_of_lt hn)
      rw [h1, h2, hc1, hr1]
      simp only [Nat.ne_of_lt hn, if_false, and_self]
    · intro pre d post hsplit
      cases pre with
      | nil =>
        simp only [List.nil_append, List.cons.injEq] at hsplit
        obtain ⟨h1, _⟩ := hsplit
        subst h1
        simpa using hfresh
      | cons p pre1 =>
        simp only [List.cons_append, List.cons.injEq] at hsplit
        have h3 := hnew pre1 d post hsplit.2
        have h4 : st1.next + pre1.length = st.next + (p :: pre1).length := by
          rw [hnext1, List.length_cons]
          simp only [Node] at *
          omega
        rw [h4] at h3
        exact h3

/-- C25: for every configuration the construction loops of `Load` end normally, and the
component constructed for the block at position `i` (discovery, scrape or remote_write) is
registered under the node `i + 1` with a reference whose `String()` is the `Name()` of the
component. -/
theorem component_name_is_reference (root : rootBlock) :
    ∃ st, declareAll LoadState.init root.declarations = Outcome.done st ∧
      ∀ i d, root.declarations[i]? = some d →
        st.components (i + 1) = some d.component ∧ st.referenceMap (i + 1) = some d.id ∧
          d.component.Name = reference.String d.id := by
  obtain ⟨st1, hd, _⟩ := declareAll_spec root.declarations LoadState.init loadInv_init
  obtain ⟨_, hnew⟩ := declareAll_registry root.declarations LoadState.init loadInv_init st1 hd
  refine ⟨st1, hd, ?_⟩
  intro i d hi
  obtain ⟨pre, post, hsplit, hlen⟩ := split_of_getElem? root.declarations i d hi
  obtain ⟨h1, h2⟩ := hnew pre d post hsplit
  have hinit : LoadState.init.next = 1 := rfl
  rw [hinit, hlen, Nat.add_comm] at h1 h2
  have hmem : d ∈ root.declarations := by
    rw [hsplit]
    simp
  exact ⟨h1, h2, declaration_name root d hmem⟩

end Gragent

namespace Dag

/-! ## The edges listed by `Edges` -/

theorem edgeMap.mem_keys_of_find (m : edgeMap) (n : Node) (s : nodeSet)
    (h : edgeMap.find m n = some s) : n ∈ m.map (fun entry => entry.1) := by
  induction m with
  | nil => simp [edgeMap.find] at h
  | cons p m ih =>
    obtain ⟨k, s0⟩ := p
    simp only [edgeMap.find] at h
    by_cases hk : k = n
    · simp [hk]
    · rw [if_neg hk] at h
      exact List.mem_cons_of_mem _ (ih h)

theorem edgeMap.mem_keys_of_mem_at (m : edgeMap) (n v : Node) (h : v ∈ edgeMap.at m n) :
    n ∈ m.map (fun entry => entry.1) := by
  unfold edgeMap.at at h
  cases hf : edgeMap.find m n with
  | none => rw [hf] at h; simp at h
  | some s => exact edgeMap.mem_keys_of_find m n s hf

theorem Graph.mem_Edges (ordK : List Node → List Node) (ordV : Node → List Node → List Node)
    (hK : ∀ l, (ordK l).Perm l) (hV : ∀ n l, (ordV n l).Perm l) (g : Graph) (e : Edge) :
    e ∈ g.Edges ordK ordV ↔ g.edge e.From e.To := by
  unfold Graph.Edges Graph.edge
  simp only [List.mem_flatMap, List.mem_map, (hK _).mem_iff, (hV _ _).mem_iff]
  constructor
  · rintro ⟨src, _, dst, hdst, rfl⟩
    exact hdst
  · intro h
    exact ⟨e.From, by simpa using edgeMap.mem_keys_of_mem_at _ _ _ h, e.To, h, rfl⟩

/-- C27 (edge-endpoint invariant): in the graph left by any sequence of `Add`, `AddEdge`
(none of which panics) and `RemoveEdge` calls on the empty graph, whatever the iteration
orders, `Edges()` lists exactly the pairs of the edge relation, every edge it lists has its
`From` and its `To` in `Nodes()`, and `Dependencies(n)` and `Dependants(n)` are empty for
every `n` that `Nodes()` does not hold. -/
theorem edge_endpoint_invariant (ops : List Op) (g : Graph)
    (hr : Graph.empty.run ops = some g)
    (ordK ordN ordD : List Node → List Node) (ordV : Node → List Node → List Node)
    (hK : ∀ l, (ordK l).Perm l) (hN : ∀ l, (ordN l).Perm l) (hD : ∀ l, (ordD l).Perm l)
    (hV : ∀ n l, (ordV n l).Perm l) :
    (∀ e, e ∈ g.Edges ordK ordV ↔ g.edge e.From e.To) ∧
    (∀ e, e ∈ g.Edges ordK ordV → e.From ∈ g.Nodes ordN ∧ e.To ∈ g.Nodes ordN) ∧
    ∀ n, n ∉ g.Nodes ordN → g.Dependencies ordD n = [] ∧ g.Dependants ordD n = [] := by
  have hv : g.Valid := Graph.valid_run ops Graph.empty g Graph.valid_empty hr
  refine ⟨Graph.mem_Edges ordK ordV hK hV g, ?_, ?_⟩
  · intro e he
    have h1 := hv.endpoints e.From e.To ((Graph.mem_Edges ordK ordV hK hV g e).1 he)
    unfold Graph.Nodes
    exact ⟨(hN _).mem_iff.2 h1.1, (hN _).mem_iff.2 h1.2⟩
  · intro n hn
    have hn1 : n ∉ g.nodes := fun h => hn ((hN _).mem_iff.2 h)
    have hout : edgeMap.at g.outEdges n = [] := by
      apply List.eq_nil_iff_forall_not_mem.2
      intro v hv1
      exact hn1 (hv.endpoints n v hv1).1
    have hin : edgeMap.at g.inEdges n = [] := by
      apply List.eq_nil_iff_forall_not_mem.2
      intro u hu
      exact hn1 (hv.endpoints u n ((hv.mirror u n).2 hu)).2
    unfold Graph.Dependencies Graph.Dependants
    rw [hout, hin]
    exact ⟨(hD []).eq_nil, (hD []).eq_nil⟩

theorem edge_endpoint_invariant_witness :
    Graph.empty.run sampleOps = some ⟨[0, 1, 2], [(0, [1])], [(1, [0]), (2, [])]⟩ ∧
    (∀ l : List Node, (id l).Perm l) ∧ (∀ (n : Node) (l : List Node), ((fun _ x => x) n l).Perm l) ∧
    (∀ e, e ∈ Graph.Edges id (fun _ x => x) ⟨[0, 1, 2], [(0, [1])], [(1, [0]), (2, [])]⟩ ↔
      Graph.edge ⟨[0, 1, 2], [(0, [1])], [(1, [0]), (2, [])]⟩ e.From e.To) ∧
    (∀ e, e ∈ Graph.Edges id (fun _ x => x) ⟨[0, 1, 2], [(0, [1])], [(1, [0]), (2, [])]⟩ →
      e.From ∈ Graph.Nodes id ⟨[0, 1, 2], [(0, [1])], [(1, [0]), (2, [])]⟩ ∧
        e.To ∈ Graph.Nodes id ⟨[0, 1, 2], [(0, [1])], [(1, [0]), (2, [])]⟩) ∧
    ∀ n, n ∉ Graph.Nodes id ⟨[0, 1, 2], [(0, [1])], [(1, [0]), (2, [])]⟩ →
      Graph.Dependencies id ⟨[0, 1, 2], [(0, [1])], [(1, [0]), (2, [])]⟩ n = [] ∧
        Graph.Dependants id ⟨[0, 1, 2], [(0, [1])], [(1, [0]), (2, [])]⟩ n = [] :=
  ⟨by decide, fun l => List.Perm.refl l, fun _ l => List.Perm.refl l,
    edge_endpoint_invariant sampleOps _ (by decide) id id id (fun _ x => x)
      (fun l => List.Perm.refl l) (fun l => List.Perm.refl l) (fun l => List.Perm.refl l)
      (fun _ l => List.Perm.refl l)⟩

end Dag

namespace Components

/-! ## Reload coalescing -/

theorem scrape_reload_inv {γ : Type} (zero : γ) (steps : List (Step γ)) :
    (steps.foldl Scrape.step (NewScrape zero)).reloadConfig ≤ 1 ∧
      (lastConfigure steps = some (steps.foldl Scrape.step (NewScrape zero)).sc ∨
        (lastConfigure steps = none ∧
          (steps.foldl Scrape.step (NewScrape zero)).reloadConfig = 0)) := by
  induction steps using List.reverseRecOn with
  | nil => exact ⟨Nat.zero_le 1, Or.inr ⟨rfl, rfl⟩⟩
  | append_singleton steps st ih =>
    obtain ⟨h1, h2⟩ := ih
    unfold lastConfigure at h2 ⊢
    rw [List.foldl_append, List.foldl_append]
    simp only [List.foldl_cons, List.foldl_nil]
    generalize steps.foldl Scrape.step (NewScrape zero) = s at h1 h2 ⊢
    cases st with
    | configure c =>
      simp only [Scrape.step, Scrape.Configure]
      split <;> exact ⟨by simp only; omega, Or.inl rfl⟩
    | reload =>
      simp only [Scrape.step, Scrape.receive]
      split
      · rename_i s1 conf heq
        split at heq
        · simp only [Option.some.injEq, Prod.mk.injEq] at heq
          obtain ⟨rfl, _⟩ := heq
          refine ⟨by simp only; omega, ?_⟩
          rcases h2 with h3 | ⟨_, h4⟩
          · exact Or.inl h3
          · omega
        · simp at heq
      · exact ⟨h1, h2⟩

theorem remoteWrite_reload_inv {γ : Type} (zero : γ) (steps : List (Step γ)) :
    (steps.foldl RemoteWrite.step (NewRemoteWrite zero)).reloadRWC ≤ 1 ∧
      (lastConfigure steps = some (steps.foldl RemoteWrite.step (NewRemoteWrite zero)).rwc ∨
        (lastConfigure steps = none ∧
          (steps.foldl RemoteWrite.step (NewRemoteWrite zero)).reloadRWC = 0)) := by
  induction steps using List.reverseRecOn with
  | nil => exact ⟨Nat.zero_le 1, Or.inr ⟨rfl, rfl⟩⟩
  | append_singleton steps st ih =>
    obtain ⟨h1, h2⟩ := ih
    unfold lastConfigure at h2 ⊢
    rw [List.foldl_append, List.foldl_append]
    simp only [List.foldl_cons, List.foldl_nil]
    generalize steps.foldl RemoteWrite.step (NewRemoteWrite zero) = s at h1 h2 ⊢
    cases st with
    | configure c =>
      simp only [RemoteWrite.step, RemoteWrite.Configure]
      split <;> exact ⟨by simp only; omega, Or.inl rfl⟩
    | reload =>
      simp only [RemoteWrite.step, RemoteWrite.receive]
      split
      · rename_i s1 conf heq
        split at heq
        · simp only [Option.some.injEq, Prod.mk.injEq] at heq
          obtain ⟨rfl, _⟩ := heq
          refine ⟨by simp only; omega, ?_⟩
          rcases h2 with h3 | ⟨_, h4⟩
          · exact Or.inl h3
          · omega
        · simp at heq
      · exact ⟨h1, h2⟩

/-- C29 (reload coalescing): in the state a `Scrape` or a `RemoteWrite` reaches from its
constructor by any sequence of `Configure` calls and reload rounds of `Run`, at most one
signal is pending; a further `Configure(c)` leaves `c` stored and exactly one signal
pending; and when `Run` takes a signal, the config it reads is the argument of the most
recent `Configure` and no signal stays pending. -/
theorem reload_coalescing {γ : Type} (zero : γ) (steps : List (Step γ)) :
    ((steps.foldl Scrape.step (NewScrape zero)).reloadConfig ≤ 1 ∧
      (∀ c, ((steps.foldl Scrape.step (NewScrape zero)).Configure c).sc = c ∧
        ((steps.foldl Scrape.step (NewScrape zero)).Configure c).reloadConfig = 1) ∧
      ∀ s1 conf, (steps.foldl Scrape.step (NewScrape zero)).receive = some (s1, conf) →
        lastConfigure steps = some conf ∧ s1.reloadConfig = 0) ∧
    ((steps.foldl RemoteWrite.step (NewRemoteWrite zero)).reloadRWC ≤ 1 ∧
      (∀ c, ((steps.foldl RemoteWrite.step (NewRemoteWrite zero)).Configure c).rwc = c ∧
        ((steps.foldl RemoteWrite.step (NewRemoteWrite zero)).Configure c).reloadRWC = 1) ∧
      ∀ rw1 conf,
        (steps.foldl RemoteWrite.step (NewRemoteWrite zero)).receive = some (rw1, conf) →
          lastConfigure steps = some conf ∧ rw1.reloadRWC = 0) := by
  constructor
  · obtain ⟨h1, h2⟩ := scrape_reload_inv zero steps
    generalize steps.foldl Scrape.step (NewScrape zero) = s at h1 h2
    refine ⟨h1, ?_, ?_⟩
    · intro c
      unfold Scrape.Configure
      split
      · exact ⟨rfl, by simp only; omega⟩
      · exact ⟨rfl, by simp only; omega⟩
    · intro s1 conf hrecv
      unfold Scrape.receive at hrecv
      split at hrecv
      · simp only [Option.some.injEq, Prod.mk.injEq] at hrecv
        obtain ⟨rfl, rfl⟩ := hrecv
        rcases h2 with h3 | ⟨_, h4⟩
        · exact ⟨h3, by simp only; omega⟩
        · omega
      · simp at hrecv
  · obtain ⟨h1, h2⟩ := remoteWrite_reload_inv zero steps
    generalize steps.foldl RemoteWrite.step (NewRemoteWrite zero) = s at h1 h2
    refine ⟨h1, ?_, ?_⟩
    · intro c
      unfold RemoteWrite.Configure
      split
      · exact ⟨rfl, by simp only; omega⟩
      · exact ⟨rfl, by simp only; omega⟩
    · intro s1 conf hrecv
      unfold RemoteWrite.receive at hrecv
      split at hrecv
      · simp only [Option.some.injEq, Prod.mk.injEq] at hrecv
        obtain ⟨rfl, rfl⟩ := hrecv
        rcases h2 with h3 | ⟨_, h4⟩
        · exact ⟨h3, by simp only; omega⟩
        · omega
      · simp at hrecv

end Components

namespace Dag

/-! ## Walks stop at the first error -/

theorem walkLoop_eq_visitLoop {σ ε : Type} (sched : Sched) (fn : WalkFunc σ ε) :
    ∀ (fuel : Nat) (w : World) (s : σ) (visited unchecked calls : List Node),
      walkLoop sched fn fuel w s visited unchecked calls =
        visitLoop (fun g n => edgeMap.at g.outEdges n) sched fn fuel w s visited unchecked
          calls := by
  intro fuel
  induction fuel with
  | zero =>
    intro w s visited unchecked calls
    cases unchecked <;> simp [walkLoop, visitLoop]
  | succ fuel ih =>
    intro w s visited unchecked calls
    cases unchecked with
    | nil => simp [walkLoop, visitLoop]
    | cons c rest =>
      by_cases hc : nodeSet.Has visited c = true
      · simp only [walkLoop, visitLoop, hc, if_true, ih]
      · rcases hfn : fn c w s with ⟨w1, s1, err⟩
        cases err <;> simp only [walkLoop, visitLoop, hc, hfn, if_false, ih]

theorem walkReverseLoop_eq_visitLoop {σ ε : Type} (sched : Sched) (fn : WalkFunc σ ε) :
    ∀ (fuel : Nat) (w : World) (s : σ) (visited unchecked calls : List Node),
      walkReverseLoop sched fn fuel w s visited unchecked calls =
        visitLoop (fun g n => edgeMap.at g.inEdges n) sched fn fuel w s visited unchecked
          calls := by
  intro fuel
  induction fuel with
  | zero =>
    intro w s visited unchecked calls
    cases unchecked <;> simp [walkReverseLoop, visitLoop]
  | succ fuel ih =>
    intro w s visited unchecked calls
    cases unchecked with
    | nil => simp [walkReverseLoop, visitLoop]
    | cons c rest =>
      by_cases hc : nodeSet.Has visited c = true
      · simp only [walkReverseLoop, visitLoop, hc, if_true, ih]
      · rcases hfn : fn c w s with ⟨w1, s1, err⟩
        cases err <;> simp only [walkReverseLoop, visitLoop, hc, hfn, if_false, ih]

theorem replay_err {σ ε : Type} (fn : WalkFunc σ ε) (nodes : List Node) :
    ∀ (w : World) (s : σ) (e : ε), (replay fn w s nodes).err = some e →
      ∃ pre c w0 s0, (replay fn w s nodes).calls = pre ++ [c] ∧
        fn c w0 s0 = ((replay fn w s nodes).world, (replay fn w s nodes).state, some e) := by
  induction nodes with
  | nil =>
    intro w s e h
    simp [replay] at h
  | cons c rest ih =>
    intro w s e h
    unfold replay at h ⊢
    rcases hfn : fn c w s with ⟨w1, s1, err⟩
    cases err with
    | some e1 =>
      simp only [hfn] at h ⊢
      simp only [Option.some.injEq] at h
      subst h
      exact ⟨[], c, w, s, rfl, hfn⟩
    | none =>
      simp only [hfn] at h ⊢
      obtain ⟨pre, c1, w0, s0, h1, h2⟩ := ih _ _ e h
      exact ⟨c :: pre, c1, w0, s0, by rw [h1]; rfl, h2⟩

theorem replay_ok {σ ε : Type} (fn : WalkFunc σ ε) (hok : ∀ n w s, (fn n w s).2.2 = none)
    (nodes : List Node) : ∀ (w : World) (s : σ), (replay fn w s nodes).err = none := by
  induction nodes with
  | nil => intro w s; rfl
  | cons c rest ih =>
    intro w s
    unfold replay
    rcases hfn : fn c w s with ⟨w1, s1, err⟩
    have h1 := hok c w s
    rw [hfn] at h1
    simp only at h1
    subst h1
    exact ih _ _

theorem visitLoop_replay {σ ε : Type} (next : Graph → Node → List Node) (sched : Sched)
    (fn : WalkFunc σ ε) :
    ∀ (fuel : Nat) (w : World) (s : σ) (visited unchecked calls : List Node)
      (r : WalkResult σ ε), visitLoop next sched fn fuel w s visited unchecked calls = some r →
      ∃ new, r.calls = calls ++ new ∧ replay fn w s new = ⟨r.world, r.state, r.err, new⟩ := by
  intro fuel
  induction fuel with
  | zero =>
    intro w s visited unchecked calls r h
    cases unchecked with
    | nil =>
      simp only [visitLoop, Option.some.injEq] at h
      subst h
      exact ⟨[], by simp, rfl⟩
    | cons c rest => simp [visitLoop] at h
  | succ fuel ih =>
    intro w s visited unchecked calls r h
    cases unchecked with
    | nil =>
      simp only [visitLoop, Option.some.injEq] at h
      subst h
      exact ⟨[], by simp, rfl⟩
    | cons c rest =>
      simp only [visitLoop] at h
      split at h
      · exact ih _ _ _ _ _ _ h
      · rcases hfn : fn c w s with ⟨w1, s1, err⟩
        rw [hfn] at h
        cases err with
        | some e1 =>
          simp only [Option.some.injEq] at h
          subst h
          exact ⟨[c], rfl, by simp [replay, hfn]⟩
        | none =>
          simp only at h
          obtain ⟨new, h1, h2⟩ := ih _ _ _ _ _ _ h
          refine ⟨c :: new, by rw [h1]; simp, ?_⟩
          simp only [replay, hfn, h2]

theorem topoLoop_replay {σ ε : Type} (sched : Sched) (fn : WalkFunc σ ε) :
    ∀ (fuel : Nat) (w : World) (s : σ) (visited unchecked : List Node) (rd : DepCount)
      (calls : List Node) (r : WalkResult σ ε),
      topoLoop sched fn fuel w s visited unchecked rd calls = some r →
      ∃ new, r.calls = calls ++ new ∧ replay fn w s new = ⟨r.world, r.state, r.err, new⟩ := by
  intro fuel
  induction fuel with
  | zero =>
    intro w s visited unchecked rd calls r h
    cases unchecked with
    | nil =>
      simp only [topoLoop, Option.some.injEq] at h
      subst h
      exact ⟨[], by simp, rfl⟩
    | cons c rest => simp [topoLoop] at h
  | succ fuel ih =>
    intro w s visited unchecked rd calls r h
    cases unchecked with
    | nil =>
      simp only [topoLoop, Option.some.injEq] at h
      subst h
      exact ⟨[], by simp, rfl⟩
    | cons c rest =>
      simp only [topoLoop] at h
      split at h
      · exact ih _ _ _ _ _ _ _ h
      · rcases hfn : fn c w s with ⟨w1, s1, err⟩
        rw [hfn] at h
        cases err with
        | some e1 =>
          simp only [Option.some.injEq] at h
          subst h
          exact ⟨[c], rfl, by simp [replay, hfn]⟩
        | none =>
          simp only at h
          obtain ⟨new, h1, h2⟩ := ih _ _ _ _ _ _ _ h
          refine ⟨c :: new, by rw [h1]; simp, ?_⟩
          simp only [replay, hfn, h2]

/-- What the replay lemmas give for a whole walk that started with no call made. -/
theorem replay_facts {σ ε : Type} (fn : WalkFunc σ ε) (w : World) (s : σ)
    (r : WalkResult σ ε)
    (h : ∃ new, r.calls = [] ++ new ∧ replay fn w s new = ⟨r.world, r.state, r.err, new⟩) :
    StopsAtFirstError fn w s r := by
  obtain ⟨new, h1, h2⟩ := h
  simp only [List.nil_append] at h1
  subst h1
  refine ⟨h2, ?_, ?_⟩
  · intro e he
    have h3 := replay_err fn r.calls w s e (by rw [h2]; exact he)
    rw [h2] at h3
    exact h3
  · intro hok
    have h3 := replay_ok fn hok r.calls w s
    rw [h2] at h3
    exact h3

end Dag

namespace Dag

open Relation

/-! ## The depth-first loop of `Walk` and `WalkReverse` -/

theorem visitLoop_visited {σ ε : Type} (next : Graph → Node → List Node) (sched : Sched)
    (fn : WalkFunc σ ε) (fuel : Nat) (w : World) (s : σ) (visited : List Node) (c : Node)
    (rest calls : List Node) (hc : c ∈ visited) :
    visitLoop next sched fn (fuel + 1) w s visited (c :: rest) calls =
      visitLoop next sched fn fuel w s visited rest calls := by
  simp [visitLoop, nodeSet.Has, hc]

theorem visitLoop_err {σ ε : Type} (next : Graph → Node → List Node) (sched : Sched)
    (fn : WalkFunc σ ε) (fuel : Nat) (w : World) (s : σ) (visited : List Node) (c : Node)
    (rest calls : List Node) (hc : c ∉ visited) (w1 : World) (s1 : σ) (err : ε)
    (hfn : fn c w s = (w1, s1, some err)) :
    visitLoop next sched fn (fuel + 1) w s visited (c :: rest) calls =
      some ⟨w1, s1, some err, calls ++ [c]⟩ := by
  simp [visitLoop, nodeSet.Has, hc, hfn]

theorem visitLoop_ok {σ ε : Type} (next : Graph → Node → List Node) (sched : Sched)
    (fn : WalkFunc σ ε) (fuel : Nat) (w : World) (s : σ) (visited : List Node) (c : Node)
    (rest calls : List Node) (hc : c ∉ visited) (w1 : World) (s1 : σ)
    (hfn : fn c w s = (w1, s1, none)) :
    visitLoop next sched fn (fuel + 1) w s visited (c :: rest) calls =
      visitLoop next sched fn fuel ⟨w1.g, w1.tick + 1⟩ s1 (nodeSet.Add visited c)
        ((sched w1.tick (next w1.g c)).reverse ++ rest) (calls ++ [c]) := by
  simp [visitLoop, nodeSet.Has, hc, hfn]

theorem visitOrder_append (R : Node → Node → Prop) (start calls : List Node) (c : Node)
    (h : VisitOrder R start calls) (hc : c ∈ start ∨ ∃ v, v ∈ calls ∧ R v c) :
    VisitOrder R start (calls ++ [c]) := by
  intro pre u post heq
  rcases List.eq_nil_or_concat post with hp | ⟨post1, d, hp⟩
  · subst hp
    have h1 : calls ++ [c] = pre ++ [u] := heq
    obtain ⟨h2, h3⟩ := List.append_inj' h1 rfl
    simp only [List.cons.injEq, and_true] at h3
    subst h2 h3
    exact hc
  · subst hp
    have h1 : calls ++ [c] = (pre ++ u :: post1) ++ [d] := by
      rw [heq]; simp
    obtain ⟨h2, _⟩ := List.append_inj' h1 rfl
    exact h pre u post1 h2

theorem visitLoop_spec {σ ε : Type} (next : Graph → Node → List Node) (sched : Sched)
    (hf : sched.Fair) (g : Graph) (fn : WalkFunc σ ε) (hfn : ∀ n w s, (fn n w s).1.g = w.g)
    (start : List Node) (K : Finset Node) (hK : ∀ x, next g x ≠ [] → x ∈ K) :
    ∀ (fuel : Nat) (w : World) (s : σ) (visited unchecked calls : List Node), w.g = g →
      VisitInv (fun v x => x ∈ next g v) start visited unchecked calls →
      unchecked.length + (∑ x in K \ visited.toFinset, (next g x).length) ≤ fuel →
      ∃ r, visitLoop next sched fn fuel w s visited unchecked calls = some r ∧
        r.world.g = g ∧ r.calls.Nodup ∧
        VisitOrder (fun v x => x ∈ next g v) start r.calls ∧
        (r.err = none →
          ∃ visited1, VisitInv (fun v x => x ∈ next g v) start visited1 [] r.calls) := by
  intro fuel
  induction fuel with
  | zero =>
    intro w s visited unchecked calls hw hinv hfuel
    cases unchecked with
    | nil =>
      exact ⟨⟨w, s, none, calls⟩, by simp [visitLoop], hw, hinv.calls_nodup, hinv.order,
        fun _ => ⟨visited, hinv⟩⟩
    | cons c rest => simp at hfuel
  | succ fuel ih =>
    intro w s visited unchecked calls hw hinv hfuel
    cases unchecked with
    | nil =>
      exact ⟨⟨w, s, none, calls⟩, by simp [visitLoop], hw, hinv.calls_nodup, hinv.order,
        fun _ => ⟨visited, hinv⟩⟩
    | cons c rest =>
      by_cases hc : c ∈ visited
      · rw [visitLoop_visited next sched fn fuel w s visited c rest calls hc]
        apply ih w s visited rest calls hw
        · refine ⟨hinv.calls_iff, hinv.calls_nodup, ?_, ?_, ?_, hinv.order⟩
          · intro x hx
            rcases hinv.start_cov x hx with h1 | h1
            · exact Or.inl h1
            · rcases List.mem_cons.1 h1 with h2 | h2
              · exact Or.inl (h2 ▸ hc)
              · exact Or.inr h2
          · intro v hv x hvx
            rcases hinv.closed v hv x hvx with h1 | h1
            · exact Or.inl h1
            · rcases List.mem_cons.1 h1 with h2 | h2
              · exact Or.inl (h2 ▸ hc)
              · exact Or.inr h2
          · intro x hx
            exact hinv.pending x (List.mem_cons_of_mem _ hx)
        · simp only [List.length_cons] at hfuel
          omega
      · have hcc : c ∉ calls := fun h => hc ((hinv.calls_iff c).2 h)
        have hnodup : (calls ++ [c]).Nodup :=
          List.Nodup.append hinv.calls_nodup (List.nodup_singleton c) (by simpa using hcc)
        have hpend : c ∈ start ∨ ∃ v, v ∈ calls ∧ c ∈ next g v := by
          rcases hinv.pending c (List.mem_cons_self _ _) with h1 | ⟨v, h1, h2⟩
          · exact Or.inl h1
          · exact Or.inr ⟨v, (hinv.calls_iff v).1 h1, h2⟩
        have horder := visitOrder_append (fun v x => x ∈ next g v) start calls c hinv.order
          hpend
        rcases hres : fn c w s with ⟨w1, s1, err⟩
        have hw1 : w1.g = g := by
          have h1 := hfn c w s
          rw [hres] at h1
          exact h1.trans hw
        cases err with
        | some err =>
          rw [visitLoop_err next sched fn fuel w s visited c rest calls hc w1 s1 err hres]
          exact ⟨_, rfl, hw1, hnodup, horder, fun he => by simp at he⟩
        | none =>
          rw [visitLoop_ok next sched fn fuel w s visited c rest calls hc w1 s1 hres, hw1]
          have hmem : ∀ y, y ∈ sched w1.tick (next g c) ↔ y ∈ next g c :=
            fun y => (hf _ _).mem_iff
          apply ih ⟨g, w1.tick + 1⟩ s1 _ _ _ rfl
          · refine ⟨?_, hnodup, ?_, ?_, ?_, horder⟩
            · intro x
              rw [nodeSet.mem_Add, List.mem_append, List.mem_singleton, hinv.calls_iff]
            · intro x hx
              rcases hinv.start_cov x hx with h1 | h1
              · exact Or.inl ((nodeSet.mem_Add _ _ _).2 (Or.inl h1))
              · rcases List.mem_cons.1 h1 with h2 | h2
                · exact Or.inl ((nodeSet.mem_Add _ _ _).2 (Or.inr h2))
                · exact Or.inr (List.mem_append.2 (Or.inr h2))
            · intro v hv x hvx
              rcases (nodeSet.mem_Add _ _ _).1 hv with h4 | h4
              · rcases hinv.closed v h4 x hvx with h5 | h5
                · exact Or.inl ((nodeSet.mem_Add _ _ _).2 (Or.inl h5))
                · rcases List.mem_cons.1 h5 with h6 | h6
                  · exact Or.inl ((nodeSet.mem_Add _ _ _).2 (Or.inr h6))
                  · exact Or.inr (List.mem_append.2 (Or.inr h6))
              · subst h4
                exact Or.inr (List.mem_append.2
                  (Or.inl (List.mem_reverse.2 ((hmem x).2 hvx))))
            · intro x hx
              rcases List.mem_append.1 hx with h4 | h4
              · exact Or.inr ⟨c, (nodeSet.mem_Add _ _ _).2 (Or.inr rfl),
                  (hmem x).1 (List.mem_reverse.1 h4)⟩
              · rcases hinv.pending x (List.mem_cons_of_mem _ h4) with h5 | ⟨v, h5, h6⟩
                · exact Or.inl h5
                · exact Or.inr ⟨v, (nodeSet.mem_Add _ _ _).2 (Or.inl h5), h6⟩
          · have hlen : (sched w1.tick (next g c)).length = (next g c).length :=
              (hf _ _).length_eq
            rw [toFinset_Add]
            simp only [List.length_append, List.length_reverse, List.length_cons] at hfuel ⊢
            by_cases hcK : c ∈ K
            · have hsum := sum_sdiff_insert_add K visited.toFinset
                (fun x => (next g x).length) c hcK (fun h => hc (List.mem_toFinset.1 h))
              simp only at hsum
              omega
            · have hnil : next g c = [] := by
                by_contra hne
                exact hcK (hK c hne)
              have hsame : K \ insert c visited.toFinset = K \ visited.toFinset := by
                ext x
                simp only [Finset.mem_sdiff, Finset.mem_insert, not_or]
                constructor
                · rintro ⟨h1, _, h3⟩
                  exact ⟨h1, h3⟩
                · rintro ⟨h1, h3⟩
                  exact ⟨h1, fun h => hcK (h ▸ h1), h3⟩
              have hlen0 : (sched w1.tick (next g c)).length = 0 := by
                rw [hlen, hnil]
                rfl
              rw [hsame]
              omega

theorem visitOrder_reach (R : Node → Node → Prop) (start calls : List Node)
    (h : VisitOrder R start calls) :
    ∀ x, x ∈ calls → ∃ s0, s0 ∈ start ∧ ReflTransGen R s0 x := by
  have key : ∀ k pre x post, pre.length = k → calls = pre ++ x :: post →
      ∃ s0, s0 ∈ start ∧ ReflTransGen R s0 x := by
    intro k
    induction k using Nat.strong_induction_on with
    | _ k ih =>
      intro pre x post hk heq
      rcases h pre x post heq with h1 | ⟨v, hv, hvx⟩
      · exact ⟨x, h1, ReflTransGen.refl⟩
      · obtain ⟨p1, p2, hp⟩ := List.append_of_mem hv
        have hlt : p1.length < k := by
          rw [← hk, hp]
          simp
        obtain ⟨s0, hs0, hr⟩ := ih p1.length hlt p1 v (p2 ++ x :: post) rfl
          (by rw [heq, hp]; simp)
        exact ⟨s0, hs0, ReflTransGen.tail hr hvx⟩
  intro x hx
  obtain ⟨pre, post, heq⟩ := List.append_of_mem hx
  exact key pre.length pre x post rfl heq

theorem VisitInv.covers {R : Node → Node → Prop} {start visited calls : List Node}
    (h : VisitInv R start visited [] calls) :
    ∀ s0, s0 ∈ start → ∀ x, ReflTransGen R s0 x → x ∈ calls := by
  intro s0 hs0 x hr
  induction hr with
  | refl =>
    rcases h.start_cov s0 hs0 with h1 | h1
    · exact (h.calls_iff _).1 h1
    · simp at h1
  | tail _ hbc ih =>
    rcases h.closed _ ((h.calls_iff _).2 ih) _ hbc with h1 | h1
    · exact (h.calls_iff _).1 h1
    · simp at h1

theorem visitInv_init (R : Node → Node → Prop) (start : List Node) :
    VisitInv R start [] start.reverse [] :=
  ⟨fun _ => Iff.rfl, List.nodup_nil, fun x hx => Or.inr (List.mem_reverse.2 hx),
    fun v hv => by simp at hv, fun x hx => Or.inl (List.mem_reverse.1 hx),
    fun pre u post h => by simp at h⟩

end Dag

namespace Dag

open Relation

theorem Walk_spec {σ ε : Type} (sched : Sched) (hf : sched.Fair) (w : World)
    (start : List Node) (fn : WalkFunc σ ε) (hfn : ∀ n w s, (fn n w s).1.g = w.g) (s : σ)
    (fuel : Nat)
    (hfuel : start.length + (∑ x in (w.g.outEdges.map (fun entry => entry.1)).toFinset,
      (edgeMap.at w.g.outEdges x).length) ≤ fuel) :
    ∃ r, Walk fuel sched w start fn s = some r ∧ r.world.g = w.g ∧ r.calls.Nodup ∧
      (∀ x, x ∈ r.calls → ∃ s0, s0 ∈ start ∧ w.g.Reach s0 x) ∧
      (r.err = none → ∀ x, (∃ s0, s0 ∈ start ∧ w.g.Reach s0 x) → x ∈ r.calls) := by
  unfold Walk
  rw [walkLoop_eq_visitLoop]
  obtain ⟨r, h1, h2, h3, h4, h5⟩ := visitLoop_spec (fun g n => edgeMap.at g.outEdges n) sched
    hf w.g fn hfn start (w.g.outEdges.map (fun entry => entry.1)).toFinset
    (fun x hx => by
      obtain ⟨v, hv⟩ := List.exists_mem_of_ne_nil _ hx
      exact List.mem_toFinset.2 (edgeMap.mem_keys_of_mem_at _ _ _ hv))
    fuel w s [] start.reverse [] rfl (visitInv_init _ start)
    (by simpa using hfuel)
  refine ⟨r, h1, h2, h3, visitOrder_reach _ start r.calls h4, ?_⟩
  intro he x hx
  obtain ⟨visited1, hinv⟩ := h5 he
  obtain ⟨s0, hs0, hr⟩ := hx
  exact hinv.covers s0 hs0 x hr

/-- C23: for every graph (cyclic or not), every start list, every fair iteration order and
every visitor that never fails and leaves the graph as it is, `Walk` with enough fuel
returns, returns no error, and the visitor was invoked exactly once on each node reachable
from a start node by zero or more outgoing edges and on no other node. -/
theorem walk_visits_reachable {σ ε : Type} (sched : Sched) (hf : sched.Fair) (w : World)
    (start : List Node) (fn : WalkFunc σ ε) (hfn : ∀ n w s, (fn n w s).1.g = w.g)
    (hok : ∀ n w s, (fn n w s).2.2 = none) (s : σ) (fuel : Nat)
    (hfuel : start.length + (∑ x in (w.g.outEdges.map (fun entry => entry.1)).toFinset,
      (edgeMap.at w.g.outEdges x).length) ≤ fuel) :
    ∃ r, Walk fuel sched w start fn s = some r ∧ r.err = none ∧ r.calls.Nodup ∧
      ∀ x, x ∈ r.calls ↔ ∃ s0, s0 ∈ start ∧ w.g.Reach s0 x := by
  obtain ⟨r, h1, _, h3, h4, h5⟩ := Walk_spec sched hf w start fn hfn s fuel hfuel
  have herr : r.err = none := by
    have h6 := h1
    unfold Walk at h6
    rw [walkLoop_eq_visitLoop] at h6
    exact (replay_facts fn w s r (visitLoop_replay _ sched fn fuel w s [] _ [] r h6)).2.2 hok
  exact ⟨r, h1, herr, h3, fun x => ⟨h4 x, h5 herr x⟩⟩

theorem walk_visits_reachable_witness :
    Sched.backwards.Fair ∧ (∀ n w s, (logVisit n w s).1.g = w.g) ∧
      (∀ n w s, (logVisit n w s).2.2 = none) ∧
      [0].length + (∑ x in (cycleGraph.outEdges.map (fun entry => entry.1)).toFinset,
        (edgeMap.at cycleGraph.outEdges x).length) ≤ 4 ∧
      ∃ r, Walk 4 Sched.backwards ⟨cycleGraph, 0⟩ [0] logVisit [] = some r ∧ r.err = none ∧
        r.calls.Nodup ∧ ∀ x, x ∈ r.calls ↔ ∃ s0, s0 ∈ [0] ∧ cycleGraph.Reach s0 x :=
  ⟨Sched.fair_backwards, logVisit_graph, fun _ _ _ => rfl, by decide,
    walk_visits_reachable Sched.backwards Sched.fair_backwards ⟨cycleGraph, 0⟩ [0] logVisit
      logVisit_graph (fun _ _ _ => rfl) [] 4 (by decide)⟩

end Dag

namespace Dag

open Relation

theorem cycleGraph_valid : cycleGraph.Valid :=
  Graph.valid_run cycleOps Graph.empty cycleGraph Graph.valid_empty (by decide)

theorem forkGraph_valid : forkGraph.Valid :=
  Graph.valid_run forkOps Graph.empty forkGraph Graph.valid_empty (by decide)

theorem WalkReverse_spec {σ ε : Type} (sched : Sched) (hf : sched.Fair) (w : World)
    (start : List Node) (fn : WalkFunc σ ε) (hfn : ∀ n w s, (fn n w s).1.g = w.g) (s : σ)
    (fuel : Nat)
    (hfuel : start.length + (∑ x in (w.g.inEdges.map (fun entry => entry.1)).toFinset,
      (edgeMap.at w.g.inEdges x).length) ≤ fuel) :
    ∃ r, WalkReverse fuel sched w start fn s = some r ∧ r.world.g = w.g ∧ r.calls.Nodup ∧
      VisitOrder (fun v x => x ∈ edgeMap.at w.g.inEdges v) start r.calls ∧
      (r.err = none →
        ∃ visited1, VisitInv (fun v x => x ∈ edgeMap.at w.g.inEdges v) start visited1 []
          r.calls) := by
  unfold WalkReverse
  rw [walkReverseLoop_eq_visitLoop]
  exact visitLoop_spec (fun g n => edgeMap.at g.inEdges n) sched
    hf w.g fn hfn start (w.g.inEdges.map (fun entry => entry.1)).toFinset
    (fun x hx => by
      obtain ⟨v, hv⟩ := List.exists_mem_of_ne_nil _ hx
      exact List.mem_toFinset.2 (edgeMap.mem_keys_of_mem_at _ _ _ hv))
    fuel w s [] start.reverse [] rfl (visitInv_init _ start)
    (by simpa using hfuel)

theorem Walk_stops {σ ε : Type} (fuel : Nat) (sched : Sched) (w : World) (start : List Node)
    (fn : WalkFunc σ ε) (s : σ) (r : WalkResult σ ε)
    (h : Walk fuel sched w start fn s = some r) : StopsAtFirstError fn w s r := by
  unfold Walk at h
  rw [walkLoop_eq_visitLoop] at h
  exact replay_facts fn w s r (visitLoop_replay _ sched fn fuel w s [] _ [] r h)

theorem WalkReverse_stops {σ ε : Type} (fuel : Nat) (sched : Sched) (w : World)
    (start : List Node) (fn : WalkFunc σ ε) (s : σ) (r : WalkResult σ ε)
    (h : WalkReverse fuel sched w start fn s = some r) : StopsAtFirstError fn w s r := by
  unfold WalkReverse at h
  rw [walkReverseLoop_eq_visitLoop] at h
  exact replay_facts fn w s r (visitLoop_replay _ sched fn fuel w s [] _ [] r h)

theorem WalkTopological_stops {σ ε : Type} (fuel : Nat) (sched : Sched) (w : World)
    (fn : WalkFunc σ ε) (s : σ) (r : WalkResult σ ε)
    (h : WalkTopological fuel sched w fn s = some r) :
    StopsAtFirstError fn ⟨w.g, w.tick + 1⟩ s r := by
  unfold WalkTopological at h
  exact replay_facts fn _ s r (topoLoop_replay sched fn fuel _ s [] _ _ [] r h)

/-- C24: for every fair iteration order and every visitor that leaves the graph as it is,
each of `Walk`, `WalkReverse` and (on a graph that satisfies the graph invariants)
`WalkTopological` returns when given enough fuel, and its result is the one of invoking
the visitor on the visited nodes in order up to the first error: an error it returns is the
error the visitor returned on the last visited node, nothing was invoked after it, and a
visitor that never returns an error makes the walk return nil. -/
theorem walks_stop_at_first_error {σ ε : Type} (sched : Sched) (hf : sched.Fair) (w : World)
    (hv : w.g.Valid) (start : List Node) (fn : WalkFunc σ ε)
    (hfn : ∀ n w s, (fn n w s).1.g = w.g) (s : σ) (fuel : Nat)
    (hfuelOut : start.length + (∑ x in (w.g.outEdges.map (fun entry => entry.1)).toFinset,
      (edgeMap.at w.g.outEdges x).length) ≤ fuel)
    (hfuelIn : start.length + (∑ x in (w.g.inEdges.map (fun entry => entry.1)).toFinset,
      (edgeMap.at w.g.inEdges x).length) ≤ fuel)
    (hfuelTopo : 2 * w.g.nodes.length ≤ fuel) :
    (∃ r, Walk fuel sched w start fn s = some r ∧ StopsAtFirstError fn w s r) ∧
    (∃ r, WalkReverse fuel sched w start fn s = some r ∧ StopsAtFirstError fn w s r) ∧
    (∃ r, WalkTopological fuel sched w fn s = some r ∧
      StopsAtFirstError fn ⟨w.g, w.tick + 1⟩ s r) := by
  obtain ⟨r1, h1, _⟩ := Walk_spec sched hf w start fn hfn s fuel hfuelOut
  obtain ⟨r2, h2, _⟩ := WalkReverse_spec sched hf w start fn hfn s fuel hfuelIn
  obtain ⟨r3, h3, _⟩ := WalkTopological_spec sched hf w hv fn hfn s fuel hfuelTopo
  exact ⟨⟨r1, h1, Walk_stops fuel sched w start fn s r1 h1⟩,
    ⟨r2, h2, WalkReverse_stops fuel sched w start fn s r2 h2⟩,
    ⟨r3, h3, WalkTopological_stops fuel sched w fn s r3 h3⟩⟩

theorem failAt_graph (bad n : Node) (w : World) (s : List Node) :
    (failAt bad n w s).1.g = w.g :=
  rfl

theorem walks_stop_at_first_error_witness :
    Sched.inOrder.Fair ∧ scenarioS3.Valid ∧ (∀ n w s, (failAt 2 n w s).1.g = w.g) ∧
    [0].length + (∑ x in (scenarioS3.outEdges.map (fun entry => entry.1)).toFinset,
      (edgeMap.at scenarioS3.outEdges x).length) ≤ 8 ∧
    [0].length + (∑ x in (scenarioS3.inEdges.map (fun entry => entry.1)).toFinset,
      (edgeMap.at scenarioS3.inEdges x).length) ≤ 8 ∧
    2 * scenarioS3.nodes.length ≤ 8 ∧
    (∃ r, Walk 8 Sched.inOrder ⟨scenarioS3, 0⟩ [0] (failAt 2) [] = some r ∧
      StopsAtFirstError (failAt 2) ⟨scenarioS3, 0⟩ [] r) ∧
    (∃ r, WalkReverse 8 Sched.inOrder ⟨scenarioS3, 0⟩ [0] (failAt 2) [] = some r ∧
      StopsAtFirstError (failAt 2) ⟨scenarioS3, 0⟩ [] r) ∧
    (∃ r, WalkTopological 8 Sched.inOrder ⟨scenarioS3, 0⟩ (failAt 2) [] = some r ∧
      StopsAtFirstError (failAt 2) ⟨scenarioS3, 0 + 1⟩ [] r) :=
  ⟨Sched.fair_inOrder, scenarioS3_valid, failAt_graph 2, by decide, by decide, by decide,
    walks_stop_at_first_error Sched.inOrder Sched.fair_inOrder ⟨scenarioS3, 0⟩
      scenarioS3_valid [0] (failAt 2) (failAt_graph 2) [] 8 (by decide) (by decide)
      (by decide)⟩

end Dag

namespace Dag

open Relation

theorem topoLaw_not_on_cycle (g : Graph) (calls : List Node) (hlaw : TopoLaw g calls)
    (hnd : calls.Nodup) {c : Node} (hcycle : TransGen g.edge c c) : c ∉ calls := by
  intro hc
  obtain ⟨p, q, hsplit⟩ := List.append_of_mem hc
  have hp : c ∈ p := topoLaw_path g calls hlaw hcycle p q hsplit
  rw [hsplit] at hnd
  have h1 := (List.nodup_append.1 hnd).2.2
  exact h1 hp (List.mem_cons_self _ _)

theorem topoLaw_reach_mem (g : Graph) (calls : List Node) (hlaw : TopoLaw g calls)
    {n c : Node} (hreach : ReflTransGen g.edge n c) (hn : n ∈ calls) : c ∈ calls := by
  induction hreach with
  | refl => exact hn
  | tail _ hbc ih =>
    obtain ⟨p, q, hsplit⟩ := List.append_of_mem ih
    have h1 := hlaw p _ q hsplit _ hbc
    rw [hsplit]
    exact List.mem_append_left _ h1

/-- C30: for every graph that satisfies the graph invariants (mirror-edge and
edge-endpoint invariants among them), every fair iteration order and every visitor that
never fails and leaves the graph as it is, `WalkTopological` with enough fuel returns with
no error, visits no node twice, leaves the graph as it was, and visits every node of the
graph if and only if the graph is acyclic; a node on a cycle (a self-edge included), or
from which such a node is reachable, is never visited. -/
theorem topological_complete_iff_acyclic {σ ε : Type} (sched : Sched) (hf : sched.Fair)
    (w : World) (hv : w.g.Valid) (fn : WalkFunc σ ε) (hfn : ∀ n w s, (fn n w s).1.g = w.g)
    (hok : ∀ n w s, (fn n w s).2.2 = none) (s : σ) (fuel : Nat)
    (hfuel : 2 * w.g.nodes.length ≤ fuel) :
    ∃ r, WalkTopological fuel sched w fn s = some r ∧ r.err = none ∧ r.calls.Nodup ∧
      r.world.g = w.g ∧
      ((∀ n, n ∈ w.g.nodes → n ∈ r.calls) ↔ w.g.Acyclic) ∧
      (∀ n c, w.g.Reach n c → w.g.Path c c → n ∉ r.calls) := by
  obtain ⟨r, h1, h2, h3, h4, h5⟩ := WalkTopological_spec sched hf w hv fn hfn s fuel hfuel
  have herr : r.err = none := (WalkTopological_stops fuel sched w fn s r h1).2.2 hok
  refine ⟨r, h1, herr, h4, h2, ⟨?_, ?_⟩, ?_⟩
  · intro hall x hx
    have hmem : x ∈ w.g.nodes := transGen_mem_left (fun a b hab => hv.endpoints a b hab) hx
    exact topoLaw_not_on_cycle w.g r.calls h3 h4 hx (hall x hmem)
  · intro hac
    obtain ⟨visited1, rd1, hinv⟩ := h5 herr
    exact hinv.complete hv hac
  · intro n c hreach hcycle hn
    exact topoLaw_not_on_cycle w.g r.calls h3 h4 hcycle
      (topoLaw_reach_mem w.g r.calls h3 hreach hn)

theorem topological_complete_iff_acyclic_witness :
    Sched.inOrder.Fair ∧ cycleGraph.Valid ∧ (∀ n w s, (logVisit n w s).1.g = w.g) ∧
      (∀ n w s, (logVisit n w s).2.2 = none) ∧ 2 * cycleGraph.nodes.length ≤ 8 ∧
      ∃ r, WalkTopological 8 Sched.inOrder ⟨cycleGraph, 0⟩ logVisit [] = some r ∧
        r.err = none ∧ r.calls.Nodup ∧ r.world.g = cycleGraph ∧
        ((∀ n, n ∈ cycleGraph.nodes → n ∈ r.calls) ↔ cycleGraph.Acyclic) ∧
        (∀ n c, cycleGraph.Reach n c → cycleGraph.Path c c → n ∉ r.calls) :=
  ⟨Sched.fair_inOrder, cycleGraph_valid, logVisit_graph, fun _ _ _ => rfl, by decide,
    topological_complete_iff_acyclic Sched.inOrder Sched.fair_inOrder ⟨cycleGraph, 0⟩
      cycleGraph_valid logVisit logVisit_graph (fun _ _ _ => rfl) [] 8 (by decide)⟩

end Dag

namespace Dag

open Relation

/-! ## `WalkReverse` from the leaves -/

theorem exists_leaf_reach (g : Graph) (hv : g.Valid) (hac : g.Acyclic) :
    ∀ n, n ∈ g.nodes → ∃ l, l ∈ g.nodes ∧ edgeMap.at g.outEdges l = [] ∧ g.Reach n l := by
  classical
  have key : ∀ k n, (g.nodes.toFinset.filter (fun y => TransGen g.edge n y)).card = k →
      n ∈ g.nodes → ∃ l, l ∈ g.nodes ∧ edgeMap.at g.outEdges l = [] ∧ g.Reach n l := by
    intro k
    induction k using Nat.strong_induction_on with
    | _ k ih =>
      intro n hk hn
      by_cases hout : edgeMap.at g.outEdges n = []
      · exact ⟨n, hn, hout, ReflTransGen.refl⟩
      · obtain ⟨v, hnv⟩ := List.exists_mem_of_ne_nil _ hout
        have hedge : g.edge n v := hnv
        obtain ⟨l, hl1, hl2, hl3⟩ := ih _
          (hk ▸ card_descendants_lt (fun a b hab => hv.endpoints a b hab) hac
            (TransGen.single hedge)) v rfl (hv.endpoints n v hedge).2
        exact ⟨l, hl1, hl2, ReflTransGen.head hedge hl3⟩
  exact fun n hn => key _ n rfl hn

theorem mem_Leaves (ord : List Node → List Node) (hord : ∀ l, (ord l).Perm l) (g : Graph)
    (n : Node) : n ∈ Leaves ord g ↔ n ∈ g.nodes ∧ edgeMap.at g.outEdges n = [] := by
  unfold Leaves
  rw [List.mem_filter, (hord _).mem_iff]
  simp

theorem length_Leaves_le (ord : List Node → List Node) (hord : ∀ l, (ord l).Perm l)
    (g : Graph) : (Leaves ord g).length ≤ g.nodes.length := by
  unfold Leaves
  exact (List.length_filter_le _ _).trans (Nat.le_of_eq (hord _).length_eq)

/-- C26, what the code does: in the graph with the edges 0 -> 1 and 0 -> 2, a graph
without cycle that satisfies the graph invariants, `WalkReverse(g, Leaves(g), fn)` does not
walk in reverse-dependency order, as the comment of `Leaves` says it would: iterating the
maps in order it visits the leaf 2, then node 0, and only then the leaf 1, and iterating
them backwards it visits 1, then 0, then 2, so either way node 0 is visited before one of
the nodes it depends on.  `WalkTopological` on the same graph visits 2, 1, 0, the order in
which every node comes after all the nodes it depends on. -/
theorem walkReverse_leaves_order_broken :
    forkGraph.Valid ∧ forkGraph.Acyclic ∧ Sched.inOrder.Fair ∧ Sched.backwards.Fair ∧
      forkGraph.edge 0 1 ∧ forkGraph.edge 0 2 ∧
      (walkReverseLeaves 8 Sched.inOrder ⟨forkGraph, 0⟩ logVisit []).map (fun r => r.calls) =
        some [2, 0, 1] ∧
      ¬ TopoLaw forkGraph [2, 0, 1] ∧
      (walkReverseLeaves 8 Sched.backwards ⟨forkGraph, 0⟩ logVisit []).map
        (fun r => r.calls) = some [1, 0, 2] ∧
      ¬ TopoLaw forkGraph [1, 0, 2] ∧
      (WalkTopological 8 Sched.inOrder ⟨forkGraph, 0⟩ logVisit []).map (fun r => r.calls) =
        some [2, 1, 0] ∧
      TopoLaw forkGraph [2, 1, 0] := by
  have htopo : (WalkTopological 8 Sched.inOrder ⟨forkGraph, 0⟩ logVisit []).map
      (fun r => r.calls) = some [2, 1, 0] := by decide
  refine ⟨forkGraph_valid, ?_, Sched.fair_inOrder, Sched.fair_backwards, by decide,
    by decide, by decide, ?_, by decide, ?_, htopo, ?_⟩
  · exact acyclic_of_rank_pairs forkGraph (fun n => if n = 0 then 1 else 0) (by decide)
  · intro h
    have h1 := h [2] 0 [1] rfl 1 (by decide)
    simp at h1
  · intro h
    have h1 := h [1] 0 [2] rfl 2 (by decide)
    simp at h1
  · obtain ⟨r, h1, _, h3, _⟩ := WalkTopological_spec Sched.inOrder Sched.fair_inOrder
      ⟨forkGraph, 0⟩ forkGraph_valid logVisit logVisit_graph [] 8 (by decide)
    rw [h1] at htopo
    simp only [Option.map_some', Option.some.injEq] at htopo
    rw [← htopo]
    exact h3

/-- What `WalkReverse(g, Leaves(g), fn)` does give: for every graph without cycle that
satisfies the graph invariants, every fair iteration order and every visitor that never
fails and leaves the graph as it is, it returns with enough fuel, with no error, and visits
every node of the graph exactly once and nothing else; every visited node is a leaf or
comes after at least one of the nodes it depends on. -/
theorem walkReverse_from_leaves {σ ε : Type} (sched : Sched) (hf : sched.Fair) (w : World)
    (hv : w.g.Valid) (hac : w.g.Acyclic) (fn : WalkFunc σ ε)
    (hfn : ∀ n w s, (fn n w s).1.g = w.g) (hok : ∀ n w s, (fn n w s).2.2 = none) (s : σ)
    (fuel : Nat)
    (hfuel : w.g.nodes.length + (∑ x in (w.g.inEdges.map (fun entry => entry.1)).toFinset,
      (edgeMap.at w.g.inEdges x).length) ≤ fuel) :
    ∃ r, walkReverseLeaves fuel sched w fn s = some r ∧ r.err = none ∧ r.calls.Nodup ∧
      (∀ x, x ∈ r.calls ↔ x ∈ w.g.nodes) ∧
      ∀ pre u post, r.calls = pre ++ u :: post →
        edgeMap.at w.g.outEdges u = [] ∨ ∃ v, v ∈ pre ∧ w.g.edge u v := by
  have hlen := length_Leaves_le (sched w.tick) (hf w.tick) w.g
  obtain ⟨r, h1, _, h3, h4, h5⟩ := WalkReverse_spec sched hf ⟨w.g, w.tick + 1⟩
    (Leaves (sched w.tick) w.g) fn hfn s fuel (by
      show (Leaves (sched w.tick) w.g).length +
        (∑ x in (w.g.inEdges.map (fun entry => entry.1)).toFinset,
          (edgeMap.at w.g.inEdges x).length) ≤ fuel
      omega)
  have herr : r.err = none := (WalkReverse_stops fuel sched _ _ fn s r h1).2.2 hok
  have hR : ∀ v x, x ∈ edgeMap.at w.g.inEdges v ↔ w.g.edge x v :=
    fun v x => (hv.mirror x v).symm
  refine ⟨r, h1, herr, h3, ?_, ?_⟩
  · intro x
    constructor
    · intro hx
      obtain ⟨s0, hs0, hr⟩ := visitOrder_reach _ _ r.calls h4 x hx
      have hs1 : s0 ∈ w.g.nodes := ((mem_Leaves _ (hf w.tick) w.g s0).1 hs0).1
      clear hx
      induction hr with
      | refl => exact hs1
      | tail _ hbc _ => exact (hv.endpoints _ _ ((hR _ _).1 hbc)).1
    · intro hx
      obtain ⟨l, hl1, hl2, hl3⟩ := exists_leaf_reach w.g hv hac x hx
      obtain ⟨visited1, hinv⟩ := h5 herr
      have hl4 : l ∈ Leaves (sched w.tick) w.g := (mem_Leaves _ (hf w.tick) w.g l).2 ⟨hl1, hl2⟩
      apply hinv.covers l hl4 x
      have hswap := ReflTransGen.swap hl3
      exact ReflTransGen.mono (fun a b hab => (hR a b).2 hab) hswap
  · intro pre u post hsplit
    rcases h4 pre u post hsplit with h6 | ⟨v, h6, h7⟩
    · exact Or.inl ((mem_Leaves _ (hf w.tick) w.g u).1 h6).2
    · exact Or.inr ⟨v, h6, (hR v u).1 h7⟩

theorem walkReverse_from_leaves_witness :
    Sched.inOrder.Fair ∧ forkGraph.Valid ∧ forkGraph.Acyclic ∧
      (∀ n w s, (logVisit n w s).1.g = w.g) ∧ (∀ n w s, (logVisit n w s).2.2 = none) ∧
      forkGraph.nodes.length + (∑ x in (forkGraph.inEdges.map (fun entry => entry.1)).toFinset,
        (edgeMap.at forkGraph.inEdges x).length) ≤ 8 ∧
      ∃ r, walkReverseLeaves 8 Sched.inOrder ⟨forkGraph, 0⟩ logVisit [] = some r ∧
        r.err = none ∧ r.calls.Nodup ∧ (∀ x, x ∈ r.calls ↔ x ∈ forkGraph.nodes) ∧
        ∀ pre u post, r.calls = pre ++ u :: post →
          edgeMap.at forkGraph.outEdges u = [] ∨ ∃ v, v ∈ pre ∧ forkGraph.edge u v :=
  ⟨Sched.fair_inOrder, forkGraph_valid,
    acyclic_of_rank_pairs forkGraph (fun n => if n = 0 then 1 else 0) (by decide),
    logVisit_graph, fun _ _ _ => rfl, by decide,
    walkReverse_from_leaves Sched.inOrder Sched.fair_inOrder ⟨forkGraph, 0⟩ forkGraph_valid
      (acyclic_of_rank_pairs forkGraph (fun n => if n = 0 then 1 else 0) (by decide))
      logVisit logVisit_graph (fun _ _ _ => rfl) [] 8 (by decide)⟩

end Dag

namespace Gragent

open Dag Relation

/-! ## Cycles in the wired graph -/

/-- Every edge of the wired graph goes from the root to a component, or from a component
to the component registered under the dotted text of a reference its body reads. -/
theorem loadWire_edges_only (sched : Sched) (hf : sched.Fair) (quote : String → String)
    (root : rootBlock) :
    ∃ st, loadWire sched quote root = Outcome.done st ∧
      ∀ x y, st.world.g.edge x y →
        ((x = rootNode ∧ ∃ j c, root.declarations[j]? = some c ∧ y = j + 1) ∨
          ∃ i origin j target t ref, root.declarations[i]? = some origin ∧
            root.declarations[j]? = some target ∧ x = i + 1 ∧ y = j + 1 ∧
            t ∈ expressionsFromSyntaxBody origin.body ∧
            (parseReference quote t).1 = some ref ∧
            reference.String target.id = reference.String ref) := by
  obtain ⟨st1, hd, hinv, hnext, _, _, hidkeep, hsplit⟩ :=
    declareAll_spec root.declarations LoadState.init loadInv_init
  have hedges1 := declareAll_edges root.declarations LoadState.init loadInv_init st1 hd
  have hkeys := declareAll_keys root.declarations LoadState.init loadInv_init st1 hd
  have hperm := hf st1.world.tick (st1.bodyLookup.map (fun entry => entry.1))
  have horigins : ∀ o, o ∈ sched st1.world.tick (st1.bodyLookup.map (fun entry => entry.1)) →
      o ∈ st1.world.g.nodes := by
    intro o ho
    obtain ⟨⟨k, body⟩, hk, hk2⟩ := List.mem_map.1 (hperm.mem_iff.1 ho)
    exact (hinv.nodes o).2 (hk2 ▸ hinv.keys k body hk)
  have hids : ∀ key c, st1.idNodeMap key = some c → c ∈ st1.world.g.nodes :=
    fun key c hk => (hinv.nodes c).2 (hinv.ids key c hk)
  obtain ⟨g1, h1, _, _, _, _⟩ := wireAll_spec quote st1
    (sched st1.world.tick (st1.bodyLookup.map (fun entry => entry.1))) st1.world.g hinv.valid
    horigins hids
  have hconv := wireAll_edges quote st1
    (sched st1.world.tick (st1.bodyLookup.map (fun entry => entry.1))) st1.world.g g1 h1
    hinv.valid horigins hids
  have hinit : LoadState.init.next = 1 := rfl
  rw [hinit] at hnext hedges1 hkeys hsplit
  refine ⟨{ st1 with world := ⟨g1, st1.world.tick + 1⟩ }, ?_, ?_⟩
  · simp only [loadWire, hd, h1]
  intro x y hxy
  rcases hconv x y hxy with hold | ⟨hx, body, hbody, t, ht, ref, hparse, hidy⟩
  · rcases (hedges1 x y).1 hold with h0 | ⟨hx, hy1, hy2⟩
    · exact absurd h0 (init_no_edges x y)
    · have hj : y - 1 < root.declarations.length := by
        simp only [Node] at *
        omega
      refine Or.inl ⟨hx, y - 1, root.declarations[y - 1], List.getElem?_eq_getElem hj, ?_⟩
      simp only [Node] at *
      omega
  · obtain ⟨⟨k, b0⟩, hk, hk2⟩ := List.mem_map.1 (hperm.mem_iff.1 hx)
    simp only at hk2
    subst hk2
    have hk1 : 1 ≤ k := by
      rcases hkeys k b0 hk with h0 | h0
      · simp [LoadState.init] at h0
      · exact h0
    have hk3 : k < 1 + root.declarations.length := hnext ▸ hinv.keys k b0 hk
    have hi : k - 1 < root.declarations.length := by
      simp only [Node] at *
      omega
    obtain ⟨preO, postO, hO, hlenO⟩ := split_of_getElem? root.declarations (k - 1)
      root.declarations[k - 1] (List.getElem?_eq_getElem hi)
    obtain ⟨hbodyO, _, _⟩ := hsplit preO _ postO hO
    have hkO : 1 + preO.length = k := by
      rw [hlenO]
      simp only [Node] at *
      omega
    rw [hkO, hbody, Option.some.injEq] at hbodyO
    have hdecl : ∃ d, d ∈ root.declarations ∧
        reference.String d.id = reference.String ref := by
      by_contra hnone
      have hkeep := hidkeep (reference.String ref)
        (fun d hd hs => hnone ⟨d, hd, hs⟩)
      rw [hidy] at hkeep
      simp [LoadState.init] at hkeep
    obtain ⟨preT, tgt, postT, hT, hsame, hlast⟩ :=
      exists_last_split (fun d => reference.String d.id = reference.String ref)
        root.declarations hdecl
    obtain ⟨_, _, hidT⟩ := hsplit preT tgt postT hT
    have hidT2 := hidT (fun e he => by rw [hsame]; exact hlast e he)
    rw [hsame, hidy, Option.some.injEq] at hidT2
    have htO : t ∈ expressionsFromSyntaxBody (root.declarations[k - 1]).body := by
      rw [← hbodyO]
      exact ht
    refine Or.inr ⟨k - 1, root.declarations[k - 1], preT.length, tgt, t, ref,
      List.getElem?_eq_getElem hi, ?_, ?_, ?_, htO, hparse, hsame⟩
    · rw [hT]
      exact getElem?_of_split preT postT tgt
    · simp only [Node] at *
      omega
    · rw [hidT2, Nat.add_comm]

/-- C21, the claim as stated fails: for the single block `scrape "s"` whose `targets`
reads `scrape.s.targets`, the wiring of `Load` ends normally and leaves the self-edge
1 -> 1 on the component, so the wired graph has a cycle. -/
theorem load_wired_cycle_counterexample :
    ∃ st, loadWire Sched.inOrder quotePlain scenarioSelf = Outcome.done st ∧
      st.world.g = ⟨[0, 1], [(0, [1]), (1, [1])], [(1, [0, 1])]⟩ ∧
      st.world.g.edge 1 1 ∧ ¬ st.world.g.Acyclic := by
  refine ⟨_, rfl, rfl, ?_, ?_⟩
  · show Graph.edge ⟨[0, 1], [(0, [1]), (1, [1])], [(1, [0, 1])]⟩ 1 1
    decide
  · intro hac
    exact hac 1 (TransGen.single (by
      show Graph.edge ⟨[0, 1], [(0, [1]), (1, [1])], [(1, [0, 1])]⟩ 1 1
      decide))

/-- C21, amended: for every configuration and every fair iteration order the wiring of
`Load` ends normally and no edge of the wired graph ends at the root, so the root has no
self-edge and lies on no cycle; and when every reference read by a body names, by its
dotted text, only blocks constructed earlier than the block of that body, the wired graph
has no self-edge and no cycle. -/
theorem load_wired_acyclic (sched : Sched) (hf : sched.Fair) (quote : String → String)
    (root : rootBlock) :
    ∃ st, loadWire sched quote root = Outcome.done st ∧
      (∀ x, ¬ st.world.g.edge x rootNode) ∧
      ((∀ (i : Nat) (origin : Declaration) (j : Nat) (target : Declaration) (t : Traversal)
          (ref : reference), root.declarations[i]? = some origin →
          root.declarations[j]? = some target → t ∈ expressionsFromSyntaxBody origin.body →
          (parseReference quote t).1 = some ref →
          reference.String target.id = reference.String ref → j < i) →
        (∀ x, ¬ st.world.g.edge x x) ∧ st.world.g.Acyclic) := by
  obtain ⟨st, hst, honly⟩ := loadWire_edges_only sched hf quote root
  refine ⟨st, hst, ?_, ?_⟩
  · intro x hx
    rcases honly x rootNode hx with ⟨_, j, c, _, hy⟩ | ⟨i, o, j, d, t, ref, _, _, _, hy, _⟩
    · exact absurd hy (by simp [rootNode])
    · exact absurd hy (by simp [rootNode])
  · intro hearlier
    have hac : st.world.g.Acyclic := by
      apply acyclic_of_rank (fun x => if x = 0 then root.declarations.length + 1 else x)
      intro u v huv
      rcases honly u v huv with
        ⟨hu, j, c, hj, hv⟩ | ⟨i, o, j, d, t, ref, hi, hj, hu, hv, ht, hp, hs⟩
      · obtain ⟨hjlt, _⟩ := List.getElem?_eq_some.1 hj
        subst hu hv
        simp only [rootNode, Nat.add_one_ne_zero, if_false, if_true]
        omega
      · have hlt := hearlier i o j d t ref hi hj ht hp hs
        subst hu hv
        simp only [Nat.add_one_ne_zero, if_false]
        omega
    exact ⟨fun x hx => hac x (TransGen.single hx), hac⟩

theorem scenarioS2_earlier (i : Nat) (origin : Declaration) (j : Nat) (target : Declaration)
    (t : Traversal) (ref : reference) (hi : scenarioS2.declarations[i]? = some origin)
    (hj : scenarioS2.declarations[j]? = some target)
    (ht : t ∈ expressionsFromSyntaxBody origin.body)
    (hp : (parseReference quotePlain t).1 = some ref)
    (hs : reference.String target.id = reference.String ref) : j < i := by
  have hdecls : scenarioS2.declarations =
      [discoveryBlock.declaration ⟨"static", "a", SyntaxBody.single "hosts" []⟩,
        discoveryBlock.declaration
          ⟨"chain", "b", SyntaxBody.single "input" [traversalStaticA]⟩] := rfl
  rw [hdecls] at hi hj
  match i, hi with
  | 0, hi =>
    simp only [List.getElem?_cons_zero, Option.some.injEq] at hi
    subst hi
    simp [discoveryBlock.declaration, SyntaxBody.single, expressionsFromSyntaxBody,
      expressionsFromBlocks] at ht
  | 1, hi =>
    simp only [List.getElem?_cons_succ, List.getElem?_cons_zero, Option.some.injEq] at hi
    subst hi
    simp [discoveryBlock.declaration, SyntaxBody.single, expressionsFromSyntaxBody,
      expressionsFromBlocks] at ht
    subst ht
    have href : (parseReference quotePlain traversalStaticA).1 =
        some ["discovery", "static", "a"] := by decide
    rw [href, Option.some.injEq] at hp
    subst hp
    match j, hj with
    | 0, _ => exact Nat.zero_lt_one
    | 1, hj =>
      simp only [List.getElem?_cons_succ, List.getElem?_cons_zero, Option.some.injEq] at hj
      subst hj
      exact absurd hs (by decide)
    | k + 2, hj => simp at hj
  | k + 2, hi => simp at hi

theorem load_wired_acyclic_witness :
    Sched.inOrder.Fair ∧
      ∃ st, loadWire Sched.inOrder quotePlain scenarioS2 = Outcome.done st ∧
        (∀ x, ¬ st.world.g.edge x rootNode) ∧ (∀ x, ¬ st.world.g.edge x x) ∧
        st.world.g.Acyclic :=
  ⟨Sched.fair_inOrder,
    (load_wired_acyclic Sched.inOrder Sched.fair_inOrder quotePlain scenarioS2).imp
      (fun _ h => ⟨h.1, h.2.1, h.2.2 scenarioS2_earlier⟩)⟩

end Gragent

namespace Dag

/-! ## The text of `MarshalDOT` -/

theorem splitLines_ne_nil (s : List Char) : splitLines s ≠ [] := by
  cases s with
  | nil => simp [splitLines]
  | cons c cs =>
    unfold splitLines
    split
    · simp
    · split <;> simp

theorem splitLines_cons_of_ne (c : Char) (cs : List Char) (hc : c ≠ '\n') :
    ∃ seg rest, splitLines cs = seg :: rest ∧ splitLines (c :: cs) = (c :: seg) :: rest := by
  cases h : splitLines cs with
  | nil => exact absurd h (splitLines_ne_nil cs)
  | cons seg rest =>
    refine ⟨seg, rest, rfl, ?_⟩
    simp [splitLines, hc, h]

theorem splitLines_line (a b : List Char) (h : '\n' ∉ a) :
    splitLines (a ++ '\n' :: b) = a :: splitLines b := by
  induction a with
  | nil => simp [splitLines]
  | cons c a ih =>
    have hc : c ≠ '\n' := fun hc => h (hc ▸ List.mem_cons_self _ _)
    have h1 := ih (fun hm => h (List.mem_cons_of_mem _ hm))
    obtain ⟨seg, rest, h3, h4⟩ := splitLines_cons_of_ne c (a ++ '\n' :: b) hc
    rw [List.cons_append, h4]
    rw [h1] at h3
    simp only [List.cons.injEq] at h3
    rw [← h3.1, ← h3.2]

theorem splitLines_flatten (ls : List (List Char)) (h : ∀ l, l ∈ ls → '\n' ∉ l)
    (tail : List Char) :
    splitLines ((ls.map (fun l => l ++ ['\n'])).flatten ++ tail) = ls ++ splitLines tail := by
  induction ls with
  | nil => rfl
  | cons l ls ih =>
    simp only [List.map_cons, List.flatten_cons, List.append_assoc, List.singleton_append,
      List.cons_append]
    rw [splitLines_line l _ (h l (List.mem_cons_self _ _)), List.nil_append,
      ih (fun x hx => h x (List.mem_cons_of_mem _ hx))]

theorem foldl_append_data {α : Type} (f : α → String) (l : List α) :
    ∀ buf : String, (l.foldl (fun b x => b ++ f x) buf).data =
      buf.data ++ (l.map (fun x => (f x).data)).flatten := by
  induction l with
  | nil => intro buf; simp
  | cons x l ih =>
    intro buf
    rw [List.foldl_cons, ih]
    simp [String.data_append]

end Dag

namespace Dag

/-- The lines `MarshalDOT` writes, before the newline that ends each of them. -/
theorem MarshalDOT_data (name : Node → String) (quote : String → String)
    (ordN ordK : List Node → List Node) (ordV : Node → List Node → List Node) (g : Graph) :
    (MarshalDOT name quote ordN ordK ordV g).data =
      ((["digraph \x7b", "\trankdir=" ++ quote "LR", "", "\t// Vertices:"] ++
        (g.Nodes ordN).map (fun v => "\t" ++ quote (name v)) ++
        ["", "\t// Edges:"] ++
        (g.Edges ordK ordV).map (fun e =>
          "\t" ++ quote (name e.From) ++ " -> " ++ quote (name e.To)) ++
        ["\x7d"]).map (fun l => l.data ++ ['\n'])).flatten := by
  unfold MarshalDOT
  simp only [String.data_append, foldl_append_data, List.map_append, List.flatten_append,
    List.map_cons, List.map_nil, List.flatten_cons, List.flatten_nil, List.append_nil,
    List.map_map, List.append_assoc]
  simp [Function.comp_def]

end Dag

namespace Dag

theorem map_data_newline (texts : List String) :
    texts.map (fun l => l.data ++ ['\n']) =
      (texts.map String.data).map (fun l => l ++ ['\n']) := by
  simp [List.map_map, Function.comp_def]

theorem MarshalDOT_lines (name : Node → String) (quote : String → String)
    (hLR : '\n' ∉ (quote "LR").data) (hq : ∀ v, '\n' ∉ (quote (name v)).data)
    (ordN ordK : List Node → List Node) (ordV : Node → List Node → List Node) (g : Graph) :
    lines (MarshalDOT name quote ordN ordK ordV g) =
      ["digraph \x7b", "\trankdir=" ++ quote "LR", "", "\t// Vertices:"] ++
        (g.Nodes ordN).map (fun v => "\t" ++ quote (name v)) ++
        ["", "\t// Edges:"] ++
        (g.Edges ordK ordV).map (fun e =>
          "\t" ++ quote (name e.From) ++ " -> " ++ quote (name e.To)) ++
        ["\x7d", ""] := by
  have hfree : ∀ l, l ∈ (["digraph \x7b", "\trankdir=" ++ quote "LR", "", "\t// Vertices:"] ++
        (g.Nodes ordN).map (fun v => "\t" ++ quote (name v)) ++
        ["", "\t// Edges:"] ++
        (g.Edges ordK ordV).map (fun e =>
          "\t" ++ quote (name e.From) ++ " -> " ++ quote (name e.To)) ++
        ["\x7d"]).map String.data → '\n' ∉ l := by
    intro l hl
    simp only [List.mem_map, List.mem_append, List.mem_cons, List.mem_singleton,
      List.not_mem_nil, or_false] at hl
    obtain ⟨text, ht, rfl⟩ := hl
    rcases ht with (((((rfl | rfl | rfl | rfl) | ⟨v, _, rfl⟩) | (rfl | rfl)) |
      ⟨e, _, rfl⟩) | rfl)
    · decide
    · simp only [String.data_append, List.mem_append, not_or]
      exact ⟨by decide, hLR⟩
    · decide
    · decide
    · simp only [String.data_append, List.mem_append, not_or]
      exact ⟨by decide, hq v⟩
    · decide
    · decide
    · simp only [String.data_append, List.mem_append, not_or]
      exact ⟨⟨⟨by decide, hq e.From⟩, by decide⟩, hq e.To⟩
    · decide
  unfold lines
  rw [MarshalDOT_data, map_data_newline]
  have h1 := splitLines_flatten _ hfree []
  rw [List.append_nil] at h1
  rw [h1]
  simp only [List.map_append, List.map_map, List.append_assoc]
  rfl

/-- C28 (DOT stability): when `%q` writes no newline for the display names, the text of
`MarshalDOT(g)` consists, for every iteration order, of the line `digraph {`, the
`rankdir` line, a blank line and the comment `// Vertices:`, one quoted-name line per node,
a blank line and the comment `// Edges:`, one `"from" -> "to"` line per edge, and the
closing `}` (followed by the empty text after the last newline); and for any two iteration
orders of the node set and of the edge sets the two texts have the same lines up to their
order, hence identical sorted lists of lines. -/
theorem dot_stability (name : Node → String) (quote : String → String)
    (hLR : '\n' ∉ (quote "LR").data) (hq : ∀ v, '\n' ∉ (quote (name v)).data)
    (ordN ordK ordN2 ordK2 : List Node → List Node)
    (ordV ordV2 : Node → List Node → List Node)
    (hN : ∀ l, (ordN l).Perm l) (hK : ∀ l, (ordK l).Perm l) (hV : ∀ n l, (ordV n l).Perm l)
    (hN2 : ∀ l, (ordN2 l).Perm l) (hK2 : ∀ l, (ordK2 l).Perm l)
    (hV2 : ∀ n l, (ordV2 n l).Perm l) (g : Graph) :
    lines (MarshalDOT name quote ordN ordK ordV g) =
      ["digraph \x7b", "\trankdir=" ++ quote "LR", "", "\t// Vertices:"] ++
        (g.Nodes ordN).map (fun v => "\t" ++ quote (name v)) ++
        ["", "\t// Edges:"] ++
        (g.Edges ordK ordV).map (fun e =>
          "\t" ++ quote (name e.From) ++ " -> " ++ quote (name e.To)) ++
        ["\x7d", ""] ∧
    (lines (MarshalDOT name quote ordN ordK ordV g)).Perm
      (lines (MarshalDOT name quote ordN2 ordK2 ordV2 g)) ∧
    (lines (MarshalDOT name quote ordN ordK ordV g)).insertionSort (fun a b => a ≤ b) =
      (lines (MarshalDOT name quote ordN2 ordK2 ordV2 g)).insertionSort (fun a b => a ≤ b) := by
  have hnodes : (g.Nodes ordN).Perm (g.Nodes ordN2) := (hN _).trans (hN2 _).symm
  have hedges : (g.Edges ordK ordV).Perm (g.Edges ordK2 ordV2) := by
    unfold Graph.Edges
    refine (List.Perm.flatMap_right _ ((hK _).trans (hK2 _).symm)).trans ?_
    apply List.Perm.flatMap_left
    intro a _
    exact List.Perm.map _ ((hV a _).trans (hV2 a _).symm)
  have hperm : (lines (MarshalDOT name quote ordN ordK ordV g)).Perm
      (lines (MarshalDOT name quote ordN2 ordK2 ordV2 g)) := by
    rw [MarshalDOT_lines name quote hLR hq, MarshalDOT_lines name quote hLR hq]
    exact List.Perm.append (List.Perm.append (List.Perm.append (List.Perm.append
      (List.Perm.refl _) (List.Perm.map _ hnodes)) (List.Perm.refl _))
      (List.Perm.map _ hedges)) (List.Perm.refl _)
  refine ⟨MarshalDOT_lines name quote hLR hq ordN ordK ordV g, hperm, ?_⟩
  apply List.eq_of_perm_of_sorted (r := fun (a b : String) => a ≤ b)
  · exact ((List.perm_insertionSort _ _).trans hperm).trans (List.perm_insertionSort _ _).symm
  · exact List.sorted_insertionSort _ _
  · exact List.sorted_insertionSort _ _

theorem sampleName_quote (v : Node) : '\n' ∉ (Gragent.quotePlain (sampleName v)).data := by
  unfold sampleName
  split <;> decide

theorem dot_stability_witness :
    '\n' ∉ (Gragent.quotePlain "LR").data ∧
    (∀ v, '\n' ∉ (Gragent.quotePlain (sampleName v)).data) ∧
    (∀ l : List Node, (id l).Perm l) ∧ (∀ l : List Node, l.reverse.Perm l) ∧
    (∀ (n : Node) (l : List Node), ((fun _ x => x) n l).Perm l) ∧
    (∀ (n : Node) (l : List Node), ((fun (_ : Node) (x : List Node) => x.reverse) n l).Perm l) ∧
    lines (MarshalDOT sampleName Gragent.quotePlain id id (fun _ x => x) forkGraph) =
      ["digraph \x7b", "\trankdir=" ++ Gragent.quotePlain "LR", "", "\t// Vertices:"] ++
        (forkGraph.Nodes id).map (fun v => "\t" ++ Gragent.quotePlain (sampleName v)) ++
        ["", "\t// Edges:"] ++
        (forkGraph.Edges id (fun _ x => x)).map (fun e =>
          "\t" ++ Gragent.quotePlain (sampleName e.From) ++ " -> " ++
            Gragent.quotePlain (sampleName e.To)) ++
        ["\x7d", ""] ∧
    (lines (MarshalDOT sampleName Gragent.quotePlain id id (fun _ x => x) forkGraph)).Perm
      (lines (MarshalDOT sampleName Gragent.quotePlain List.reverse List.reverse
        (fun (_ : Node) (x : List Node) => x.reverse) forkGraph)) ∧
    (lines (MarshalDOT sampleName Gragent.quotePlain id id (fun _ x => x)
        forkGraph)).insertionSort (fun a b => a ≤ b) =
      (lines (MarshalDOT sampleName Gragent.quotePlain List.reverse List.reverse
        (fun (_ : Node) (x : List Node) => x.reverse) forkGraph)).insertionSort (fun a b => a ≤ b) :=
  ⟨by decide, sampleName_quote, fun l => List.Perm.refl l, fun l => List.reverse_perm l,
    fun _ l => List.Perm.refl l, fun _ l => List.reverse_perm l,
    dot_stability sampleName Gragent.quotePlain (by decide) sampleName_quote id id
      List.reverse List.reverse (fun _ x => x) (fun (_ : Node) (x : List Node) => x.reverse)
      (fun l => List.Perm.refl l) (fun l => List.Perm.refl l) (fun _ l => List.Perm.refl l)
      (fun l => List.reverse_perm l) (fun l => List.reverse_perm l)
      (fun _ l => List.reverse_perm l) forkGraph⟩

end Dag

namespace Gragent

open Dag

/-! ## The published state of a discovery component -/

/-- C22, what the code does: in scenario S1 `Load` constructs the component of the block
under node 1 and runs the evaluation closure on it and on the root without error, but
`CurrentState` returns the empty `Targets` slice whatever the hosts are, so the value
published for `discovery.static.a` has `targets` equal to the empty list, not to a
one-element list. -/
theorem static_state_not_populated :
    (∃ r, Load 20 Sched.inOrder quotePlain scenarioS1 [] (fun _ => logVisit) [] =
      Outcome.done r ∧ r.err = none ∧ r.calls = [1, 0]) ∧
    (∃ st, declareAll LoadState.init scenarioS1.declarations = Outcome.done st ∧
      st.components 1 = some (Component.discovery "static" "a")) ∧
    (Component.discovery "static" "a").CurrentState = some ⟨[]⟩ ∧
    ∃ v, cachedValue id id (encodeDiscoveryStatic scenarioS1Config)
        (Component.discovery "static" "a").CurrentState = Except.ok v ∧
      v.attr "hosts" = some (Value.list [Value.string "h1:1"]) ∧
      v.attr "targets" = some (Value.list []) ∧
      ∀ elem, v.attr "targets" ≠ some (Value.list [elem]) := by
  refine ⟨⟨_, rfl, rfl, rfl⟩, ⟨_, rfl, rfl⟩, rfl, _, rfl, rfl, rfl, ?_⟩
  intro elem h
  simp [Value.attr, Assoc.find, Assoc.put] at h

end Gragent

namespace Gragent

open Dag

/-! ## The registry keys of dot-free identities -/

theorem reference_Equals_iff (r : reference) : ∀ o : reference,
    reference.Equals r o = true ↔ r = o := by
  induction r with
  | nil =>
    intro o
    cases o <;> simp [reference.Equals]
  | cons a r ih =>
    intro o
    cases o with
    | nil => simp [reference.Equals]
    | cons b o =>
      by_cases hab : a = b
      · simp [reference.Equals, hab, ih o]
      · simp [reference.Equals, hab]

/-- After the construction loops of `Load` on blocks whose identities hold no `.` in their
segments, the registry maps the key of every declared identity to a node registered under
that very identity. -/
theorem registry_key_identity (root : rootBlock)
    (hplain : ∀ d, d ∈ root.declarations → ∀ seg, seg ∈ d.id → '.' ∉ seg.data) :
    ∃ st, declareAll LoadState.init root.declarations = Outcome.done st ∧
      ∀ d, d ∈ root.declarations → ∃ n, st.idNodeMap (reference.String d.id) = some n ∧
        st.referenceMap n = some d.id := by
  obtain ⟨st1, hd, _, _, _, _, _, hsplit⟩ :=
    declareAll_spec root.declarations LoadState.init loadInv_init
  obtain ⟨_, hnew⟩ := declareAll_registry root.declarations LoadState.init loadInv_init st1 hd
  refine ⟨st1, hd, ?_⟩
  intro d hmem
  obtain ⟨pre, tgt, post, hT, hsame, hlast⟩ :=
    exists_last_split (fun e => reference.String e.id = reference.String d.id)
      root.declarations ⟨d, hmem, rfl⟩
  obtain ⟨_, _, hid⟩ := hsplit pre tgt post hT
  have hid2 := hid (fun e he => by rw [hsame]; exact hlast e he)
  rw [hsame] at hid2
  have hmemT : tgt ∈ root.declarations := by
    rw [hT]
    simp
  have heq : tgt.id = d.id :=
    reference_eq_of_String_eq tgt.id d.id (declarations_valid root tgt hmemT)
      (declarations_valid root d hmem) (hplain d hmem) hsame
  exact ⟨_, hid2, heq ▸ (hnew pre tgt post hT).2⟩

/-- C31: for references `r` and `o` of the schema whose segments hold no `.`, equal
`String()` texts give `r.Equals(o)`, and `Equals` holds exactly when the two references are
equal as lists; so after the construction loops of `Load` on blocks with dot-free
identities the key of every declared identity leads to a node registered under that
identity.  With `.` in a segment the texts can coincide: `discovery."a.b"."c"` and
`discovery."a"."b.c"` are distinct and both print as `discovery.a.b.c`. -/
theorem reference_String_injective (r o : reference) (hr : r.Valid) (ho : o.Valid)
    (hrp : ∀ seg, seg ∈ r → '.' ∉ seg.data) (hop : ∀ seg, seg ∈ o → '.' ∉ seg.data) :
    (reference.String r = reference.String o → reference.Equals r o = true ∧ r = o) ∧
    (reference.String o = reference.String r → reference.Equals o r = true ∧ o = r) ∧
    (∀ a b : reference, reference.Equals a b = true ↔ a = b) ∧
    (∀ root : rootBlock,
      (∀ d, d ∈ root.declarations → ∀ seg, seg ∈ d.id → '.' ∉ seg.data) →
      ∃ st, declareAll LoadState.init root.declarations = Outcome.done st ∧
        ∀ d, d ∈ root.declarations → ∃ n, st.idNodeMap (reference.String d.id) = some n ∧
          st.referenceMap n = some d.id) ∧
    (reference.Valid ["discovery", "a.b", "c"] ∧ reference.Valid ["discovery", "a", "b.c"] ∧
      (["discovery", "a.b", "c"] : reference) ≠ ["discovery", "a", "b.c"] ∧
      reference.String ["discovery", "a.b", "c"] =
        reference.String ["discovery", "a", "b.c"]) := by
  refine ⟨?_, ?_, fun a b => reference_Equals_iff a b, registry_key_identity, ?_⟩
  · intro h
    have heq := reference_eq_of_String_eq r o hr ho hop h
    exact ⟨(reference_Equals_iff r o).2 heq, heq⟩
  · intro h
    have heq := reference_eq_of_String_eq o r ho hr hrp h
    exact ⟨(reference_Equals_iff o r).2 heq, heq⟩
  · exact ⟨Or.inl ⟨"a.b", "c", rfl⟩, Or.inl ⟨"a", "b.c", rfl⟩, by decide, by decide⟩

theorem reference_String_injective_witness :
    reference.Valid ["discovery", "static", "a"] ∧ reference.Valid ["scrape", "s"] ∧
    (∀ seg, seg ∈ (["discovery", "static", "a"] : reference) → '.' ∉ seg.data) ∧
    (∀ seg, seg ∈ (["scrape", "s"] : reference) → '.' ∉ seg.data) ∧
    ((reference.String ["discovery", "static", "a"] = reference.String ["scrape", "s"] →
      reference.Equals ["discovery", "static", "a"] ["scrape", "s"] = true ∧
        (["discovery", "static", "a"] : reference) = ["scrape", "s"]) ∧
    (reference.String ["scrape", "s"] = reference.String ["discovery", "static", "a"] →
      reference.Equals ["scrape", "s"] ["discovery", "static", "a"] = true ∧
        (["scrape", "s"] : reference) = ["discovery", "static", "a"]) ∧
    (∀ a b : reference, reference.Equals a b = true ↔ a = b) ∧
    (∀ root : rootBlock,
      (∀ d, d ∈ root.declarations → ∀ seg, seg ∈ d.id → '.' ∉ seg.data) →
      ∃ st, declareAll LoadState.init root.declarations = Outcome.done st ∧
        ∀ d, d ∈ root.declarations → ∃ n, st.idNodeMap (reference.String d.id) = some n ∧
          st.referenceMap n = some d.id) ∧
    (reference.Valid ["discovery", "a.b", "c"] ∧ reference.Valid ["discovery", "a", "b.c"] ∧
      (["discovery", "a.b", "c"] : reference) ≠ ["discovery", "a", "b.c"] ∧
      reference.String ["discovery", "a.b", "c"] =
        reference.String ["discovery", "a", "b.c"])) :=
  ⟨Or.inl ⟨"static", "a", rfl⟩, Or.inr (Or.inl ⟨"s", rfl⟩), by decide, by decide,
    reference_String_injective ["discovery", "static", "a"] ["scrape", "s"]
      (Or.inl ⟨"static", "a", rfl⟩) (Or.inr (Or.inl ⟨"s", rfl⟩)) (by decide) (by decide)⟩

end Gragent

namespace Gragent

/-! ## `mergeState` in the closure of `Load` -/

theorem cachedValue_discovery (ordIn ordSt : List (String × Value) → List (String × Value))
    (hIn : ∀ l, (ordIn l).Perm l) (hSt : ∀ l, (ordSt l).Perm l) (kind name : String)
    (ia : List (String × Value)) (hia : (Assoc.keys ia).Nodup)
    (hdis : "targets" ∉ Assoc.keys ia) :
    ∃ out, cachedValue ordIn ordSt (Value.object ia)
      (Component.discovery kind name).CurrentState = Except.ok out := by
  obtain ⟨_, hok⟩ := mergeState_objects ordIn ordSt hIn hSt ia
    [("targets", Value.list (([] : List TargetGroup).map encodeTargetGroup))] hia
    (by simp [Assoc.keys])
  obtain ⟨merged, hm, _⟩ := hok (by
    intro key hkey hmem
    simp only [Assoc.keys, List.map_cons, List.map_nil, List.mem_singleton] at hmem
    exact hdis (hmem ▸ hkey))
  exact ⟨Value.object merged, hm⟩

/-- C32: whenever `Evaluate` of a component that `Load` constructs returns a value without
error diagnostics, the closure of `Load` gets its published value without a panic of
`mergeState`, for all iteration orders.  For a discovery component (kind static or chain,
the only kinds `Evaluate` does not reject) the encoded input and the encoded state are
objects, with the field names `hosts`, `labels` or `input` for the input and `targets` for
the state, and no name in both; for a scrape or remote_write component `CurrentState` is nil
and the input is published as it is. -/
theorem merge_conflict_unreachable
    (ordIn ordSt : List (String × Value) → List (String × Value))
    (hIn : ∀ l, (ordIn l).Perm l) (hSt : ∀ l, (ordSt l).Perm l) (c : Component)
    (dec : Decoded) (v : InputVal) (h : c.Evaluate dec = some v) :
    (∃ out, cachedValue ordIn ordSt (encodeInput v) c.CurrentState = Except.ok out) ∧
    (∀ st, c.CurrentState = some st →
      (∃ kind name, c = Component.discovery kind name ∧ (kind = "static" ∨ kind = "chain")) ∧
      (encodeInput v).IsObjectType = true ∧ (encodeState st).IsObjectType = true ∧
      ((encodeInput v).fieldNames = ["hosts", "labels"] ∨
        (encodeInput v).fieldNames = ["input"]) ∧
      (encodeState st).fieldNames = ["targets"] ∧
      ∀ key, key ∈ (encodeInput v).fieldNames → key ∉ (encodeState st).fieldNames) ∧
    (c.CurrentState = none →
      ((∃ id, c = Component.scrape id) ∨ (∃ id, c = Component.remoteWrite id)) ∧
      cachedValue ordIn ordSt (encodeInput v) c.CurrentState = Except.ok (encodeInput v)) := by
  cases c with
  | discovery kind name =>
    by_cases hs : kind = "static"
    · simp only [Component.Evaluate, hs, if_true, Option.map_eq_some'] at h
      obtain ⟨cfg, _, rfl⟩ := h
      refine ⟨?_, ?_, fun hn => by simp [Component.CurrentState] at hn⟩
      · exact cachedValue_discovery ordIn ordSt hIn hSt kind name
          [("hosts", Value.list (cfg.Hosts.map Value.string)),
            ("labels", encodeLabels cfg.Labels)]
          (by simp [Assoc.keys]) (by simp [Assoc.keys])
      · intro st _
        refine ⟨⟨kind, name, rfl, Or.inl hs⟩, rfl, rfl, Or.inl rfl, rfl, ?_⟩
        intro key hkey
        simp only [encodeInput, encodeDiscoveryStatic, Value.fieldNames, Assoc.keys,
          List.map_cons, List.map_nil, List.mem_cons, List.mem_singleton, List.not_mem_nil,
          or_false] at hkey
        rcases hkey with rfl | rfl <;> simp [encodeState, Value.fieldNames, Assoc.keys]
    · by_cases hc : kind = "chain"
      · simp only [Component.Evaluate, hs, hc, if_true, if_false, Option.map_eq_some'] at h
        have hne : ¬ ("chain" = "static") := by decide
        simp only [hne, if_false, Option.map_eq_some'] at h
        obtain ⟨cfg, _, rfl⟩ := h
        refine ⟨?_, ?_, fun hn => by simp [Component.CurrentState] at hn⟩
        · exact cachedValue_discovery ordIn ordSt hIn hSt kind name
            [("input", Value.list (cfg.Input.map encodeTargetGroup))]
            (by simp [Assoc.keys]) (by simp [Assoc.keys])
        · intro st _
          refine ⟨⟨kind, name, rfl, Or.inr hc⟩, rfl, rfl, Or.inr rfl, rfl, ?_⟩
          intro key hkey
          simp only [encodeInput, encodeDiscoveryChain, Value.fieldNames, Assoc.keys,
            List.map_cons, List.map_nil, List.mem_singleton] at hkey
          subst hkey
          simp [encodeState, Value.fieldNames, Assoc.keys]
      · simp [Component.Evaluate, hs, hc] at h
  | scrape id =>
    refine ⟨⟨_, rfl⟩, fun st hst => by simp [Component.CurrentState] at hst, fun _ => ?_⟩
    exact ⟨Or.inl ⟨id, rfl⟩, rfl⟩
  | remoteWrite id =>
    refine ⟨⟨_, rfl⟩, fun st hst => by simp [Component.CurrentState] at hst, fun _ => ?_⟩
    exact ⟨Or.inr ⟨id, rfl⟩, rfl⟩

theorem merge_conflict_unreachable_witness :
    (∀ l : List (String × Value), (id l).Perm l) ∧
    (Component.discovery "static" "a").Evaluate scenarioS1Decoded =
      some (InputVal.static scenarioS1Config) ∧
    (∃ out, cachedValue id id (encodeInput (InputVal.static scenarioS1Config))
      (Component.discovery "static" "a").CurrentState = Except.ok out) ∧
    (∀ st, (Component.discovery "static" "a").CurrentState = some st →
      (∃ kind name, Component.discovery "static" "a" = Component.discovery kind name ∧
        (kind = "static" ∨ kind = "chain")) ∧
      (encodeInput (InputVal.static scenarioS1Config)).IsObjectType = true ∧
      (encodeState st).IsObjectType = true ∧
      ((encodeInput (InputVal.static scenarioS1Config)).fieldNames = ["hosts", "labels"] ∨
        (encodeInput (InputVal.static scenarioS1Config)).fieldNames = ["input"]) ∧
      (encodeState st).fieldNames = ["targets"] ∧
      ∀ key, key ∈ (encodeInput (InputVal.static scenarioS1Config)).fieldNames →
        key ∉ (encodeState st).fieldNames) ∧
    ((Component.discovery "static" "a").CurrentState = none →
      ((∃ id, Component.discovery "static" "a" = Component.scrape id) ∨
        (∃ id, Component.discovery "static" "a" = Component.remoteWrite id)) ∧
      cachedValue id id (encodeInput (InputVal.static scenarioS1Config))
        (Component.discovery "static" "a").CurrentState =
          Except.ok (encodeInput (InputVal.static scenarioS1Config))) :=
  ⟨fun l => List.Perm.refl l, rfl,
    merge_conflict_unreachable id id (fun l => List.Perm.refl l) (fun l => List.Perm.refl l)
      (Component.discovery "static" "a") scenarioS1Decoded (InputVal.static scenarioS1Config)
      rfl⟩

end Gragent
